import Mathlib

set_option maxRecDepth 100000
set_option maxHeartbeats 1000000

namespace EbnfDoc

/-! Shallow embedding of the EBNF-documentation core (`src/syntax.py` and
`src/spec.py`): the syntax-tree model, the recursive-descent notation reader,
the text projection `toEbnf` and the diagram projection `toRailroad`.

The reader operates on a fixed source `s : List Char` with a cursor offset,
mirroring the mutable `self.off` of the Python `Reader`.  The unbounded
`while` loops and the mutual recursion of the reader are expressed with an
explicit fuel argument; fuel exhaustion is a distinguished outcome
(`PResult.outOfFuel`) that is proved unreachable for sufficient fuel.
Python string slices clamp to the string bounds, which `List.take`/`List.drop`
mirror exactly.  The regexes of the source are hand-compiled into scanners
below; `\w`, `\d` and the hex class are modelled over ASCII. -/

/-- Whitespace test of the regex `\s` on a Python `str` (ASCII whitespace plus
the Unicode white-space code points recognised by Python's `re`). -/
def pyIsSpace (c : Char) : Bool :=
  c = ' ' || c = '\t' || c = '\n' || c = '\x0b' || c = '\x0c' || c = '\r' ||
  c = '\x1c' || c = '\x1d' || c = '\x1e' || c = '\x1f' || c = '\x85' || c = '\xa0' ||
  c = '\u1680' || ('\u2000' ≤ c && c ≤ '\u200a') || c = '\u2028' || c = '\u2029' ||
  c = '\u202f' || c = '\u205f' || c = '\u3000'

/-- Word-character test of the regex `\w` (modelled over ASCII). -/
def pyIsWord (c : Char) : Bool := c.isAlphanum || c = '_'

/-- Continuation characters of the identifier regex `\w[\w.-]*`. -/
def identCont (c : Char) : Bool := pyIsWord c || c = '.' || c = '-'

/-- Hex-digit test for the class `[\da-fA-F]` (modelled over ASCII). -/
def pyIsHex (c : Char) : Bool := c.isDigit || ('a' ≤ c && c ≤ 'f') || ('A' ≤ c && c ≤ 'F')

/-- Length matched by `_identifier = \w[\w.-]*` at the head of the list. -/
def identLen : List Char → Option Nat
  | c :: rest => if pyIsWord c then some (1 + (rest.takeWhile identCont).length) else none
  | [] => none

/-- Scanner for the body-and-closing-delimiter part of `(?:[^Q\\]|\\.)*Q`
where `Q` is the delimiter: used by the literal regexes `_literal_sq`,
`_literal_dq` and the slash-delimited part of `_regex`.  The dot of `\\.`
does not match a newline, and the scan is deterministic because no
alternative can consume an unescaped delimiter. -/
def scanLitBody (q : Char) : List Char → Option Nat
  | [] => none
  | c :: rest =>
    if c = q then some 1
    else if c = '\\' then
      match rest with
      | [] => none
      | d :: rest2 => if d = '\n' then none else (scanLitBody q rest2).map (· + 2)
    else (scanLitBody q rest).map (· + 1)

/-- Length matched by a quote-delimited literal regex (`_literal_sq` with
`q = '\''`, `_literal_dq` with `q = '"'`). -/
def litLen (q : Char) : List Char → Option Nat
  | c :: rest => if c = q then (scanLitBody q rest).map (· + 1) else none
  | [] => none

/-- Length matched by `_regex = /(?:[^/\\]|\\.)*/i?`. -/
def regexLen : List Char → Option Nat
  | '/' :: rest =>
    match scanLitBody '/' rest with
    | some n => some (if (rest.drop n).head? = some 'i' then n + 2 else n + 1)
    | none => none
  | _ => none

/-- Backtracking search of the comment regex
`/\*(?:[^*/]|[^*]/|\*[^/])*\*/` after the opening `/\*` has been consumed:
the greedy star prefers one more iteration over exiting, the iteration tries
the three element alternatives in the order of the pattern, and exiting
matches the closing `\*/`.  Returns the number of characters consumed by the
first successful path in that depth-first order, exactly as Python's
backtracking engine does. -/
def commentTail : List Char → Option Nat
  | c :: d :: rest =>
    (if c ≠ '*' && c ≠ '/' then (commentTail (d :: rest)).map (· + 1) else none) <|>
    (if c ≠ '*' && d = '/' then (commentTail rest).map (· + 2) else none) <|>
    (if c = '*' && d ≠ '/' then (commentTail rest).map (· + 2) else none) <|>
    (if c = '*' && d = '/' then some 2 else none)
  | _ => none

/-- Length matched by `_comment` at the head of the list. -/
def commentLen : List Char → Option Nat
  | '/' :: '*' :: rest => (commentTail rest).map (· + 2)
  | _ => none

/-- The four characters that a bare class character must not be
(`[^\[\]\\-]`) and that a simple escape may be (`\\[\[\]\\-]`). -/
def isClassMeta (c : Char) : Bool := c = '[' || c = ']' || c = '\\' || c = '-'

/-- Length matched by one `_class_char` unit:
`[^\[\]\\-] | \\[\[\]\\-] | \\xHH | \\uHHHH | \\U{H_1,6_}`. -/
def ccLen : List Char → Option Nat
  | [] => none
  | '\\' :: rest =>
    match rest with
    | [] => none
    | d :: rest2 =>
      if isClassMeta d then some 2
      else if d = 'x' then
        match rest2 with
        | h1 :: h2 :: _ => if pyIsHex h1 && pyIsHex h2 then some 4 else none
        | _ => none
      else if d = 'u' then
        match rest2 with
        | h1 :: h2 :: h3 :: h4 :: _ =>
          if pyIsHex h1 && pyIsHex h2 && pyIsHex h3 && pyIsHex h4 then some 6 else none
        | _ => none
      else if d = 'U' then
        match rest2 with
        | '\x7b' :: rest3 =>
          let run := rest3.takeWhile pyIsHex
          if 1 ≤ run.length && run.length ≤ 6 && (rest3.drop run.length).head? = some '\x7d'
          then some (run.length + 4) else none
        | _ => none
      else none
  | c :: _ => if isClassMeta c then none else some 1

/-- Length matched by `_class_item = cc(-(cc))?` (a class character optionally
extended to a range). -/
def classItemLen (l : List Char) : Option Nat :=
  match ccLen l with
  | none => none
  | some n =>
    match (l.drop n).head? with
    | some '-' =>
      match ccLen (l.drop (n + 1)) with
      | some m => some (n + 1 + m)
      | none => some n
    | _ => some n

/-- Length matched by `_class_builtin = \\[DSWdsw]`. -/
def classBuiltinLen : List Char → Option Nat
  | '\\' :: d :: _ =>
    if d = 'D' || d = 'S' || d = 'W' || d = 'd' || d = 's' || d = 'w' then some 2 else none
  | _ => none

/-- The cursor after `Reader.skipWhitespace` from offset `off`
(the `\s+` match, a no-op when no whitespace is present). -/
def skipWhitespace (s : List Char) (off : Nat) : Nat :=
  off + ((s.drop off).takeWhile pyIsSpace).length

/-- The slice `s[a:b]` of the source as a character list (Python slices clamp
to the bounds, as `drop`/`take` do). -/
def extractL (s : List Char) (a b : Nat) : List Char := (s.drop a).take (b - a)

/-- The slice `s[a:b]` of the source as a string. -/
def extract (s : List Char) (a b : Nat) : String := (extractL s a b).asString

/-- `Reader.readLiteral`: optionally skip whitespace, then consume `value` if
it is the next slice.  Returns the success flag and the new cursor; on
failure the cursor still reflects the whitespace skip, as in the source. -/
def readLiteral (s : List Char) (off : Nat) (value : List Char) (skipWs : Bool) :
    Bool × Nat :=
  let o := if skipWs then skipWhitespace s off else off
  if (s.drop o).take value.length = value then (true, o + value.length) else (false, o)

/-- `Reader.readMatch` specialised to a scanner `m` operating on the suffix:
optionally skip whitespace, run the scanner at the new cursor.  Returns the
match end (if any) and the new cursor. -/
def readMatch (s : List Char) (off : Nat) (m : List Char → Option Nat) (skipWs : Bool) :
    Option Nat × Nat :=
  let o := if skipWs then skipWhitespace s off else off
  match m (s.drop o) with
  | some n => (some (o + n), o + n)
  | none => (none, o)

/-- Anchored match of scanner `m` at absolute offset `o` (no whitespace skip),
returning the absolute end offset. -/
def matchAt (s : List Char) (o : Nat) (m : List Char → Option Nat) : Option Nat :=
  (m (s.drop o)).map (o + ·)

/-! The positioned error message of `Reader.error`. -/

/-- The line/column/line-start loop of `Reader.error`: fold over the processed
prefix tracking the previous character, counting `\r`, `\n` and `\r\n` as one
line break each.  `ls` is the source's `lineStart` variable: the index AT the
most recent line-break character (not the index after it). -/
def lcLoop : List Char → Nat → Option Char → Nat → Nat → Nat → Nat × Nat × Nat
  | [], _, _, line, col, ls => (line, col, ls)
  | c :: rest, i, last, line, col, ls =>
    if c = '\r' then lcLoop rest (i + 1) (some c) (line + 1) 1 i
    else if c = '\n' then
      if last = some '\r' then lcLoop rest (i + 1) (some c) line col ls
      else lcLoop rest (i + 1) (some c) (line + 1) 1 i
    else lcLoop rest (i + 1) (some c) line (col + 1) ls

/-- The `for i in range(off, min(off + 40, len(source)))` search of
`Reader.error` for the first `\r` or `\n` at or after the failure offset;
`count` is the number of positions left to inspect. -/
def findBreak (s : List Char) : Nat → Nat → Option Nat
  | _, 0 => none
  | i, count + 1 =>
    match s[i]? with
    | some c => if c = '\r' || c = '\n' then some i else findBreak s (i + 1) count
    | none => none

/-- Python's `str.replace('%p', v)`: replace every occurrence of `%p`. -/
def replacePct : List Char → List Char → List Char
  | [], _ => []
  | '%' :: 'p' :: rest, v => v ++ replacePct rest v
  | c :: rest, v => c :: replacePct rest v

/-- `Reader.error`: format `msg` (with `%p` replaced by `line:col`) followed by
an excerpt of the source around the failure offset and a caret line.
`max (off - 40) lineStart` over naturals agrees with Python's
`max(self.off - 40, lineStart)` over ints because `lineStart` is
non-negative.  The `lineEnd or (off + 40)` of the source treats a found
index 0 like `None` (Python falsiness), which the `some 0` case mirrors. -/
def errorMsg (s : List Char) (off : Nat) (msg : List Char) : String :=
  let lcs := lcLoop (s.take off) 0 none 1 1 0
  let line := lcs.1
  let col := lcs.2.1
  let lineStart := lcs.2.2
  let textStart := max (off - 40) lineStart
  let lineEnd := findBreak s off (min (off + 40) s.length - off)
  let textEnd := match lineEnd with
    | some k => if k = 0 then off + 40 else k
    | none => off + 40
  let text := extractL s textStart textEnd
  let offset := off - textStart
  let posStr := (toString line ++ ":" ++ toString col).data
  (replacePct msg posStr ++ ('\n' :: text) ++ ('\n' :: List.replicate offset ' ') ++ ['^']).asString

/-! The syntax-tree model of `src/syntax.py`.  The `Container` base class
rejects fewer than two items at construction time; here container
constructors take an arbitrary list and the at-least-two property is proved
as an invariant of every tree the reader produces. -/

/-- Tree nodes: `Alternation`/`Sequence` containers, the three quantifiers,
and the `Terminal` (text plus classification tag, `""` for untagged) and
`NonTerminal` leaves. -/
inductive Node where
  | Alternation : List Node → Node
  | Sequence : List Node → Node
  | Optional : Node → Node
  | ZeroOrMore : Node → Node
  | OneOrMore : Node → Node
  | Terminal : String → String → Node
  | NonTerminal : String → Node

mutual
/-- Structural boolean equality on trees. -/
def beqN : Node → Node → Bool
  | .Alternation xs, .Alternation ys => beqL xs ys
  | .Sequence xs, .Sequence ys => beqL xs ys
  | .Optional x, .Optional y => beqN x y
  | .ZeroOrMore x, .ZeroOrMore y => beqN x y
  | .OneOrMore x, .OneOrMore y => beqN x y
  | .Terminal t c, .Terminal t2 c2 => t == t2 && c == c2
  | .NonTerminal t, .NonTerminal t2 => t == t2
  | _, _ => false

/-- Structural boolean equality on lists of trees. -/
def beqL : List Node → List Node → Bool
  | [], [] => true
  | x :: xs, y :: ys => beqN x y && beqL xs ys
  | _, _ => false
end

mutual
theorem beqN_iff : ∀ a b : Node, beqN a b = true ↔ a = b
  | .Alternation xs, .Alternation ys => by
      simp only [beqN, Node.Alternation.injEq]; exact beqL_iff xs ys
  | .Alternation _, .Sequence _ => by simp [beqN]
  | .Alternation _, .Optional _ => by simp [beqN]
  | .Alternation _, .ZeroOrMore _ => by simp [beqN]
  | .Alternation _, .OneOrMore _ => by simp [beqN]
  | .Alternation _, .Terminal _ _ => by simp [beqN]
  | .Alternation _, .NonTerminal _ => by simp [beqN]
  | .Sequence xs, .Sequence ys => by
      simp only [beqN, Node.Sequence.injEq]; exact beqL_iff xs ys
  | .Sequence _, .Alternation _ => by simp [beqN]
  | .Sequence _, .Optional _ => by simp [beqN]
  | .Sequence _, .ZeroOrMore _ => by simp [beqN]
  | .Sequence _, .OneOrMore _ => by simp [beqN]
  | .Sequence _, .Terminal _ _ => by simp [beqN]
  | .Sequence _, .NonTerminal _ => by simp [beqN]
  | .Optional x, .Optional y => by
      simp only [beqN, Node.Optional.injEq]; exact beqN_iff x y
  | .Optional _, .Alternation _ => by simp [beqN]
  | .Optional _, .Sequence _ => by simp [beqN]
  | .Optional _, .ZeroOrMore _ => by simp [beqN]
  | .Optional _, .OneOrMore _ => by simp [beqN]
  | .Optional _, .Terminal _ _ => by simp [beqN]
  | .Optional _, .NonTerminal _ => by simp [beqN]
  | .ZeroOrMore x, .ZeroOrMore y => by
      simp only [beqN, Node.ZeroOrMore.injEq]; exact beqN_iff x y
  | .ZeroOrMore _, .Alternation _ => by simp [beqN]
  | .ZeroOrMore _, .Sequence _ => by simp [beqN]
  | .ZeroOrMore _, .Optional _ => by simp [beqN]
  | .ZeroOrMore _, .OneOrMore _ => by simp [beqN]
  | .ZeroOrMore _, .Terminal _ _ => by simp [beqN]
  | .ZeroOrMore _, .NonTerminal _ => by simp [beqN]
  | .OneOrMore x, .OneOrMore y => by
      simp only [beqN, Node.OneOrMore.injEq]; exact beqN_iff x y
  | .OneOrMore _, .Alternation _ => by simp [beqN]
  | .OneOrMore _, .Sequence _ => by simp [beqN]
  | .OneOrMore _, .Optional _ => by simp [beqN]
  | .OneOrMore _, .ZeroOrMore _ => by simp [beqN]
  | .OneOrMore _, .Terminal _ _ => by simp [beqN]
  | .OneOrMore _, .NonTerminal _ => by simp [beqN]
  | .Terminal _ _, .Terminal _ _ => by simp [beqN]
  | .Terminal _ _, .Alternation _ => by simp [beqN]
  | .Terminal _ _, .Sequence _ => by simp [beqN]
  | .Terminal _ _, .Optional _ => by simp [beqN]
  | .Terminal _ _, .ZeroOrMore _ => by simp [beqN]
  | .Terminal _ _, .OneOrMore _ => by simp [beqN]
  | .Terminal _ _, .NonTerminal _ => by simp [beqN]
  | .NonTerminal _, .NonTerminal _ => by simp [beqN]
  | .NonTerminal _, .Alternation _ => by simp [beqN]
  | .NonTerminal _, .Sequence _ => by simp [beqN]
  | .NonTerminal _, .Optional _ => by simp [beqN]
  | .NonTerminal _, .ZeroOrMore _ => by simp [beqN]
  | .NonTerminal _, .OneOrMore _ => by simp [beqN]
  | .NonTerminal _, .Terminal _ _ => by simp [beqN]
theorem beqL_iff : ∀ xs ys : List Node, beqL xs ys = true ↔ xs = ys
  | [], [] => by simp [beqL]
  | x :: xs, y :: ys => by
      simp only [beqL, Bool.and_eq_true, List.cons.injEq]
      exact and_congr (beqN_iff x y) (beqL_iff xs ys)
  | [], _ :: _ => by simp [beqL]
  | _ :: _, [] => by simp [beqL]
end

instance : DecidableEq Node := fun a b => decidable_of_iff (beqN a b = true) (beqN_iff a b)

/-- Outcome of a reader call: a value, a raised `ValueError` carrying the
formatted message, or fuel exhaustion (no Python counterpart; proved
unreachable for sufficient fuel). -/
inductive PResult (α : Type) where
  | ok (val : α)
  | err (msg : String)
  | outOfFuel
  deriving DecidableEq

/-- Message template of the generic invalid-character error. -/
def invalidCharMsg : List Char := "error at %p: invalid character".data

/-- Message template raised when a group's closing parenthesis is missing. -/
def closingBraceMsg : List Char := "error at %p: expecting closing brace ')'".data

/-- Message template raised when a character class has no items. -/
def classItemsMsg : List Char := "error at %p: expecting char-class items".data

/-- Message template raised when a character class is not closed. -/
def closingBracketMsg : List Char := "error at %p: expecting closing ']'".data

/-- The quantifier tail of `Reader.readItem`: after an atom, greedily check
for exactly one of `?`, `*`, `+` (each check skipping whitespace and leaving
its cursor movement in place, as the source's sequential `readLiteral` calls
do) and wrap the atom at most once. -/
def readQuantifier (s : List Char) (item : Node) (off : Nat) : Node × Nat :=
  let r1 := readLiteral s off ['?'] true
  if r1.1 then (.Optional item, r1.2)
  else
    let r2 := readLiteral s r1.2 ['*'] true
    if r2.1 then (.ZeroOrMore item, r2.2)
    else
      let r3 := readLiteral s r2.2 ['+'] true
      if r3.1 then (.OneOrMore item, r3.2)
      else (item, r3.2)

/-- The `return Terminal(f'[{...}]', cls="char-class")` tail of
`Reader.readClass`: require the closing `]` (no whitespace skip) and build
the class text from the collected item texts. -/
def closeClass (s : List Char) (items : List (List Char)) (off : Nat) :
    PResult (Option String × Nat) :=
  let r := readLiteral s off [']'] false
  if r.1 then .ok (some (('[' :: items.flatten ++ [']']).asString), r.2)
  else .err (errorMsg s r.2 closingBracketMsg)

/-- `Reader.readClassItem`: a built-in escape (`\D \S \W \d \s \w`) or a
`_class_item`, with no whitespace skip; returns the matched text and the new
cursor. -/
def readClassItem (s : List Char) (off : Nat) : Option (List Char × Nat) :=
  match matchAt s off classBuiltinLen with
  | some e => some (extractL s off e, e)
  | none =>
    match matchAt s off classItemLen with
    | some e => some (extractL s off e, e)
    | none => none

/-- Command type naming the mutually recursive reader procedures
(`readAlternation`, its loop, `readSequence`, its loop, `readItem`,
`readClass` and its item loop), used to express the mutual recursion as one
fuel-indexed function that the kernel can evaluate. -/
inductive RCmd where
  | alt (off : Nat)
  | altLoop (off : Nat) (acc : List Node)
  | seq (off : Nat)
  | seqLoop (off : Nat) (acc : List Node)
  | item (off : Nat)
  | charClass (off : Nat)
  | classItems (off : Nat) (acc : List (List Char))

/-- Result type of each reader procedure. -/
def ROutT : RCmd → Type
  | .alt _ => Node × Nat
  | .altLoop _ _ => Node × Nat
  | .seq _ => Node × Nat
  | .seqLoop _ _ => Node × Nat
  | .item _ => Option Node × Nat
  | .charClass _ => Option String × Nat
  | .classItems _ _ => List (List Char) × Nat

/-- Body of the `while True` loop of `Reader.readAlternation`,
parameterised over the recursive calls (`recSeq` is `readSequence`, `recLoop`
the next loop iteration): read a sequence, append it, continue while a `|`
follows; then collapse a one-element list to its element (an empty list is
unreachable because `readSequence` raises first, but the source's `else`
branch is kept). -/
def altLoopBody (s : List Char) (recSeq : Nat → PResult (Node × Nat))
    (recLoop : Nat → List Node → PResult (Node × Nat)) (off : Nat) (acc : List Node) :
    PResult (Node × Nat) :=
  match recSeq off with
  | .ok (node, off1) =>
    let acc2 := acc ++ [node]
    let r := readLiteral s off1 ['|'] true
    if r.1 then recLoop r.2 acc2
    else
      if acc2.length > 1 then .ok (.Alternation acc2, r.2)
      else
        match acc2 with
        | [x] => .ok (x, r.2)
        | _ => .err (errorMsg s r.2 invalidCharMsg)
  | .err m => .err m
  | .outOfFuel => .outOfFuel

/-- Body of the `while True` loop of `Reader.readSequence` (`recItem` is
`readItem`, `recLoop` the next loop iteration): read items while `readItem`
succeeds; then collapse a one-element list to its element and raise on an
empty list. -/
def seqLoopBody (s : List Char) (recItem : Nat → PResult (Option Node × Nat))
    (recLoop : Nat → List Node → PResult (Node × Nat)) (off : Nat) (acc : List Node) :
    PResult (Node × Nat) :=
  match recItem off with
  | .ok (some item, off1) => recLoop off1 (acc ++ [item])
  | .ok (none, off1) =>
    if acc.length > 1 then .ok (.Sequence acc, off1)
    else
      match acc with
      | [x] => .ok (x, off1)
      | _ => .err (errorMsg s off1 invalidCharMsg)
  | .err m => .err m
  | .outOfFuel => .outOfFuel

/-- Body of `Reader.readItem` (`recCls` is `readClass`, `recAlt` is
`readAlternation` for a parenthesised group): try in order identifier,
single-quoted literal, double-quoted literal, comment (returned without
quantifier application), regex, character class, `.`, group; apply the
quantifier tail to every successful atom except a comment; return `none`
(with the cursor after the whitespace skip) when nothing matches.
`skipWhitespace` is idempotent, so the repeated whitespace skips the source
performs before each matcher are collapsed into the single initial skip.
The source's `if not item:` check after a group's inner `readAlternation` is
dead code (a returned node is always truthy) and is omitted. -/
def itemBody (s : List Char) (recCls : Nat → PResult (Option String × Nat))
    (recAlt : Nat → PResult (Node × Nat)) (off : Nat) : PResult (Option Node × Nat) :=
  let o := skipWhitespace s off
  match matchAt s o identLen with
  | some e =>
    let q := readQuantifier s (.NonTerminal (extract s o e)) e
    .ok (some q.1, q.2)
  | none =>
  match matchAt s o (litLen '\'') with
  | some e =>
    let q := readQuantifier s (.Terminal (extract s o e) "literal") e
    .ok (some q.1, q.2)
  | none =>
  match matchAt s o (litLen '"') with
  | some e =>
    let q := readQuantifier s (.Terminal (extract s o e) "literal") e
    .ok (some q.1, q.2)
  | none =>
  match matchAt s o commentLen with
  | some e => .ok (some (.Terminal (extract s o e) "comment"), e)
  | none =>
  match matchAt s o regexLen with
  | some e =>
    let q := readQuantifier s (.Terminal (extract s o e) "regex") e
    .ok (some q.1, q.2)
  | none =>
  match recCls o with
  | .ok (some text, e) =>
    let q := readQuantifier s (.Terminal text "char-class") e
    .ok (some q.1, q.2)
  | .ok (none, o2) =>
    let rDot := readLiteral s o2 ['.'] true
    if rDot.1 then
      let q := readQuantifier s (.Terminal "." "char-class") rDot.2
      .ok (some q.1, q.2)
    else
      let rPar := readLiteral s rDot.2 ['('] true
      if rPar.1 then
        match recAlt rPar.2 with
        | .ok (node, off2) =>
          let rClose := readLiteral s off2 [')'] true
          if rClose.1 then
            let q := readQuantifier s node rClose.2
            .ok (some q.1, q.2)
          else .err (errorMsg s rClose.2 closingBraceMsg)
        | .err m => .err m
        | .outOfFuel => .outOfFuel
      else .ok (none, rPar.2)
  | .err m => .err m
  | .outOfFuel => .outOfFuel

/-- Body of `Reader.readClass` (`recItems` is the class-item loop, `recCls`
the recursive nested-class call): consume `[`, then the optional `^` and `-`
flags (no whitespace skip), then class items; reject an empty item list; a
trailing bare `-` appends `-` and, if a nested class follows, appends the
nested class's full text; finally require `]`.  Returns `(none, cursor)` when
no `[` is present (the cursor still reflecting the whitespace skip of the
failed `readLiteral`), mirroring the `return None`. -/
def classBody (s : List Char)
    (recItems : Nat → List (List Char) → PResult (List (List Char) × Nat))
    (recCls : Nat → PResult (Option String × Nat)) (off : Nat) :
    PResult (Option String × Nat) :=
  let r := readLiteral s off ['['] true
  if !r.1 then .ok (none, r.2)
  else
    let f1 := readLiteral s r.2 ['^'] false
    let items1 : List (List Char) := if f1.1 then [['^']] else []
    let f2 := readLiteral s f1.2 ['-'] false
    let items2 := items1 ++ (if f2.1 then [['-']] else [])
    match recItems f2.2 items2 with
    | .ok (items3, o3) =>
      if items3.length = 0 then .err (errorMsg s o3 classItemsMsg)
      else
        let f3 := readLiteral s o3 ['-'] false
        if f3.1 then
          match recCls f3.2 with
          | .ok (res, o4) =>
            let items4 := items3 ++ [['-']] ++
              (match res with | some t => [t.data] | none => [])
            closeClass s items4 o4
          | .err m => .err m
          | .outOfFuel => .outOfFuel
        else closeClass s items3 f3.2
    | .err m => .err m
    | .outOfFuel => .outOfFuel

/-- Body of the `while item := readClassItem()` loop of `Reader.readClass`. -/
def classItemsBody (s : List Char)
    (recLoop : Nat → List (List Char) → PResult (List (List Char) × Nat))
    (off : Nat) (acc : List (List Char)) : PResult (List (List Char) × Nat) :=
  match readClassItem s off with
  | some (txt, off2) => recLoop off2 (acc ++ [txt])
  | none => .ok (acc, off)

/-- The reader procedures of `src/syntax.py` as one fuel-indexed dispatcher:
`.alt` is `Reader.readAlternation` entering its loop `.altLoop`, `.seq` is
`Reader.readSequence` entering its loop `.seqLoop`, `.item` is
`Reader.readItem`, `.charClass` is `Reader.readClass` with its item loop
`.classItems`; each call costs one unit of fuel. -/
def step (s : List Char) : (fuel : Nat) → (c : RCmd) → PResult (ROutT c)
  | 0, _ => .outOfFuel
  | fuel + 1, .alt off => step s fuel (.altLoop off [])
  | fuel + 1, .altLoop off acc =>
    altLoopBody s (fun o => step s fuel (.seq o)) (fun o a => step s fuel (.altLoop o a)) off acc
  | fuel + 1, .seq off => step s fuel (.seqLoop off [])
  | fuel + 1, .seqLoop off acc =>
    seqLoopBody s (fun o => step s fuel (.item o)) (fun o a => step s fuel (.seqLoop o a)) off acc
  | fuel + 1, .item off =>
    itemBody s (fun o => step s fuel (.charClass o)) (fun o => step s fuel (.alt o)) off
  | fuel + 1, .charClass off =>
    classBody s (fun o a => step s fuel (.classItems o a)) (fun o => step s fuel (.charClass o)) off
  | fuel + 1, .classItems off acc =>
    classItemsBody s (fun o a => step s fuel (.classItems o a)) off acc

/-- `Reader.readAlternation` at a given fuel. -/
def readAlternation (s : List Char) (fuel off : Nat) : PResult (Node × Nat) :=
  step s fuel (.alt off)

/-- `Reader.readSequence` at a given fuel. -/
def readSequence (s : List Char) (fuel off : Nat) : PResult (Node × Nat) :=
  step s fuel (.seq off)

/-- `Reader.readItem` at a given fuel. -/
def readItem (s : List Char) (fuel off : Nat) : PResult (Option Node × Nat) :=
  step s fuel (.item off)

/-- `Reader.readClass` at a given fuel (named for its result). -/
def readCharClass (s : List Char) (fuel off : Nat) : PResult (Option String × Nat) :=
  step s fuel (.charClass off)

/-- `Reader.read` at a given fuel: read the top-level alternation, then raise
if unconsumed input remains. -/
def readFuel (s : List Char) (fuel : Nat) : PResult Node :=
  match readAlternation s fuel 0 with
  | .ok (node, off) =>
    if off < s.length then .err (errorMsg s off invalidCharMsg) else .ok node
  | .err m => .err m
  | .outOfFuel => .outOfFuel

/-- Fuel that is proved sufficient for a source of the given length. -/
def parseFuel (source : String) : Nat := 6 * source.length + 6

/-- `Reader(source).read()`: the parse of a source string. -/
def read (source : String) : PResult Node := readFuel source.data (parseFuel source)

/-! The text projection of `src/spec.py` (`syn2ebnf_lookup` / `toEbnf`). -/

mutual

/-- `toEbnf(node, brace)`: an Alternation joins its children with `" | "`
passing `brace = false` to each child, a Sequence joins its children with
`" "` passing `brace = true` to each child, a container parenthesises the
joined text exactly when its own `brace` argument is true, a quantifier
renders its child with `brace = true` and appends its suffix, and a leaf
renders its stored text. -/
def toEbnf : Node → Bool → String
  | .Alternation items, brace =>
    let text := toEbnfJoin " | " false items
    if brace then "(" ++ text ++ ")" else text
  | .Sequence items, brace =>
    let text := toEbnfJoin " " true items
    if brace then "(" ++ text ++ ")" else text
  | .Optional item, _ => toEbnf item true ++ "?"
  | .ZeroOrMore item, _ => toEbnf item true ++ "*"
  | .OneOrMore item, _ => toEbnf item true ++ "+"
  | .Terminal text _, _ => text
  | .NonTerminal text, _ => text

/-- `sep.join(toEbnf(x, itemBrace) for x in items)`. -/
def toEbnfJoin (sep : String) (b : Bool) : List Node → String
  | [] => ""
  | [x] => toEbnf x b
  | x :: y :: xs => toEbnf x b ++ sep ++ toEbnfJoin sep b (y :: xs)

end

/-! The diagram projection of `src/spec.py` (`syn2rr_lookup` / `toRailroad`).
The diagram-model primitives of the external `railroad` collaborator are
modelled as an abstract tree. -/

/-- Diagram-model primitives: `rr.Choice(default, *items)`, `rr.Sequence`,
the three repetition primitives, `rr.Terminal(text, cls=...)` and
`rr.NonTerminal(text, href=...)`. -/
inductive RRNode where
  | Choice : Nat → List RRNode → RRNode
  | Sequence : List RRNode → RRNode
  | Optional : RRNode → RRNode
  | ZeroOrMore : RRNode → RRNode
  | OneOrMore : RRNode → RRNode
  | Terminal : String → String → RRNode
  | NonTerminal : String → String → RRNode

mutual

/-- `toRailroad`: the one-to-one mapping from tree nodes to diagram
primitives. -/
def toRailroad : Node → RRNode
  | .Alternation items => .Choice 0 (toRailroadList items)
  | .Sequence items => .Sequence (toRailroadList items)
  | .Optional item => .Optional (toRailroad item)
  | .ZeroOrMore item => .ZeroOrMore (toRailroad item)
  | .OneOrMore item => .OneOrMore (toRailroad item)
  | .Terminal text cls => .Terminal text cls
  | .NonTerminal text => .NonTerminal text ("#rule-" ++ text)

/-- `toRailroad` over a container's child list. -/
def toRailroadList : List Node → List RRNode
  | [] => []
  | x :: xs => toRailroad x :: toRailroadList xs

end


/-! Helper notions and lemmas for the claim theorems. -/

/-- A leaf node (`Terminal` or `NonTerminal`). -/
def isLeaf : Node → Bool
  | .Terminal _ _ => true
  | .NonTerminal _ => true
  | _ => false

/-- The stored text of a leaf node. -/
def leafText : Node → String
  | .Terminal t _ => t
  | .NonTerminal t => t
  | _ => ""

/-- Python's `sep.join(parts)`. -/
def joinSep (sep : String) : List String → String
  | [] => ""
  | [x] => x
  | x :: y :: xs => x ++ sep ++ joinSep sep (y :: xs)

/-- The join used by the container cases of `toEbnf` is the separator-join of
the children each rendered with the container's child-brace argument. -/
theorem toEbnfJoin_eq (sep : String) (b : Bool) :
    ∀ items : List Node,
      toEbnfJoin sep b items = joinSep sep (items.map fun x => toEbnf x b)
  | [] => rfl
  | [_] => rfl
  | x :: y :: xs => by
    have ih := toEbnfJoin_eq sep b (y :: xs)
    simp only [toEbnfJoin, ih, List.map_cons, joinSep]

/-- `toRailroadList` maps `toRailroad` over the list. -/
theorem toRailroadList_eq : ∀ items : List Node,
    toRailroadList items = items.map toRailroad
  | [] => rfl
  | x :: xs => by simp only [toRailroadList, toRailroadList_eq xs, List.map_cons]

/-! Claim theorems. -/

/-- C1 (counterexample): the round-trip property fails as stated.  The source
`"(a|b)|c"` parses to a nested alternation; its text projection with grouping
off is `"a | b | c"` (an alternation child is rendered with `brace = false`,
so the inner alternation loses its parentheses), which re-parses to the
flattened three-way alternation, a tree different from the original. -/
theorem c1_roundtrip_counterexample :
    read "(a|b)|c" =
      .ok (.Alternation [.Alternation [.NonTerminal "a", .NonTerminal "b"],
        .NonTerminal "c"]) ∧
    toEbnf (.Alternation [.Alternation [.NonTerminal "a", .NonTerminal "b"],
        .NonTerminal "c"]) false = "a | b | c" ∧
    read "a | b | c" =
      .ok (.Alternation [.NonTerminal "a", .NonTerminal "b", .NonTerminal "c"]) ∧
    Node.Alternation [.NonTerminal "a", .NonTerminal "b", .NonTerminal "c"] ≠
      .Alternation [.Alternation [.NonTerminal "a", .NonTerminal "b"], .NonTerminal "c"] :=
  ⟨rfl, rfl, rfl, by decide⟩

/-- C3: a block comment atom is returned without quantifier application.
`"/* note */"` parses to a Terminal tagged `"comment"`; with a trailing `?`
the comment is still consumed whole and `read` fails reporting the `?` (at
column 11) as an invalid character; every other atom kind (identifier,
single- and double-quoted literal, regex, character class, `.`, group)
accepts a following quantifier. -/
theorem c3_comment_exclusion :
    read "/* note */" = .ok (.Terminal "/* note */" "comment") ∧
    read "/* note */?" =
      .err "error at 1:11: invalid character\n/* note */?\n          ^" ∧
    read "a?" = .ok (.Optional (.NonTerminal "a")) ∧
    read "'a'?" = .ok (.Optional (.Terminal "'a'" "literal")) ∧
    read "\"a\"?" = .ok (.Optional (.Terminal "\"a\"" "literal")) ∧
    read "/a/?" = .ok (.Optional (.Terminal "/a/" "regex")) ∧
    read "[a]?" = .ok (.Optional (.Terminal "[a]" "char-class")) ∧
    read ".?" = .ok (.Optional (.Terminal "." "char-class")) ∧
    read "(a)?" = .ok (.Optional (.NonTerminal "a")) :=
  ⟨rfl, rfl, rfl, rfl, rfl, rfl, rfl, rfl, rfl⟩

/-- C4: in the text projection, a Sequence joins its children with `" "`
passing `brace = true` to every child, an Alternation joins its children with
`" | "` passing `brace = false` to every child, a container parenthesises its
joined text exactly when its own `brace` argument is true, a quantifier
renders its child with `brace = true` and appends its suffix; consequently
`toEbnf (Sequence [a, Optional b]) false` with `a` and `b` leaves renders as
the two leaf texts separated by a space with `?` appended and no
parentheses — for leaves named `a` and `b`, exactly `"a b?"`. -/
theorem c4_text_projection (a b : Node) (ha : isLeaf a = true) (hb : isLeaf b = true) :
    (∀ items brace, toEbnf (.Sequence items) brace =
      (if brace then "(" ++ joinSep " " (items.map fun x => toEbnf x true) ++ ")"
       else joinSep " " (items.map fun x => toEbnf x true))) ∧
    (∀ items brace, toEbnf (.Alternation items) brace =
      (if brace then "(" ++ joinSep " | " (items.map fun x => toEbnf x false) ++ ")"
       else joinSep " | " (items.map fun x => toEbnf x false))) ∧
    (∀ x brace, toEbnf (.Optional x) brace = toEbnf x true ++ "?") ∧
    (∀ x brace, toEbnf (.ZeroOrMore x) brace = toEbnf x true ++ "*") ∧
    (∀ x brace, toEbnf (.OneOrMore x) brace = toEbnf x true ++ "+") ∧
    toEbnf (.Sequence [a, .Optional b]) false = leafText a ++ " " ++ leafText b ++ "?" := by
  refine ⟨?_, ?_, fun x brace => rfl, fun x brace => rfl, fun x brace => rfl, ?_⟩
  · intro items brace
    simp only [toEbnf, toEbnfJoin_eq]
  · intro items brace
    simp only [toEbnf, toEbnfJoin_eq]
  · cases a with
    | Terminal t c =>
      cases b with
      | Terminal t2 c2 => simp [toEbnf, toEbnfJoin, leafText, String.append_assoc]
      | NonTerminal t2 => simp [toEbnf, toEbnfJoin, leafText, String.append_assoc]
      | _ => simp [isLeaf] at hb
    | NonTerminal t =>
      cases b with
      | Terminal t2 c2 => simp [toEbnf, toEbnfJoin, leafText, String.append_assoc]
      | NonTerminal t2 => simp [toEbnf, toEbnfJoin, leafText, String.append_assoc]
      | _ => simp [isLeaf] at hb
    | _ => simp [isLeaf] at ha

/-- Witness for C4 at the leaves `NonTerminal "a"` and `NonTerminal "b"`:
the hypothesis side conditions hold and the rendering is `"a b?"`. -/
theorem c4_text_projection_witness :
    isLeaf (.NonTerminal "a") = true ∧ isLeaf (.NonTerminal "b") = true ∧
    toEbnf (.Sequence [.NonTerminal "a", .Optional (.NonTerminal "b")]) false = "a b?" :=
  ⟨rfl, rfl, (c4_text_projection (.NonTerminal "a") (.NonTerminal "b") rfl rfl).2.2.2.2.2⟩

/-- C5 (counterexample): the claim says the nested class's inner item text is
spliced into the parent's single pair of enclosing brackets, but
`Reader.readClass` appends `item.text`, the nested class's FULL text
including its own brackets: `"[a-[b]]"` parses to a Terminal whose text
contains two `[` and two `]`, not a single enclosing pair. -/
theorem c5_nested_class_counterexample :
    read "[a-[b]]" = .ok (.Terminal "[a-[b]]" "char-class") ∧
    "[a-[b]]".data.count '[' = 2 ∧ "[a-[b]]".data.count ']' = 2 :=
  ⟨rfl, rfl, rfl⟩

/-- C5 (amended): with a trailing bare `-` followed by a nested character
class, `Reader.readClass` returns a single Terminal tagged `"char-class"`
whose text is the parent's bracket pair enclosing the parent's items, the
trailing `-`, and the nested class's complete bracketed text (brackets
included), concatenated verbatim. -/
theorem c5_nested_class_amended :
    read "[a-[b]]" = .ok (.Terminal "[a-[b]]" "char-class") ∧
    read "[a-[b-c]]" = .ok (.Terminal "[a-[b-c]]" "char-class") ∧
    read "[\\d-[xy]]" = .ok (.Terminal "[\\d-[xy]]" "char-class") ∧
    "[a-[b]]" = "[" ++ "a" ++ "-" ++ "[b]" ++ "]" :=
  ⟨rfl, rfl, rfl, rfl⟩

/-- C6: evaluation at the failing input `"(\n)"`.  The parse fails at offset
2 (line 2, column 1); `Reader.error` sets `lineStart` to the INDEX OF the
line break, so the excerpt `source[max(off-40, lineStart):...]` is `"\n)"` —
it contains the previous line's break (the whole message has three `\n`) and
the caret indent counts that break, instead of the excerpt being clipped to
the current line `")"` as the claim states. -/
theorem c6_error_excerpt_eval :
    read "(\n)" = .err "error at 2:1: invalid character\n\n)\n ^" ∧
    "error at 2:1: invalid character\n\n)\n ^".data.count '\n' = 3 :=
  ⟨rfl, rfl⟩

/-- C7: the diagram projection maps each tree node variant one-to-one onto a
diagram primitive: Alternation to a Choice with default branch index 0,
Sequence to the ordered sequence primitive, the three quantifiers to their
matching repetition primitives, Terminal to a terminal box annotated with its
classification tag, and NonTerminal to a box carrying the cross-reference
anchor `"#rule-"` followed by the identifier. -/
theorem c7_diagram_projection :
    (∀ items, toRailroad (.Alternation items) = .Choice 0 (items.map toRailroad)) ∧
    (∀ items, toRailroad (.Sequence items) = .Sequence (items.map toRailroad)) ∧
    (∀ x, toRailroad (.Optional x) = .Optional (toRailroad x)) ∧
    (∀ x, toRailroad (.ZeroOrMore x) = .ZeroOrMore (toRailroad x)) ∧
    (∀ x, toRailroad (.OneOrMore x) = .OneOrMore (toRailroad x)) ∧
    (∀ t c, toRailroad (.Terminal t c) = .Terminal t c) ∧
    (∀ t, toRailroad (.NonTerminal t) = .NonTerminal t ("#rule-" ++ t)) := by
  refine ⟨?_, ?_, fun x => rfl, fun x => rfl, fun x => rfl, fun t c => rfl, fun t => rfl⟩
  · intro items; simp only [toRailroad, toRailroadList_eq]
  · intro items; simp only [toRailroad, toRailroadList_eq]

/-! Cursor-bound lemmas for the token matchers: every successful match
consumes at least one character and never runs past the end of the input. -/

theorem takeWhile_len_le (p : Char → Bool) : ∀ l : List Char,
    (l.takeWhile p).length ≤ l.length
  | [] => by simp
  | c :: rest => by
    simp only [List.takeWhile]
    split
    · simpa using Nat.succ_le_succ (takeWhile_len_le p rest)
    · simp

theorem skipWhitespace_ge (s : List Char) (off : Nat) : off ≤ skipWhitespace s off :=
  Nat.le_add_right _ _

theorem skipWhitespace_le (s : List Char) (off : Nat) (h : off ≤ s.length) :
    skipWhitespace s off ≤ s.length := by
  have h1 : ((s.drop off).takeWhile pyIsSpace).length ≤ (s.drop off).length :=
    takeWhile_len_le _ _
  simp only [skipWhitespace]
  simp only [List.length_drop] at h1
  omega

theorem identLen_bounds {l : List Char} {n : Nat} (h : identLen l = some n) :
    1 ≤ n ∧ n ≤ l.length := by
  cases l with
  | nil => simp [identLen] at h
  | cons c rest =>
    simp only [identLen] at h
    split at h
    · cases h
      have := takeWhile_len_le identCont rest
      simp only [List.length_cons]
      omega
    · cases h

theorem scanLitBody_bounds {q : Char} : ∀ {l : List Char} {n : Nat},
    scanLitBody q l = some n → 1 ≤ n ∧ n ≤ l.length
  | [], n, h => by simp [scanLitBody] at h
  | [c], n, h => by
    unfold scanLitBody at h
    split at h
    · cases h; simp
    · split at h
      · exact absurd h (by simp)
      · cases hs : scanLitBody q [] with
        | none => rw [hs] at h; simp at h
        | some m => simp [scanLitBody] at hs
  | c :: d :: rest2, n, h => by
    unfold scanLitBody at h
    split at h
    · cases h; simp
    · split at h
      · split at h
        · cases h
        · rename_i heq
          injection heq with hd hr
          subst hd
          subst hr
          split at h
          · cases h
          · cases hs : scanLitBody q rest2 with
            | none => rw [hs] at h; cases h
            | some m =>
              rw [hs] at h
              have := scanLitBody_bounds hs
              cases h
              simp only [List.length_cons]
              omega
      · cases hs : scanLitBody q (d :: rest2) with
        | none => rw [hs] at h; cases h
        | some m =>
          rw [hs] at h
          have := scanLitBody_bounds hs
          cases h
          simp only [List.length_cons] at *
          omega

theorem litLen_bounds {q : Char} {l : List Char} {n : Nat} (h : litLen q l = some n) :
    2 ≤ n ∧ n ≤ l.length := by
  cases l with
  | nil => simp [litLen] at h
  | cons c rest =>
    simp only [litLen] at h
    split at h
    · cases hs : scanLitBody q rest with
      | none => rw [hs] at h; cases h
      | some m =>
        rw [hs] at h
        have := scanLitBody_bounds hs
        cases h
        simp only [List.length_cons]
        omega
    · cases h

theorem regexLen_bounds {l : List Char} {n : Nat} (h : regexLen l = some n) :
    2 ≤ n ∧ n ≤ l.length := by
  unfold regexLen at h
  split at h
  · rename_i rest
    cases hs : scanLitBody '/' rest with
    | none => rw [hs] at h; cases h
    | some m =>
      rw [hs] at h
      have hb := scanLitBody_bounds hs
      cases h
      split
      · rename_i hh
        have : m < rest.length := by
          by_contra hc
          rw [List.drop_eq_nil_of_le (by omega)] at hh
          simp at hh
        simp only [List.length_cons]
        omega
      · simp only [List.length_cons]
        omega
  · cases h

theorem commentTail_bounds : ∀ {l : List Char} {n : Nat},
    commentTail l = some n → 2 ≤ n ∧ n ≤ l.length
  | [], n, h => by simp [commentTail] at h
  | [c], n, h => by simp [commentTail] at h
  | c :: d :: rest, n, h => by
    simp only [commentTail] at h
    rcases ho1 : (if c ≠ '*' && c ≠ '/' then (commentTail (d :: rest)).map (· + 1) else none)
      with _ | m1
    · rw [ho1] at h
      simp only [Option.none_orElse] at h
      rcases ho2 : (if c ≠ '*' && d = '/' then (commentTail rest).map (· + 2) else none)
        with _ | m2
      · rw [ho2] at h
        simp only [Option.none_orElse] at h
        rcases ho3 : (if c = '*' && d ≠ '/' then (commentTail rest).map (· + 2) else none)
          with _ | m3
        · rw [ho3] at h
          simp only [Option.none_orElse] at h
          split at h
          · cases h; simp
          · cases h
        · rw [ho3] at h
          simp only [Option.some_orElse] at h
          cases h
          split at ho3
          · cases hr : commentTail rest with
            | none => rw [hr] at ho3; cases ho3
            | some k =>
              rw [hr] at ho3
              have := commentTail_bounds hr
              cases ho3
              simp only [List.length_cons]
              omega
          · cases ho3
      · rw [ho2] at h
        simp only [Option.some_orElse] at h
        cases h
        split at ho2
        · cases hr : commentTail rest with
          | none => rw [hr] at ho2; cases ho2
          | some k =>
            rw [hr] at ho2
            have := commentTail_bounds hr
            cases ho2
            simp only [List.length_cons]
            omega
        · cases ho2
    · rw [ho1] at h
      simp only [Option.some_orElse] at h
      cases h
      split at ho1
      · cases hr : commentTail (d :: rest) with
        | none => rw [hr] at ho1; cases ho1
        | some k =>
          rw [hr] at ho1
          have := commentTail_bounds hr
          cases ho1
          simp only [List.length_cons] at *
          omega
      · cases ho1

theorem commentLen_bounds {l : List Char} {n : Nat} (h : commentLen l = some n) :
    4 ≤ n ∧ n ≤ l.length := by
  unfold commentLen at h
  split at h
  · rename_i rest
    cases hs : commentTail rest with
    | none => rw [hs] at h; cases h
    | some m =>
      rw [hs] at h
      have := commentTail_bounds hs
      cases h
      simp only [List.length_cons]
      omega
  · cases h

theorem ccLen_bounds {l : List Char} {n : Nat} (h : ccLen l = some n) :
    1 ≤ n ∧ n ≤ l.length := by
  unfold ccLen at h
  split at h
  · cases h
  · rename_i rest
    split at h
    · cases h
    · rename_i d rest2
      split at h
      · cases h; simp
      · split at h
        · -- d = x
          split at h
          · split at h
            · cases h; simp
            · cases h
          · cases h
        · split at h
          · -- d = u
            split at h
            · split at h
              · cases h; simp
              · cases h
            · cases h
          · split at h
            · -- d = U
              split at h
              · rename_i rest3
                simp only [Bool.and_eq_true, decide_eq_true_eq] at h
                split at h
                · rename_i hcond
                  cases h
                  have hlt : (rest3.takeWhile pyIsHex).length < rest3.length := by
                    obtain ⟨⟨h1, h2⟩, h3⟩ := hcond
                    by_contra hc
                    rw [List.drop_eq_nil_of_le (by omega)] at h3
                    simp at h3
                  simp only [List.length_cons]
                  omega
                · cases h
              · cases h
            · cases h
  · split at h
    · cases h
    · cases h; simp

theorem classItemLen_bounds {l : List Char} {n : Nat} (h : classItemLen l = some n) :
    1 ≤ n ∧ n ≤ l.length := by
  unfold classItemLen at h
  split at h
  · cases h
  · rename_i m hm
    have hb := ccLen_bounds hm
    split at h
    · rename_i hd
      split at h
      · rename_i k hk
        have hb2 := ccLen_bounds hk
        cases h
        have hlen : (l.drop (m + 1)).length = l.length - (m + 1) := List.length_drop _ _
        have hdrop : m < l.length := by
          by_contra hc
          rw [List.drop_eq_nil_of_le (by omega)] at hd
          simp at hd
        omega
      · cases h; exact hb
    · cases h; exact hb

theorem classBuiltinLen_bounds {l : List Char} {n : Nat} (h : classBuiltinLen l = some n) :
    n = 2 ∧ 2 ≤ l.length := by
  unfold classBuiltinLen at h
  split at h
  · split at h
    · cases h; simp
    · cases h
  · cases h

/-! Cursor-bound lemmas for the reader primitives. -/

/-- The command's cursor argument. -/
def cmdOff : RCmd → Nat
  | .alt o => o
  | .altLoop o _ => o
  | .seq o => o
  | .seqLoop o _ => o
  | .item o => o
  | .charClass o => o
  | .classItems o _ => o

/-- The cursor component of a procedure result. -/
def outOff : (c : RCmd) → ROutT c → Nat
  | .alt _, v => v.2
  | .altLoop _ _, v => v.2
  | .seq _, v => v.2
  | .seqLoop _ _, v => v.2
  | .item _, v => v.2
  | .charClass _, v => v.2
  | .classItems _ _, v => v.2

theorem readLiteral_cases (s : List Char) (off : Nat) (v : List Char) (b : Bool) :
    readLiteral s off v b = (true, (if b then skipWhitespace s off else off) + v.length) ∧
      (s.drop (if b then skipWhitespace s off else off)).take v.length = v ∨
    readLiteral s off v b = (false, (if b then skipWhitespace s off else off)) ∧
      (s.drop (if b then skipWhitespace s off else off)).take v.length ≠ v := by
  by_cases htake : (s.drop (if b then skipWhitespace s off else off)).take v.length = v
  · left
    refine ⟨?_, htake⟩
    simp only [readLiteral]
    rw [if_pos htake]
  · right
    refine ⟨?_, htake⟩
    simp only [readLiteral]
    rw [if_neg htake]

theorem readLiteral_ge (s : List Char) (off : Nat) (v : List Char) (b : Bool) :
    off ≤ (readLiteral s off v b).2 := by
  have ho : off ≤ (if b then skipWhitespace s off else off) := by
    cases b
    · simp
    · simpa using skipWhitespace_ge s off
  rcases readLiteral_cases s off v b with ⟨he, _⟩ | ⟨he, _⟩ <;> rw [he] <;> dsimp only <;> omega

theorem readLiteral_le (s : List Char) (off : Nat) (v : List Char) (b : Bool)
    (h : off ≤ s.length) : (readLiteral s off v b).2 ≤ s.length := by
  have ho : (if b then skipWhitespace s off else off) ≤ s.length := by
    cases b
    · simpa using h
    · simpa using skipWhitespace_le s off h
  rcases readLiteral_cases s off v b with ⟨he, htake⟩ | ⟨he, _⟩
  · have hlen : v.length ≤ (s.drop (if b then skipWhitespace s off else off)).length := by
      conv_lhs => rw [← htake]
      rw [List.length_take]
      exact Nat.min_le_right _ _
    simp only [List.length_drop] at hlen
    rw [he]
    dsimp only
    omega
  · rw [he]
    dsimp only
    omega

theorem readLiteral_success_lt (s : List Char) (off : Nat) (v : List Char) (b : Bool)
    (hv : v ≠ []) (h : (readLiteral s off v b).1 = true) : off < (readLiteral s off v b).2 := by
  have ho : off ≤ (if b then skipWhitespace s off else off) := by
    cases b
    · simp
    · simpa using skipWhitespace_ge s off
  have hvl : 0 < v.length := List.length_pos.mpr hv
  rcases readLiteral_cases s off v b with ⟨he, _⟩ | ⟨he, _⟩ <;> rw [he] <;> rw [he] at h
  · dsimp only
    omega
  · simp at h

theorem matchAt_bounds {s : List Char} {o e : Nat} {m : List Char → Option Nat}
    (hm : ∀ {l : List Char} {n : Nat}, m l = some n → 1 ≤ n ∧ n ≤ l.length)
    (h : matchAt s o m = some e) : o < e ∧ e ≤ s.length := by
  unfold matchAt at h
  cases hmm : m (s.drop o) with
  | none => rw [hmm] at h; cases h
  | some n =>
    rw [hmm] at h
    have hb := hm hmm
    cases h
    simp only [List.length_drop] at hb
    dsimp only
    omega

theorem readQuantifier_ge (s : List Char) (item : Node) (off : Nat) :
    off ≤ (readQuantifier s item off).2 := by
  have h1 := readLiteral_ge s off ['?'] true
  have h2 := readLiteral_ge s (readLiteral s off ['?'] true).2 ['*'] true
  have h3 := readLiteral_ge s (readLiteral s (readLiteral s off ['?'] true).2 ['*'] true).2
    ['+'] true
  simp only [readQuantifier]
  split
  · dsimp only; omega
  · split
    · dsimp only; omega
    · split
      · dsimp only; omega
      · dsimp only; omega

theorem readQuantifier_le (s : List Char) (item : Node) (off : Nat) (h : off ≤ s.length) :
    (readQuantifier s item off).2 ≤ s.length := by
  have h1 := readLiteral_le s off ['?'] true h
  have h2 := readLiteral_le s (readLiteral s off ['?'] true).2 ['*'] true h1
  have h3 := readLiteral_le s (readLiteral s (readLiteral s off ['?'] true).2 ['*'] true).2
    ['+'] true h2
  simp only [readQuantifier]
  split
  · dsimp only; omega
  · split
    · dsimp only; omega
    · split
      · dsimp only; omega
      · dsimp only; omega

theorem readClassItem_bounds {s : List Char} {off : Nat} {txt : List Char} {off2 : Nat}
    (h : readClassItem s off = some (txt, off2)) : off < off2 ∧ off2 ≤ s.length := by
  unfold readClassItem at h
  cases h1 : matchAt s off classBuiltinLen with
  | some e =>
    rw [h1] at h
    cases h
    exact matchAt_bounds (fun hx => by have := classBuiltinLen_bounds hx; omega) h1
  | none =>
    rw [h1] at h
    cases h2 : matchAt s off classItemLen with
    | some e =>
      rw [h2] at h
      cases h
      exact matchAt_bounds (fun hx => classItemLen_bounds hx) h2
    | none => rw [h2] at h; cases h

/-! Cursor bounds for the reader procedures: the cursor never moves backwards
and never leaves the source.  `CB`/`CB2` are the bound contracts assumed of
the recursive callbacks, `CBP` additionally records that a successful
optional result strictly advances the cursor. -/

/-- Bound contract of a one-argument reader callback. -/
def CB {α : Type} (len : Nat) (rec : Nat → PResult (α × Nat)) : Prop :=
  ∀ o v, rec o = .ok v → o ≤ v.2 ∧ (o ≤ len → v.2 ≤ len)

/-- Bound contract of a two-argument (accumulator) reader callback. -/
def CB2 {α β : Type} (len : Nat) (rec : Nat → β → PResult (α × Nat)) : Prop :=
  ∀ o a v, rec o a = .ok v → o ≤ v.2 ∧ (o ≤ len → v.2 ≤ len)

/-- Bound-and-progress contract of a callback returning an optional value. -/
def CBP {α : Type} (len : Nat) (rec : Nat → PResult (Option α × Nat)) : Prop :=
  ∀ o v, rec o = .ok v →
    (o ≤ v.2 ∧ (o ≤ len → v.2 ≤ len)) ∧ ∀ x, v.1 = some x → o < v.2

theorem altLoopBody_bounds {s : List Char} {recSeq recLoop}
    (hSeq : CB s.length recSeq) (hLoop : CB2 s.length recLoop)
    (off : Nat) (acc : List Node) (v : Node × Nat)
    (h : altLoopBody s recSeq recLoop off acc = .ok v) :
    off ≤ v.2 ∧ (off ≤ s.length → v.2 ≤ s.length) := by
  unfold altLoopBody at h
  split at h
  · rename_i nv node off1 heq
    obtain ⟨hge1, hle1⟩ := hSeq off (node, off1) heq
    simp only at hge1 hle1
    have hrge := readLiteral_ge s off1 ['|'] true
    have hrle := readLiteral_le s off1 ['|'] true
    dsimp only at h
    split at h
    · obtain ⟨hge2, hle2⟩ := hLoop _ _ _ h
      exact ⟨by omega, fun hl => hle2 (hrle (hle1 hl))⟩
    · split at h
      · cases h
        exact ⟨by omega, fun hl => hrle (hle1 hl)⟩
      · split at h
        · cases h
          exact ⟨by omega, fun hl => hrle (hle1 hl)⟩
        · cases h
  · cases h
  · cases h

theorem seqLoopBody_bounds {s : List Char} {recItem recLoop}
    (hItem : CBP s.length recItem) (hLoop : CB2 s.length recLoop)
    (off : Nat) (acc : List Node) (v : Node × Nat)
    (h : seqLoopBody s recItem recLoop off acc = .ok v) :
    off ≤ v.2 ∧ (off ≤ s.length → v.2 ≤ s.length) := by
  unfold seqLoopBody at h
  split at h
  · rename_i nv item off1 heq
    obtain ⟨⟨hge1, hle1⟩, _⟩ := hItem off (some item, off1) heq
    simp only at hge1 hle1
    obtain ⟨hge2, hle2⟩ := hLoop _ _ _ h
    exact ⟨by omega, fun hl => hle2 (hle1 hl)⟩
  · rename_i nv off1 heq
    obtain ⟨⟨hge1, hle1⟩, _⟩ := hItem off (none, off1) heq
    simp only at hge1 hle1
    split at h
    · cases h
      exact ⟨hge1, hle1⟩
    · split at h
      · cases h
        exact ⟨hge1, hle1⟩
      · cases h
  · cases h
  · cases h

theorem classItemsBody_bounds {s : List Char} {recLoop}
    (hLoop : CB2 s.length recLoop)
    (off : Nat) (acc : List (List Char)) (v : List (List Char) × Nat)
    (h : classItemsBody s recLoop off acc = .ok v) :
    off ≤ v.2 ∧ (off ≤ s.length → v.2 ≤ s.length) := by
  unfold classItemsBody at h
  split at h
  · rename_i tv txt off2 heq
    obtain ⟨hlt, hle⟩ := readClassItem_bounds heq
    obtain ⟨hge2, hle2⟩ := hLoop _ _ _ h
    exact ⟨by omega, fun _ => hle2 hle⟩
  · cases h
    exact ⟨Nat.le_refl _, fun hl => hl⟩

theorem closeClass_bounds {s : List Char} {items : List (List Char)} {off : Nat}
    {v : Option String × Nat} (h : closeClass s items off = .ok v) :
    off ≤ v.2 ∧ (off ≤ s.length → v.2 ≤ s.length) ∧ v.1.isSome = true := by
  unfold closeClass at h
  have hge := readLiteral_ge s off [']'] false
  have hle := readLiteral_le s off [']'] false
  dsimp only at h
  split at h
  · cases h
    exact ⟨hge, fun hl => hle hl, rfl⟩
  · cases h

theorem classBody_bounds {s : List Char} {recItems recCls}
    (hItems : CB2 s.length recItems) (hCls : CBP s.length recCls)
    (off : Nat) (v : Option String × Nat)
    (h : classBody s recItems recCls off = .ok v) :
    (off ≤ v.2 ∧ (off ≤ s.length → v.2 ≤ s.length)) ∧ ∀ x, v.1 = some x → off < v.2 := by
  unfold classBody at h
  have hbge := readLiteral_ge s off ['['] true
  have hble := readLiteral_le s off ['['] true
  dsimp only at h
  split at h
  · cases h
    exact ⟨⟨hbge, fun hl => hble hl⟩, fun x hx => by simp at hx⟩
  · rename_i hbf
    have hbt : (readLiteral s off ['['] true).1 = true := by
      revert hbf
      cases (readLiteral s off ['['] true).1 <;> simp
    have hblt := readLiteral_success_lt s off ['['] true (by simp) hbt
    have h1ge := readLiteral_ge s (readLiteral s off ['['] true).2 ['^'] false
    have h1le := readLiteral_le s (readLiteral s off ['['] true).2 ['^'] false
    have h2ge := readLiteral_ge s (readLiteral s (readLiteral s off ['['] true).2 ['^'] false).2
      ['-'] false
    have h2le := readLiteral_le s (readLiteral s (readLiteral s off ['['] true).2 ['^'] false).2
      ['-'] false
    split at h
    · rename_i iv items3 o3 heq
      obtain ⟨hge3, hle3⟩ := hItems _ _ _ heq
      simp only at hge3 hle3
      have h3ge := readLiteral_ge s o3 ['-'] false
      have h3le := readLiteral_le s o3 ['-'] false
      split at h
      · cases h
      · split at h
        · split at h
          · rename_i cv res o4 heq2
            obtain ⟨⟨hge4, hle4⟩, _⟩ := hCls _ _ heq2
            simp only at hge4 hle4
            obtain ⟨hge5, hle5, hsome⟩ := closeClass_bounds h
            refine ⟨⟨by omega, fun hl => ?_⟩, fun x _ => ?_⟩
            · exact hle5 (hle4 (h3le (hle3 (h2le (h1le (hble hl))))))
            · omega
          · cases h
          · cases h
        · obtain ⟨hge5, hle5, hsome⟩ := closeClass_bounds h
          refine ⟨⟨by omega, fun hl => ?_⟩, fun x _ => ?_⟩
          · exact hle5 (h3le (hle3 (h2le (h1le (hble hl)))))
          · omega
    · cases h
    · cases h

theorem itemBody_bounds {s : List Char} {recCls recAlt}
    (hCls : CBP s.length recCls) (hAlt : CB s.length recAlt)
    (off : Nat) (v : Option Node × Nat)
    (h : itemBody s recCls recAlt off = .ok v) :
    (off ≤ v.2 ∧ (off ≤ s.length → v.2 ≤ s.length)) ∧ ∀ x, v.1 = some x → off < v.2 := by
  unfold itemBody at h
  have hsk := skipWhitespace_ge s off
  have hskle := skipWhitespace_le s off
  dsimp only at h
  split at h
  · -- identifier
    rename_i e heq
    obtain ⟨hlt, hle⟩ := matchAt_bounds (fun hx => identLen_bounds hx) heq
    have hqge := readQuantifier_ge s (.NonTerminal (extract s (skipWhitespace s off) e)) e
    have hqle := readQuantifier_le s (.NonTerminal (extract s (skipWhitespace s off) e)) e hle
    cases h
    exact ⟨⟨by omega, fun _ => hqle⟩, fun x _ => by omega⟩
  · split at h
    · -- single-quoted literal
      rename_i e heq
      obtain ⟨hlt, hle⟩ := matchAt_bounds (fun hx => by
        have := litLen_bounds hx; omega) heq
      have hqge := readQuantifier_ge s
        (.Terminal (extract s (skipWhitespace s off) e) "literal") e
      have hqle := readQuantifier_le s
        (.Terminal (extract s (skipWhitespace s off) e) "literal") e hle
      cases h
      exact ⟨⟨by omega, fun _ => hqle⟩, fun x _ => by omega⟩
    · split at h
      · -- double-quoted literal
        rename_i e heq
        obtain ⟨hlt, hle⟩ := matchAt_bounds (fun hx => by
          have := litLen_bounds hx; omega) heq
        have hqge := readQuantifier_ge s
          (.Terminal (extract s (skipWhitespace s off) e) "literal") e
        have hqle := readQuantifier_le s
          (.Terminal (extract s (skipWhitespace s off) e) "literal") e hle
        cases h
        exact ⟨⟨by omega, fun _ => hqle⟩, fun x _ => by omega⟩
      · split at h
        · -- comment
          rename_i e heq
          obtain ⟨hlt, hle⟩ := matchAt_bounds (fun hx => by
            have := commentLen_bounds hx; omega) heq
          cases h
          exact ⟨⟨by omega, fun _ => hle⟩, fun x _ => by omega⟩
        · split at h
          · -- regex
            rename_i e heq
            obtain ⟨hlt, hle⟩ := matchAt_bounds (fun hx => by
              have := regexLen_bounds hx; omega) heq
            have hqge := readQuantifier_ge s
              (.Terminal (extract s (skipWhitespace s off) e) "regex") e
            have hqle := readQuantifier_le s
              (.Terminal (extract s (skipWhitespace s off) e) "regex") e hle
            cases h
            exact ⟨⟨by omega, fun _ => hqle⟩, fun x _ => by omega⟩
          · split at h
            · -- character class
              rename_i cv text e heq
              obtain ⟨⟨hge1, hle1⟩, hprog⟩ := hCls _ _ heq
              simp only at hge1 hle1
              have hlt : skipWhitespace s off < e := hprog text rfl
              have hqge := readQuantifier_ge s (.Terminal text "char-class") e
              have hqle := readQuantifier_le s (.Terminal text "char-class") e
              cases h
              refine ⟨⟨by omega, fun hl => hqle (hle1 (hskle hl))⟩, fun x _ => by omega⟩
            · -- no class: dot, group, or nothing
              rename_i cv o2 heq
              obtain ⟨⟨hge1, hle1⟩, _⟩ := hCls _ _ heq
              simp only at hge1 hle1
              have hdge := readLiteral_ge s o2 ['.'] true
              have hdle := readLiteral_le s o2 ['.'] true
              split at h
              · -- dot
                rename_i hdt
                have hdlt := readLiteral_success_lt s o2 ['.'] true (by simp) hdt
                have hqge := readQuantifier_ge s (.Terminal "." "char-class")
                  (readLiteral s o2 ['.'] true).2
                have hqle := readQuantifier_le s (.Terminal "." "char-class")
                  (readLiteral s o2 ['.'] true).2
                cases h
                refine ⟨⟨by omega, fun hl => hqle (hdle (hle1 (hskle hl)))⟩,
                  fun x _ => by omega⟩
              · have hpge := readLiteral_ge s (readLiteral s o2 ['.'] true).2 ['('] true
                have hple := readLiteral_le s (readLiteral s o2 ['.'] true).2 ['('] true
                split at h
                · -- group
                  rename_i hpt
                  have hplt := readLiteral_success_lt s (readLiteral s o2 ['.'] true).2
                    ['('] true (by simp) hpt
                  split at h
                  · rename_i av node off2 heq2
                    obtain ⟨hge2, hle2⟩ := hAlt _ _ heq2
                    simp only at hge2 hle2
                    have hcge := readLiteral_ge s off2 [')'] true
                    have hcle := readLiteral_le s off2 [')'] true
                    split at h
                    · have hqge := readQuantifier_ge s node
                        (readLiteral s off2 [')'] true).2
                      have hqle := readQuantifier_le s node
                        (readLiteral s off2 [')'] true).2
                      cases h
                      refine ⟨⟨by omega, fun hl =>
                        hqle (hcle (hle2 (hple (hdle (hle1 (hskle hl))))))⟩,
                        fun x _ => by omega⟩
                    · cases h
                  · cases h
                  · cases h
                · -- nothing matched
                  cases h
                  exact ⟨⟨by omega, fun hl => hple (hdle (hle1 (hskle hl)))⟩,
                    fun x hx => by simp at hx⟩
            · cases h
            · cases h

/-- Progress obligations recorded per command: a successful optional result
of `readItem` or `readClass` strictly advances the cursor. -/
def StepProgress : (c : RCmd) → ROutT c → Prop
  | .item off, v => ∀ x, v.1 = some x → off < v.2
  | .charClass off, v => ∀ x, v.1 = some x → off < v.2
  | .alt _, _ => True
  | .altLoop _ _, _ => True
  | .seq _, _ => True
  | .seqLoop _ _, _ => True
  | .classItems _ _, _ => True

/-- The reader's cursor never moves backwards, never leaves the source, and
a successful `readItem`/`readClass` strictly advances it. -/
theorem step_bounds (s : List Char) : ∀ (fuel : Nat) (c : RCmd) (v : ROutT c),
    step s fuel c = .ok v →
    (cmdOff c ≤ outOff c v ∧ (cmdOff c ≤ s.length → outOff c v ≤ s.length)) ∧
      StepProgress c v := by
  intro fuel
  induction fuel with
  | zero => intro c v h; simp [step] at h
  | succ fuel ih =>
    intro c v h
    cases c with
    | alt off =>
      have h2 : step s fuel (.altLoop off []) = .ok v := h
      exact ⟨((ih (.altLoop off []) v h2).1 : _), trivial⟩
    | altLoop off acc =>
      have h2 : altLoopBody s (fun o => step s fuel (.seq o))
          (fun o a => step s fuel (.altLoop o a)) off acc = .ok v := h
      refine ⟨altLoopBody_bounds ?_ ?_ off acc v h2, trivial⟩
      · intro o w hw
        exact ((ih (.seq o) w hw).1 : _)
      · intro o a w hw
        exact ((ih (.altLoop o a) w hw).1 : _)
    | seq off =>
      have h2 : step s fuel (.seqLoop off []) = .ok v := h
      exact ⟨((ih (.seqLoop off []) v h2).1 : _), trivial⟩
    | seqLoop off acc =>
      have h2 : seqLoopBody s (fun o => step s fuel (.item o))
          (fun o a => step s fuel (.seqLoop o a)) off acc = .ok v := h
      refine ⟨seqLoopBody_bounds ?_ ?_ off acc v h2, trivial⟩
      · intro o w hw
        exact ⟨((ih (.item o) w hw).1 : _), ((ih (.item o) w hw).2 : _)⟩
      · intro o a w hw
        exact ((ih (.seqLoop o a) w hw).1 : _)
    | item off =>
      have h2 : itemBody s (fun o => step s fuel (.charClass o))
          (fun o => step s fuel (.alt o)) off = .ok v := h
      have hc : CBP s.length (fun o => step s fuel (.charClass o)) := by
        intro o w hw
        exact ⟨((ih (.charClass o) w hw).1 : _), ((ih (.charClass o) w hw).2 : _)⟩
      have ha : CB s.length (fun o => step s fuel (.alt o)) := by
        intro o w hw
        exact ((ih (.alt o) w hw).1 : _)
      have hb := itemBody_bounds hc ha off v h2
      exact ⟨hb.1, hb.2⟩
    | charClass off =>
      have h2 : classBody s (fun o a => step s fuel (.classItems o a))
          (fun o => step s fuel (.charClass o)) off = .ok v := h
      have hi : CB2 s.length (fun o a => step s fuel (.classItems o a)) := by
        intro o a w hw
        exact ((ih (.classItems o a) w hw).1 : _)
      have hc : CBP s.length (fun o => step s fuel (.charClass o)) := by
        intro o w hw
        exact ⟨((ih (.charClass o) w hw).1 : _), ((ih (.charClass o) w hw).2 : _)⟩
      have hb := classBody_bounds hi hc off v h2
      exact ⟨hb.1, hb.2⟩
    | classItems off acc =>
      have h2 : classItemsBody s (fun o a => step s fuel (.classItems o a)) off acc = .ok v := h
      refine ⟨classItemsBody_bounds ?_ off acc v h2, trivial⟩
      intro o a w hw
      exact ((ih (.classItems o a) w hw).1 : _)

/-! Fuel monotonicity: once a procedure completes (with a value or an error)
at some fuel, giving it more fuel cannot change the outcome. -/

theorem altLoopBody_mono {s : List Char} {recSeq recLoop recSeq2 recLoop2}
    (hS : ∀ o, recSeq o ≠ .outOfFuel → recSeq2 o = recSeq o)
    (hL : ∀ o a, recLoop o a ≠ .outOfFuel → recLoop2 o a = recLoop o a)
    (off : Nat) (acc : List Node)
    (hne : altLoopBody s recSeq recLoop off acc ≠ .outOfFuel) :
    altLoopBody s recSeq2 recLoop2 off acc = altLoopBody s recSeq recLoop off acc := by
  unfold altLoopBody at hne ⊢
  cases hseq : recSeq off with
  | outOfFuel => rw [hseq] at hne; simp at hne
  | err m =>
    have hrw := hS off (by rw [hseq]; simp)
    rw [hrw, hseq]
  | ok nv =>
    have hrw := hS off (by rw [hseq]; simp)
    rw [hrw, hseq]
    rw [hseq] at hne
    obtain ⟨node, off1⟩ := nv
    dsimp only at hne ⊢
    split
    · rename_i hr
      refine hL _ _ ?_
      rw [if_pos hr] at hne
      exact hne
    · rfl

theorem seqLoopBody_mono {s : List Char} {recItem recLoop recItem2 recLoop2}
    (hI : ∀ o, recItem o ≠ .outOfFuel → recItem2 o = recItem o)
    (hL : ∀ o a, recLoop o a ≠ .outOfFuel → recLoop2 o a = recLoop o a)
    (off : Nat) (acc : List Node)
    (hne : seqLoopBody s recItem recLoop off acc ≠ .outOfFuel) :
    seqLoopBody s recItem2 recLoop2 off acc = seqLoopBody s recItem recLoop off acc := by
  unfold seqLoopBody at hne ⊢
  cases hit : recItem off with
  | outOfFuel => rw [hit] at hne; simp at hne
  | err m =>
    have hrw := hI off (by rw [hit]; simp)
    rw [hrw, hit]
  | ok nv =>
    have hrw := hI off (by rw [hit]; simp)
    rw [hrw, hit]
    rw [hit] at hne
    obtain ⟨r, off1⟩ := nv
    cases r with
    | some item =>
      dsimp only at hne ⊢
      exact hL _ _ hne
    | none => rfl

theorem classItemsBody_mono {s : List Char} {recLoop recLoop2}
    (hL : ∀ o a, recLoop o a ≠ .outOfFuel → recLoop2 o a = recLoop o a)
    (off : Nat) (acc : List (List Char))
    (hne : classItemsBody s recLoop off acc ≠ .outOfFuel) :
    classItemsBody s recLoop2 off acc = classItemsBody s recLoop off acc := by
  unfold classItemsBody at hne ⊢
  cases hci : readClassItem s off with
  | some tv =>
    rw [hci] at hne
    obtain ⟨txt, off2⟩ := tv
    dsimp only at hne ⊢
    exact hL _ _ hne
  | none => rfl

theorem classBody_mono {s : List Char} {recItems recCls recItems2 recCls2}
    (hI : ∀ o a, recItems o a ≠ .outOfFuel → recItems2 o a = recItems o a)
    (hC : ∀ o, recCls o ≠ .outOfFuel → recCls2 o = recCls o)
    (off : Nat)
    (hne : classBody s recItems recCls off ≠ .outOfFuel) :
    classBody s recItems2 recCls2 off = classBody s recItems recCls off := by
  unfold classBody at hne ⊢
  dsimp only at hne ⊢
  split
  · rfl
  · rename_i hbf
    cases hits : recItems (readLiteral s
        (readLiteral s (readLiteral s off ['['] true).2 ['^'] false).2 ['-'] false).2
        ((if (readLiteral s (readLiteral s off ['['] true).2 ['^'] false).1 = true
          then [['^']] else []) ++
         (if (readLiteral s (readLiteral s (readLiteral s off ['['] true).2 ['^'] false).2
          ['-'] false).1 = true then [['-']] else [])) with
    | outOfFuel =>
      rw [if_neg (by simpa using hbf)] at hne
      rw [hits] at hne
      simp at hne
    | err m =>
      have hrw := hI _ _ (by rw [hits]; simp)
      rw [hrw, hits]
    | ok iv =>
      have hrw := hI _ _ (by rw [hits]; simp)
      rw [hrw, hits]
      rw [if_neg (by simpa using hbf)] at hne
      rw [hits] at hne
      obtain ⟨items3, o3⟩ := iv
      dsimp only at hne ⊢
      split
      · rfl
      · split
        · rename_i hf3
          cases hcls : recCls (readLiteral s o3 ['-'] false).2 with
          | outOfFuel =>
            rename_i hlen
            rw [if_neg hlen, if_pos hf3, hcls] at hne
            simp at hne
          | err m =>
            have hrw2 := hC _ (by rw [hcls]; simp)
            rw [hrw2, hcls]
          | ok cv =>
            have hrw2 := hC _ (by rw [hcls]; simp)
            rw [hrw2, hcls]
        · rfl

theorem itemBody_mono {s : List Char} {recCls recAlt recCls2 recAlt2}
    (hC : ∀ o, recCls o ≠ .outOfFuel → recCls2 o = recCls o)
    (hA : ∀ o, recAlt o ≠ .outOfFuel → recAlt2 o = recAlt o)
    (off : Nat)
    (hne : itemBody s recCls recAlt off ≠ .outOfFuel) :
    itemBody s recCls2 recAlt2 off = itemBody s recCls recAlt off := by
  unfold itemBody at hne ⊢
  dsimp only at hne ⊢
  cases h1 : matchAt s (skipWhitespace s off) identLen with
  | some e => rfl
  | none =>
  rw [h1] at hne
  dsimp only at hne ⊢
  cases h2 : matchAt s (skipWhitespace s off) (litLen '\'') with
  | some e => rfl
  | none =>
  rw [h2] at hne
  dsimp only at hne ⊢
  cases h3 : matchAt s (skipWhitespace s off) (litLen '"') with
  | some e => rfl
  | none =>
  rw [h3] at hne
  dsimp only at hne ⊢
  cases h4 : matchAt s (skipWhitespace s off) commentLen with
  | some e => rfl
  | none =>
  rw [h4] at hne
  dsimp only at hne ⊢
  cases h5 : matchAt s (skipWhitespace s off) regexLen with
  | some e => rfl
  | none =>
  rw [h5] at hne
  dsimp only at hne ⊢
  cases h6 : recCls (skipWhitespace s off) with
  | outOfFuel => rw [h6] at hne; simp at hne
  | err m =>
    have hrw := hC _ (by rw [h6]; simp)
    rw [hrw, h6]
  | ok cv =>
    have hrw := hC _ (by rw [h6]; simp)
    rw [hrw, h6]
    rw [h6] at hne
    obtain ⟨res, o2⟩ := cv
    cases res with
    | some text => rfl
    | none =>
      dsimp only at hne ⊢
      split
      · rfl
      · rename_i hdot
        split
        · rename_i hpar
          cases h7 : recAlt (readLiteral s (readLiteral s o2 ['.'] true).2 ['('] true).2 with
          | outOfFuel =>
            rw [if_neg hdot, if_pos hpar, h7] at hne
            simp at hne
          | err m =>
            have hrw2 := hA _ (by rw [h7]; simp)
            rw [hrw2, h7]
          | ok av =>
            have hrw2 := hA _ (by rw [h7]; simp)
            rw [hrw2, h7]
        · rfl

/-- Giving the reader more fuel preserves any completed outcome. -/
theorem step_mono (s : List Char) : ∀ (fuel : Nat) (c : RCmd),
    step s fuel c ≠ .outOfFuel →
    ∀ fuel2, fuel ≤ fuel2 → step s fuel2 c = step s fuel c := by
  intro fuel
  induction fuel with
  | zero => intro c h; simp [step] at h
  | succ fuel ih =>
    intro c hne fuel2 hf2
    obtain ⟨g, rfl⟩ : ∃ g, fuel2 = g + 1 := ⟨fuel2 - 1, by omega⟩
    have hg : fuel ≤ g := by omega
    cases c with
    | alt off =>
      show step s g (.altLoop off []) = step s fuel (.altLoop off [])
      exact ih (.altLoop off []) hne g hg
    | altLoop off acc =>
      show altLoopBody s (fun o => step s g (.seq o)) (fun o a => step s g (.altLoop o a))
        off acc = altLoopBody s (fun o => step s fuel (.seq o))
        (fun o a => step s fuel (.altLoop o a)) off acc
      exact altLoopBody_mono (fun o ho => ih (.seq o) ho g hg)
        (fun o a ho => ih (.altLoop o a) ho g hg) off acc hne
    | seq off =>
      show step s g (.seqLoop off []) = step s fuel (.seqLoop off [])
      exact ih (.seqLoop off []) hne g hg
    | seqLoop off acc =>
      show seqLoopBody s (fun o => step s g (.item o)) (fun o a => step s g (.seqLoop o a))
        off acc = seqLoopBody s (fun o => step s fuel (.item o))
        (fun o a => step s fuel (.seqLoop o a)) off acc
      exact seqLoopBody_mono (fun o ho => ih (.item o) ho g hg)
        (fun o a ho => ih (.seqLoop o a) ho g hg) off acc hne
    | item off =>
      show itemBody s (fun o => step s g (.charClass o)) (fun o => step s g (.alt o)) off =
        itemBody s (fun o => step s fuel (.charClass o)) (fun o => step s fuel (.alt o)) off
      exact itemBody_mono (fun o ho => ih (.charClass o) ho g hg)
        (fun o ho => ih (.alt o) ho g hg) off hne
    | charClass off =>
      show classBody s (fun o a => step s g (.classItems o a))
        (fun o => step s g (.charClass o)) off =
        classBody s (fun o a => step s fuel (.classItems o a))
        (fun o => step s fuel (.charClass o)) off
      exact classBody_mono (fun o a ho => ih (.classItems o a) ho g hg)
        (fun o ho => ih (.charClass o) ho g hg) off hne
    | classItems off acc =>
      show classItemsBody s (fun o a => step s g (.classItems o a)) off acc =
        classItemsBody s (fun o a => step s fuel (.classItems o a)) off acc
      exact classItemsBody_mono (fun o a ho => ih (.classItems o a) ho g hg) off acc hne

/-- Call-chain rank of a command: a reader procedure only calls a
lower-ranked procedure at the same cursor, and any other call strictly
advances the cursor. -/
def rank : RCmd → Nat
  | .alt _ => 5
  | .altLoop _ _ => 4
  | .seq _ => 3
  | .seqLoop _ _ => 2
  | .item _ => 1
  | .charClass _ => 0
  | .classItems _ _ => 0

/-- Fuel sufficiency: `6 * (remaining characters) + rank + 1` fuel units are
enough for any reader procedure — every loop iteration and every recursive
call either strictly advances the cursor (consuming at least one character)
or moves to a lower-ranked procedure at the same cursor. -/
theorem step_enough (s : List Char) : ∀ (fuel : Nat) (c : RCmd),
    cmdOff c ≤ s.length → 6 * (s.length - cmdOff c) + rank c < fuel →
    step s fuel c ≠ .outOfFuel := by
  intro fuel
  induction fuel using Nat.strong_induction_on with
  | _ fuel ih =>
    intro c hoff hbound
    match fuel, hbound with
    | f + 1, hbound =>
    have ihf := ih f (by omega)
    cases c with
    | alt off =>
      show step s f (.altLoop off []) ≠ .outOfFuel
      exact ihf (.altLoop off []) hoff (by simp [cmdOff, rank] at hbound ⊢; omega)
    | seq off =>
      show step s f (.seqLoop off []) ≠ .outOfFuel
      exact ihf (.seqLoop off []) hoff (by simp [cmdOff, rank] at hbound ⊢; omega)
    | altLoop off acc =>
      simp only [cmdOff, rank] at hoff hbound
      intro habs
      replace habs : altLoopBody s (fun o => step s f (.seq o))
        (fun o a => step s f (.altLoop o a)) off acc = .outOfFuel := habs
      unfold altLoopBody at habs
      dsimp only at habs
      cases hseq : step s f (.seq off) with
      | outOfFuel =>
        exact ihf (.seq off) hoff (by simp [cmdOff, rank]; omega) hseq
      | err m => rw [hseq] at habs; simp at habs
      | ok nv =>
        rw [hseq] at habs
        obtain ⟨node, off1⟩ := nv
        obtain ⟨⟨hge1, hle1⟩, -⟩ := step_bounds s f (.seq off) (node, off1) hseq
        simp only [cmdOff, outOff] at hge1 hle1
        have hle1s := hle1 hoff
        have hrge := readLiteral_ge s off1 ['|'] true
        have hrle := readLiteral_le s off1 ['|'] true hle1s
        dsimp only at habs
        split at habs
        · rename_i hr
          have hrlt := readLiteral_success_lt s off1 ['|'] true (by simp) hr
          exact ihf (.altLoop (readLiteral s off1 ['|'] true).2 (acc ++ [node])) hrle
            (by simp [cmdOff, rank]; omega) habs
        · split at habs
          · simp at habs
          · split at habs <;> simp at habs
    | seqLoop off acc =>
      simp only [cmdOff, rank] at hoff hbound
      intro habs
      replace habs : seqLoopBody s (fun o => step s f (.item o))
        (fun o a => step s f (.seqLoop o a)) off acc = .outOfFuel := habs
      unfold seqLoopBody at habs
      dsimp only at habs
      cases hit : step s f (.item off) with
      | outOfFuel =>
        exact ihf (.item off) hoff (by simp [cmdOff, rank]; omega) hit
      | err m => rw [hit] at habs; simp at habs
      | ok nv =>
        rw [hit] at habs
        obtain ⟨r, off1⟩ := nv
        obtain ⟨⟨hge1, hle1⟩, hprog⟩ := step_bounds s f (.item off) (r, off1) hit
        simp only [cmdOff, outOff, StepProgress] at hge1 hle1 hprog
        cases r with
        | some item =>
          have hlt := hprog item rfl
          exact ihf (.seqLoop off1 (acc ++ [item])) (hle1 hoff)
            (by simp [cmdOff, rank]; omega) habs
        | none =>
          dsimp only at habs
          split at habs
          · simp at habs
          · split at habs <;> simp at habs
    | item off =>
      simp only [cmdOff, rank] at hoff hbound
      intro habs
      replace habs : itemBody s (fun o => step s f (.charClass o))
        (fun o => step s f (.alt o)) off = .outOfFuel := habs
      unfold itemBody at habs
      have hsk := skipWhitespace_ge s off
      have hskle := skipWhitespace_le s off hoff
      dsimp only at habs
      split at habs
      · simp at habs
      · split at habs
        · simp at habs
        · split at habs
          · simp at habs
          · split at habs
            · simp at habs
            · split at habs
              · simp at habs
              · cases hcls : step s f (.charClass (skipWhitespace s off)) with
                | outOfFuel =>
                  exact ihf (.charClass (skipWhitespace s off)) hskle
                    (by simp [cmdOff, rank]; omega) hcls
                | err m => rw [hcls] at habs; simp at habs
                | ok cv =>
                  rw [hcls] at habs
                  obtain ⟨res, o2⟩ := cv
                  obtain ⟨⟨hge1, hle1⟩, -⟩ :=
                    step_bounds s f (.charClass (skipWhitespace s off)) (res, o2) hcls
                  simp only [cmdOff, outOff] at hge1 hle1
                  have hle1s := hle1 hskle
                  cases res with
                  | some text => simp at habs
                  | none =>
                    dsimp only at habs
                    have hdge := readLiteral_ge s o2 ['.'] true
                    have hdle := readLiteral_le s o2 ['.'] true hle1s
                    split at habs
                    · simp at habs
                    · split at habs
                      · rename_i hdot hpar
                        have hplt := readLiteral_success_lt s (readLiteral s o2 ['.'] true).2
                          ['('] true (by simp) hpar
                        have hple := readLiteral_le s (readLiteral s o2 ['.'] true).2
                          ['('] true hdle
                        cases halt : step s f
                            (.alt (readLiteral s (readLiteral s o2 ['.'] true).2 ['('] true).2)
                          with
                        | outOfFuel =>
                          exact ihf
                            (.alt (readLiteral s (readLiteral s o2 ['.'] true).2 ['('] true).2)
                            hple (by simp [cmdOff, rank]; omega) halt
                        | err m => rw [halt] at habs; simp at habs
                        | ok av =>
                          rw [halt] at habs
                          obtain ⟨node, off2⟩ := av
                          dsimp only at habs
                          split at habs <;> simp at habs
                      · simp at habs
    | charClass off =>
      simp only [cmdOff, rank] at hoff hbound
      intro habs
      replace habs : classBody s (fun o a => step s f (.classItems o a))
        (fun o => step s f (.charClass o)) off = .outOfFuel := habs
      unfold classBody at habs
      dsimp only at habs
      split at habs
      · simp at habs
      · rename_i hbf
        have hbt : (readLiteral s off ['['] true).1 = true := by
          revert hbf
          cases (readLiteral s off ['['] true).1 <;> simp
        have hblt := readLiteral_success_lt s off ['['] true (by simp) hbt
        have hble := readLiteral_le s off ['['] true hoff
        have h1ge := readLiteral_ge s (readLiteral s off ['['] true).2 ['^'] false
        have h1le := readLiteral_le s (readLiteral s off ['['] true).2 ['^'] false hble
        have h2ge := readLiteral_ge s
          (readLiteral s (readLiteral s off ['['] true).2 ['^'] false).2 ['-'] false
        have h2le := readLiteral_le s
          (readLiteral s (readLiteral s off ['['] true).2 ['^'] false).2 ['-'] false h1le
        cases hits : step s f (.classItems (readLiteral s
            (readLiteral s (readLiteral s off ['['] true).2 ['^'] false).2 ['-'] false).2
            ((if (readLiteral s (readLiteral s off ['['] true).2 ['^'] false).1 = true
              then [['^']] else []) ++
             (if (readLiteral s (readLiteral s (readLiteral s off ['['] true).2 ['^'] false).2
              ['-'] false).1 = true then [['-']] else []))) with
        | outOfFuel =>
          apply ihf _ _ _ hits
          · exact h2le
          · simp [cmdOff, rank]
            omega
        | err m => rw [hits] at habs; simp at habs
        | ok iv =>
          rw [hits] at habs
          obtain ⟨items3, o3⟩ := iv
          obtain ⟨⟨hge3, hle3⟩, -⟩ := step_bounds s f _ _ hits
          simp only [cmdOff, outOff] at hge3 hle3
          have hle3s := hle3 h2le
          dsimp only at habs
          split at habs
          · simp at habs
          · have h3ge := readLiteral_ge s o3 ['-'] false
            have h3le := readLiteral_le s o3 ['-'] false hle3s
            split at habs
            · rename_i h3t
              have h3lt := readLiteral_success_lt s o3 ['-'] false (by simp) h3t
              cases hcls : step s f (.charClass (readLiteral s o3 ['-'] false).2) with
              | outOfFuel =>
                exact ihf (.charClass (readLiteral s o3 ['-'] false).2) h3le
                  (by simp [cmdOff, rank]; omega) hcls
              | err m => rw [hcls] at habs; simp at habs
              | ok cv =>
                rw [hcls] at habs
                obtain ⟨res, o4⟩ := cv
                unfold closeClass at habs
                dsimp only at habs
                split at habs <;> simp at habs
            · unfold closeClass at habs
              dsimp only at habs
              split at habs <;> simp at habs
    | classItems off acc =>
      simp only [cmdOff, rank] at hoff hbound
      intro habs
      replace habs : classItemsBody s (fun o a => step s f (.classItems o a)) off acc =
        .outOfFuel := habs
      unfold classItemsBody at habs
      dsimp only at habs
      cases hci : readClassItem s off with
      | some tv =>
        rw [hci] at habs
        obtain ⟨txt, off2⟩ := tv
        obtain ⟨hlt, hle⟩ := readClassItem_bounds hci
        dsimp only at habs
        exact ihf (.classItems off2 (acc ++ [txt])) hle
          (by simp [cmdOff, rank]; omega) habs
      | none => rw [hci] at habs; simp at habs

/-- The top-level parse never exhausts its fuel budget `parseFuel`. -/
theorem read_not_fuel (source : String) : read source ≠ .outOfFuel := by
  unfold read readFuel
  have hne : step source.data (parseFuel source) (.alt 0) ≠ .outOfFuel := by
    apply step_enough
    · simp [cmdOff]
    · simp only [cmdOff, rank, parseFuel, String.length]
      omega
  cases hr : step source.data (parseFuel source) (.alt 0) with
  | ok nv =>
    show (match readAlternation source.data (parseFuel source) 0 with
      | .ok (node, off) => if off < source.data.length
          then PResult.err (errorMsg source.data off invalidCharMsg) else .ok node
      | .err m => .err m
      | .outOfFuel => .outOfFuel) ≠ .outOfFuel
    unfold readAlternation
    rw [hr]
    obtain ⟨node, off⟩ := nv
    dsimp only
    split <;> simp
  | err m =>
    show (match readAlternation source.data (parseFuel source) 0 with
      | .ok (node, off) => if off < source.data.length
          then PResult.err (errorMsg source.data off invalidCharMsg) else .ok node
      | .err m => .err m
      | .outOfFuel => .outOfFuel) ≠ .outOfFuel
    unfold readAlternation
    rw [hr]
    simp
  | outOfFuel => exact absurd hr hne

/-- Beyond the budget `parseFuel`, extra fuel does not change the parse. -/
theorem readFuel_stable (source : String) (fuel : Nat) (h : parseFuel source ≤ fuel) :
    readFuel source.data fuel = read source := by
  unfold read readFuel readAlternation
  have hne : step source.data (parseFuel source) (.alt 0) ≠ .outOfFuel := by
    apply step_enough
    · simp [cmdOff]
    · simp only [cmdOff, rank, parseFuel, String.length]
      omega
  rw [step_mono source.data (parseFuel source) (.alt 0) hne fuel h]

/-! Structural invariants of parser-produced trees (for the C2 and C10
claims): containers hold at least two children recursively, every Terminal
carries one of the four non-empty classification tags, and every NonTerminal
text has the shape of an identifier token. -/

mutual
/-- Containers (Alternation/Sequence) throughout the tree have ≥ 2 children
(quantifier arity 1 and leaf-ness are enforced by the `Node` type itself). -/
def goodB : Node → Bool
  | .Alternation items => decide (2 ≤ items.length) && goodLB items
  | .Sequence items => decide (2 ≤ items.length) && goodLB items
  | .Optional x => goodB x
  | .ZeroOrMore x => goodB x
  | .OneOrMore x => goodB x
  | .Terminal _ _ => true
  | .NonTerminal _ => true
/-- `goodB` over a child list. -/
def goodLB : List Node → Bool
  | [] => true
  | x :: xs => goodB x && goodLB xs
end

/-- The shape of a full `_identifier` token: a word character followed by
word/`.`/`-` characters. -/
def identShape (t : String) : Bool :=
  match t.data with
  | [] => false
  | c :: rest => pyIsWord c && rest.all identCont

mutual
/-- Every Terminal in the tree carries one of the four classification tags,
and every NonTerminal text is a full identifier token. -/
def tagsB : Node → Bool
  | .Alternation items => tagsLB items
  | .Sequence items => tagsLB items
  | .Optional x => tagsB x
  | .ZeroOrMore x => tagsB x
  | .OneOrMore x => tagsB x
  | .Terminal _ cls =>
    decide (cls = "literal") || decide (cls = "regex") || decide (cls = "comment") ||
      decide (cls = "char-class")
  | .NonTerminal t => identShape t
/-- `tagsB` over a child list. -/
def tagsLB : List Node → Bool
  | [] => true
  | x :: xs => tagsB x && tagsLB xs
end

/-- The children of a node: the container items, a quantifier's single
child, or nothing for a leaf. -/
def children : Node → List Node
  | .Alternation items => items
  | .Sequence items => items
  | .Optional x => [x]
  | .ZeroOrMore x => [x]
  | .OneOrMore x => [x]
  | .Terminal _ _ => []
  | .NonTerminal _ => []

theorem goodLB_append (a : List Node) (x : Node) :
    goodLB (a ++ [x]) = (goodLB a && goodB x) := by
  induction a with
  | nil => simp [goodLB]
  | cons y ys ih => simp [goodLB, ih, Bool.and_assoc]

theorem tagsLB_append (a : List Node) (x : Node) :
    tagsLB (a ++ [x]) = (tagsLB a && tagsB x) := by
  induction a with
  | nil => simp [tagsLB]
  | cons y ys ih => simp [tagsLB, ih, Bool.and_assoc]

/-- The quantifier tail wraps the atom at most once (or not at all). -/
theorem readQuantifier_node (s : List Char) (item : Node) (off : Nat) :
    (readQuantifier s item off).1 = item ∨
    (readQuantifier s item off).1 = .Optional item ∨
    (readQuantifier s item off).1 = .ZeroOrMore item ∨
    (readQuantifier s item off).1 = .OneOrMore item := by
  simp only [readQuantifier]
  split
  · simp
  · split
    · simp
    · split <;> simp

theorem goodB_quant (s : List Char) (item : Node) (off : Nat) :
    goodB (readQuantifier s item off).1 = goodB item := by
  rcases readQuantifier_node s item off with h | h | h | h <;> rw [h] <;> simp [goodB]

theorem tagsB_quant (s : List Char) (item : Node) (off : Nat) :
    tagsB (readQuantifier s item off).1 = tagsB item := by
  rcases readQuantifier_node s item off with h | h | h | h <;> rw [h] <;> simp [tagsB]

theorem take_takeWhile_len (p : Char → Bool) : ∀ l : List Char,
    l.take ((l.takeWhile p).length) = l.takeWhile p
  | [] => by simp
  | c :: rest => by
    simp only [List.takeWhile]
    split
    · simp [take_takeWhile_len p rest]
    · simp

theorem all_takeWhile (p : Char → Bool) : ∀ l : List Char, (l.takeWhile p).all p = true
  | [] => by simp
  | c :: rest => by
    simp only [List.takeWhile]
    split
    · rename_i hp
      simp [hp, all_takeWhile p rest]
    · simp

/-- The text of a successful identifier match has the identifier shape. -/
theorem identShape_of_match {s : List Char} {o e : Nat}
    (h : matchAt s o identLen = some e) : identShape (extract s o e) = true := by
  unfold matchAt at h
  cases hm : identLen (s.drop o) with
  | none => rw [hm] at h; cases h
  | some n =>
    rw [hm] at h
    cases h
    cases hd : s.drop o with
    | nil => rw [hd] at hm; simp [identLen] at hm
    | cons c rest =>
      rw [hd] at hm
      simp only [identLen] at hm
      split at hm
      · rename_i hw
        cases hm
        simp only [extract, extractL, hd]
        have harith : o + (1 + (rest.takeWhile identCont).length) - o =
            (rest.takeWhile identCont).length + 1 := by omega
        rw [harith, List.take_succ_cons, take_takeWhile_len]
        simp only [identShape, List.asString]
        simp [hw, all_takeWhile]
      · cases hm

/-- Invariant obligations per command: procedures returning nodes return
invariant-respecting, well-tagged nodes (loops under the precondition that
the accumulated nodes already are). -/
def StepGood : (c : RCmd) → ROutT c → Prop
  | .alt _, v => goodB v.1 = true ∧ tagsB v.1 = true
  | .altLoop _ acc, v =>
    goodLB acc = true ∧ tagsLB acc = true → goodB v.1 = true ∧ tagsB v.1 = true
  | .seq _, v => goodB v.1 = true ∧ tagsB v.1 = true
  | .seqLoop _ acc, v =>
    goodLB acc = true ∧ tagsLB acc = true → goodB v.1 = true ∧ tagsB v.1 = true
  | .item _, v => ∀ x, v.1 = some x → goodB x = true ∧ tagsB x = true
  | .charClass _, _ => True
  | .classItems _ _, _ => True

theorem altLoopBody_good {s : List Char} {recSeq recLoop}
    (hSeq : ∀ o w, recSeq o = .ok w → goodB w.1 = true ∧ tagsB w.1 = true)
    (hLoop : ∀ o a w, recLoop o a = .ok w →
      (goodLB a = true ∧ tagsLB a = true) → goodB w.1 = true ∧ tagsB w.1 = true)
    (off : Nat) (acc : List Node) (v : Node × Nat)
    (h : altLoopBody s recSeq recLoop off acc = .ok v)
    (hacc : goodLB acc = true ∧ tagsLB acc = true) :
    goodB v.1 = true ∧ tagsB v.1 = true := by
  unfold altLoopBody at h
  split at h
  · rename_i nv node off1 heq
    obtain ⟨hg, ht⟩ := hSeq off (node, off1) heq
    simp only at hg ht
    have hacc2 : goodLB (acc ++ [node]) = true ∧ tagsLB (acc ++ [node]) = true := by
      rw [goodLB_append, tagsLB_append]
      simp [hacc.1, hacc.2, hg, ht]
    dsimp only at h
    split at h
    · exact hLoop _ _ _ h hacc2
    · split at h
      · cases h
        rename_i hlen
        refine ⟨?_, ?_⟩
        · simp only [goodB, Bool.and_eq_true, decide_eq_true_eq]
          exact ⟨by omega, hacc2.1⟩
        · simp only [tagsB]
          exact hacc2.2
      · split at h
        · cases h
          rename_i x heq2
          rw [heq2] at hacc2
          simp only [goodLB, tagsLB, Bool.and_eq_true] at hacc2
          exact ⟨hacc2.1.1, hacc2.2.1⟩
        · cases h
  · cases h
  · cases h

theorem seqLoopBody_good {s : List Char} {recItem recLoop}
    (hItem : ∀ o w, recItem o = .ok w →
      ∀ x, w.1 = some x → goodB x = true ∧ tagsB x = true)
    (hLoop : ∀ o a w, recLoop o a = .ok w →
      (goodLB a = true ∧ tagsLB a = true) → goodB w.1 = true ∧ tagsB w.1 = true)
    (off : Nat) (acc : List Node) (v : Node × Nat)
    (h : seqLoopBody s recItem recLoop off acc = .ok v)
    (hacc : goodLB acc = true ∧ tagsLB acc = true) :
    goodB v.1 = true ∧ tagsB v.1 = true := by
  unfold seqLoopBody at h
  split at h
  · rename_i nv item off1 heq
    obtain ⟨hg, ht⟩ := hItem off (some item, off1) heq item rfl
    have hacc2 : goodLB (acc ++ [item]) = true ∧ tagsLB (acc ++ [item]) = true := by
      rw [goodLB_append, tagsLB_append]
      simp [hacc.1, hacc.2, hg, ht]
    exact hLoop _ _ _ h hacc2
  · rename_i nv off1 heq
    split at h
    · cases h
      rename_i hlen
      refine ⟨?_, ?_⟩
      · simp only [goodB, Bool.and_eq_true, decide_eq_true_eq]
        exact ⟨by omega, hacc.1⟩
      · simp only [tagsB]
        exact hacc.2
    · split at h
      · cases h
        simp only [goodLB, tagsLB, Bool.and_eq_true] at hacc
        exact ⟨hacc.1.1, hacc.2.1⟩
      · cases h
  · cases h
  · cases h

theorem itemBody_good {s : List Char} {recCls recAlt}
    (hAlt : ∀ o w, recAlt o = .ok w → goodB w.1 = true ∧ tagsB w.1 = true)
    (off : Nat) (v : Option Node × Nat)
    (h : itemBody s recCls recAlt off = .ok v) :
    ∀ x, v.1 = some x → goodB x = true ∧ tagsB x = true := by
  unfold itemBody at h
  dsimp only at h
  split at h
  · rename_i e heq
    cases h
    intro x hx
    cases hx
    rw [goodB_quant, tagsB_quant]
    constructor
    · simp [goodB]
    · simp only [tagsB]
      exact identShape_of_match heq
  · split at h
    · rename_i e heq
      cases h
      intro x hx
      cases hx
      rw [goodB_quant, tagsB_quant]
      simp [goodB, tagsB]
    · split at h
      · rename_i e heq
        cases h
        intro x hx
        cases hx
        rw [goodB_quant, tagsB_quant]
        simp [goodB, tagsB]
      · split at h
        · rename_i e heq
          cases h
          intro x hx
          cases hx
          simp [goodB, tagsB]
        · split at h
          · rename_i e heq
            cases h
            intro x hx
            cases hx
            rw [goodB_quant, tagsB_quant]
            simp [goodB, tagsB]
          · split at h
            · rename_i cv text e heq
              cases h
              intro x hx
              cases hx
              rw [goodB_quant, tagsB_quant]
              simp [goodB, tagsB]
            · rename_i cv o2 heq
              split at h
              · cases h
                intro x hx
                cases hx
                rw [goodB_quant, tagsB_quant]
                simp [goodB, tagsB]
              · split at h
                · split at h
                  · rename_i av node off2 heq2
                    obtain ⟨hg, ht⟩ := hAlt _ _ heq2
                    simp only at hg ht
                    split at h
                    · cases h
                      intro x hx
                      cases hx
                      rw [goodB_quant, tagsB_quant]
                      exact ⟨hg, ht⟩
                    · cases h
                  · cases h
                  · cases h
                · cases h
                  intro x hx
                  cases hx
            · cases h
            · cases h

/-- Every node a reader procedure returns satisfies the container and tag
invariants. -/
theorem step_good (s : List Char) : ∀ (fuel : Nat) (c : RCmd) (v : ROutT c),
    step s fuel c = .ok v → StepGood c v := by
  intro fuel
  induction fuel with
  | zero => intro c v h; simp [step] at h
  | succ fuel ih =>
    intro c v h
    cases c with
    | alt off =>
      have h2 : step s fuel (.altLoop off []) = .ok v := h
      exact (ih (.altLoop off []) v h2 : StepGood (.altLoop off []) v) ⟨rfl, rfl⟩
    | altLoop off acc =>
      have h2 : altLoopBody s (fun o => step s fuel (.seq o))
          (fun o a => step s fuel (.altLoop o a)) off acc = .ok v := h
      intro hacc
      refine altLoopBody_good ?_ ?_ off acc v h2 hacc
      · intro o w hw
        exact (ih (.seq o) w hw : StepGood (.seq o) w)
      · intro o a w hw ha
        exact (ih (.altLoop o a) w hw : StepGood (.altLoop o a) w) ha
    | seq off =>
      have h2 : step s fuel (.seqLoop off []) = .ok v := h
      exact (ih (.seqLoop off []) v h2 : StepGood (.seqLoop off []) v) ⟨rfl, rfl⟩
    | seqLoop off acc =>
      have h2 : seqLoopBody s (fun o => step s fuel (.item o))
          (fun o a => step s fuel (.seqLoop o a)) off acc = .ok v := h
      intro hacc
      refine seqLoopBody_good ?_ ?_ off acc v h2 hacc
      · intro o w hw
        exact (ih (.item o) w hw : StepGood (.item o) w)
      · intro o a w hw ha
        exact (ih (.seqLoop o a) w hw : StepGood (.seqLoop o a) w) ha
    | item off =>
      have h2 : itemBody s (fun o => step s fuel (.charClass o))
          (fun o => step s fuel (.alt o)) off = .ok v := h
      refine itemBody_good ?_ off v h2
      intro o w hw
      exact (ih (.alt o) w hw : StepGood (.alt o) w)
    | charClass off => trivial
    | classItems off acc => trivial

/-- C2: every tree returned by `read` satisfies the structural invariants:
`goodB` checks recursively that every Alternation and Sequence node has at
least two children (`children` of a quantifier is its single child and of a
leaf is empty by the shape of the `Node` type); the empty string fails with
a positioned syntax error at offset 0 (line 1, column 1); a single
identifier parses to a bare NonTerminal, not a 1-ary container. -/
theorem c2_invariants :
    (∀ (source : String) (t : Node), read source = .ok t → goodB t = true) ∧
    (∀ x : Node, children (.Optional x) = [x] ∧ children (.ZeroOrMore x) = [x] ∧
      children (.OneOrMore x) = [x]) ∧
    (∀ text cls, children (.Terminal text cls) = []) ∧
    (∀ text, children (.NonTerminal text) = []) ∧
    read "" = .err "error at 1:1: invalid character\n\n^" ∧
    read "foo" = .ok (.NonTerminal "foo") := by
  refine ⟨?_, fun x => ⟨rfl, rfl, rfl⟩, fun text cls => rfl, fun text => rfl, rfl, rfl⟩
  intro source t h
  unfold read readFuel readAlternation at h
  cases hr : step source.data (parseFuel source) (.alt 0) with
  | ok nv =>
    rw [hr] at h
    obtain ⟨node, off⟩ := nv
    dsimp only at h
    split at h
    · cases h
    · cases h
      exact (step_good source.data (parseFuel source) (.alt 0) (t, off) hr :
        StepGood (.alt 0) (t, off)).1
  | err m => rw [hr] at h; cases h
  | outOfFuel => rw [hr] at h; cases h

/-- Witness for C2 at the single identifier `"foo"`. -/
theorem c2_invariants_witness : goodB (.NonTerminal "foo") = true :=
  c2_invariants.1 "foo" (.NonTerminal "foo") rfl

/-- C8: the parse terminates on every finite input string: with the fuel
budget `parseFuel source` — every loop iteration of the reader strictly
advances the cursor or exits, which `step_enough` turns into a linear fuel
bound — the parse never exhausts fuel, and any larger budget yields the
identical outcome. -/
theorem c8_termination :
    (∀ source : String, read source ≠ .outOfFuel) ∧
    (∀ (source : String) (fuel : Nat), parseFuel source ≤ fuel →
      readFuel source.data fuel = read source) :=
  ⟨read_not_fuel, readFuel_stable⟩

/-- Witness for C8 at `"foo"` with the enlarged fuel budget 100. -/
theorem c8_termination_witness :
    read "foo" ≠ .outOfFuel ∧ parseFuel "foo" ≤ 100 ∧
      readFuel "foo".data 100 = read "foo" :=
  ⟨c8_termination.1 "foo", by decide, c8_termination.2 "foo" 100 (by decide)⟩

/-- C9: for every input string the parse either returns a node or raises a
`ValueError` (no other outcome is possible), and the reader's cursor — the
index from which every slice in `readLiteral`/`readMatch` is taken and up to
which the loops of `Reader.error` run — never moves backwards and never
leaves the bounds of the source. -/
theorem c9_totality_and_bounds :
    (∀ source : String, (∃ t, read source = .ok t) ∨ (∃ msg, read source = .err msg)) ∧
    (∀ (s : List Char) (fuel : Nat) (c : RCmd) (v : ROutT c),
      step s fuel c = .ok v →
      cmdOff c ≤ outOff c v ∧ (cmdOff c ≤ s.length → outOff c v ≤ s.length)) := by
  constructor
  · intro source
    cases hr : read source with
    | ok t => exact Or.inl ⟨t, rfl⟩
    | err m => exact Or.inr ⟨m, rfl⟩
    | outOfFuel => exact absurd hr (read_not_fuel source)
  · intro s fuel c v h
    exact (step_bounds s fuel c v h).1

/-- Witness for C9: totality at `"a?"`, and the cursor bounds for the
completed top-level parse of `"a?"`. -/
theorem c9_totality_and_bounds_witness :
    ((∃ t, read "a?" = .ok t) ∨ (∃ msg, read "a?" = .err msg)) ∧
    (cmdOff (.alt 0) ≤ outOff (.alt 0) (Node.Optional (.NonTerminal "a"), 2) ∧
      (cmdOff (.alt 0) ≤ "a?".data.length →
        outOff (.alt 0) (Node.Optional (.NonTerminal "a"), 2) ≤ "a?".data.length)) :=
  ⟨c9_totality_and_bounds.1 "a?",
   c9_totality_and_bounds.2 "a?".data 20 (.alt 0) (.Optional (.NonTerminal "a"), 2) rfl⟩

/-- C10: every Terminal node in a tree produced by `read` carries one of the
four non-empty classification tags `"literal"`, `"regex"`, `"comment"`,
`"char-class"` (never the untagged default), and every NonTerminal carries
the text of a full identifier token — both checked recursively by `tagsB`. -/
theorem c10_terminal_tags :
    ∀ (source : String) (t : Node), read source = .ok t → tagsB t = true := by
  intro source t h
  unfold read readFuel readAlternation at h
  cases hr : step source.data (parseFuel source) (.alt 0) with
  | ok nv =>
    rw [hr] at h
    obtain ⟨node, off⟩ := nv
    dsimp only at h
    split at h
    · cases h
    · cases h
      exact (step_good source.data (parseFuel source) (.alt 0) (t, off) hr :
        StepGood (.alt 0) (t, off)).2
  | err m => rw [hr] at h; cases h
  | outOfFuel => rw [hr] at h; cases h

/-- Witness for C10 at an input exercising all four Terminal tags and a
NonTerminal. -/
theorem c10_terminal_tags_witness :
    tagsB (.Sequence [.Terminal "'a'" "literal", .Terminal "/b/" "regex",
      .Terminal "[c]" "char-class", .Terminal "/* d */" "comment",
      .NonTerminal "x"]) = true :=
  c10_terminal_tags "'a' /b/ [c] /* d */ x" _ rfl

/-! ### Token locality lemmas

A successful token match is determined by the matched characters alone:
truncating the input at the match end, or appending a continuation after it,
preserves the match.  (For the comment regex, whose backtracking search may
probe beyond a failed branch, the corresponding statements are proved
separately below.) -/

theorem takeWhile_append_of_all {p : Char → Bool} : ∀ {l : List Char}, l.all p = true →
    ∀ {r : List Char}, (∀ c, r.head? = some c → p c = false) →
    (l ++ r).takeWhile p = l
  | [], _, r, hr => by
    cases r with
    | nil => simp
    | cons c cr =>
      simp only [List.nil_append, List.takeWhile]
      rw [hr c rfl]
  | a :: l, hl, r, hr => by
    simp only [List.all_cons, Bool.and_eq_true] at hl
    have ih := takeWhile_append_of_all hl.2 hr
    simp only [List.cons_append, List.takeWhile, hl.1]
    exact congrArg (a :: ·) ih

theorem identLen_ext {t : List Char} (h : identLen t = some t.length)
    (r : List Char) (hr : ∀ c, r.head? = some c → identCont c = false) :
    identLen (t ++ r) = some t.length := by
  cases t with
  | nil => simp [identLen] at h
  | cons c rest =>
    unfold identLen at h
    dsimp only at h
    split at h
    · rename_i hw
      simp only [Option.some.injEq, List.length_cons] at h
      have hpref : rest.takeWhile identCont = rest := by
        refine List.Sublist.eq_of_length (List.IsPrefix.sublist (List.takeWhile_prefix identCont)) ?_
        have := takeWhile_len_le identCont rest
        omega
      have hall : rest.all identCont = true := by
        conv_lhs => rw [← hpref]
        exact all_takeWhile identCont rest
      simp only [List.cons_append]
      unfold identLen
      dsimp only
      rw [if_pos hw, takeWhile_append_of_all hall hr]
      simp only [Option.some.injEq, List.length_cons]
      omega
    · cases h

theorem scanLitBody_trunc {q : Char} : ∀ {l : List Char} {n : Nat},
    scanLitBody q l = some n → ∀ r : List Char, scanLitBody q (l.take n ++ r) = some n
  | [], n, h, _ => by simp [scanLitBody] at h
  | [c], n, h, r => by
    unfold scanLitBody at h
    split at h
    · cases h
      rename_i hq
      subst hq
      unfold scanLitBody
      simp
    · split at h
      · exact absurd h (by simp)
      · cases hs : scanLitBody q [] with
        | none => rw [hs] at h; simp at h
        | some m => simp [scanLitBody] at hs
  | c :: d :: rest2, n, h, r => by
    unfold scanLitBody at h
    split at h
    · cases h
      rename_i hq
      subst hq
      unfold scanLitBody
      simp
    · rename_i hq
      split at h
      · rename_i hbs
        split at h
        · cases h
        · rename_i heq
          injection heq with hd hr2
          subst hd
          subst hr2
          split at h
          · cases h
          · rename_i hnl
            cases hs : scanLitBody q rest2 with
            | none => rw [hs] at h; cases h
            | some m =>
              rw [hs] at h
              have hb := scanLitBody_bounds hs
              have ih := scanLitBody_trunc hs r
              cases h
              dsimp only
              rw [show m + 2 = (m+1)+1 from rfl, List.take_succ_cons, List.take_succ_cons]
              simp only [List.cons_append]
              unfold scanLitBody
              rw [if_neg hq, if_pos hbs]
              dsimp only
              rw [if_neg hnl, ih]
              rfl
      · rename_i hbs
        cases hs : scanLitBody q (d :: rest2) with
        | none => rw [hs] at h; cases h
        | some m =>
          rw [hs] at h
          have hb := scanLitBody_bounds hs
          have ih := scanLitBody_trunc hs r
          cases h
          dsimp only
          rw [List.take_succ_cons]
          simp only [List.cons_append]
          unfold scanLitBody
          rw [if_neg hq, if_neg hbs, ih]
          rfl

theorem not_space_of_word {c : Char} (h : pyIsWord c = true) : pyIsSpace c = false := by
  cases hsp : pyIsSpace c with
  | false => rfl
  | true =>
    exfalso
    have hbound : c < '0' ∨ 'z' < c := by
      simp only [pyIsSpace, Bool.or_eq_true, Bool.and_eq_true, decide_eq_true_eq] at hsp
      rcases hsp with
        (((((((((((((((((hc | hc) | hc) | hc) | hc) | hc) | hc) | hc) | hc) | hc) | hc) | hc)
          | hc) | hr) | hc) | hc) | hc) | hc) | hc
      all_goals first
        | (subst hc; decide)
        | exact Or.inr (lt_of_lt_of_le (by decide) hr.1)
    simp only [pyIsWord, Char.isAlphanum, Char.isAlpha, Char.isDigit, Char.isUpper,
      Char.isLower, Bool.or_eq_true, Bool.and_eq_true, decide_eq_true_eq] at h
    rcases h with ((⟨h1, h2⟩ | ⟨h1, h2⟩) | ⟨h1, h2⟩) | h1
    · have hA : 'A' ≤ c := h1
      have hZ : c ≤ 'Z' := h2
      rcases hbound with hb | hb
      · exact absurd (lt_of_le_of_lt hA hb) (by decide)
      · exact absurd (lt_of_lt_of_le hb hZ) (by decide)
    · have hA : 'a' ≤ c := h1
      have hZ : c ≤ 'z' := h2
      rcases hbound with hb | hb
      · exact absurd (lt_of_le_of_lt hA hb) (by decide)
      · exact absurd (lt_of_lt_of_le hb hZ) (by decide)
    · have hA : '0' ≤ c := h1
      have hZ : c ≤ '9' := h2
      rcases hbound with hb | hb
      · exact absurd (lt_of_le_of_lt hA hb) (by decide)
      · exact absurd (lt_of_lt_of_le hb hZ) (by decide)
    · subst h1
      rcases hbound with hb | hb <;> revert hb <;> decide

theorem takeWhile_all_eq {p : Char → Bool} : ∀ {l : List Char}, l.all p = true →
    l.takeWhile p = l
  | [], _ => rfl
  | c :: rest, h => by
    simp only [List.all_cons, Bool.and_eq_true] at h
    simp only [List.takeWhile, h.1]
    exact congrArg (c :: ·) (takeWhile_all_eq h.2)

theorem identLen_trunc {l : List Char} {n : Nat} (h : identLen l = some n) :
    identLen (l.take n) = some n := by
  cases l with
  | nil => simp [identLen] at h
  | cons c rest =>
    unfold identLen at h
    dsimp only at h
    split at h
    · rename_i hw
      simp only [Option.some.injEq] at h
      subst h
      rw [show 1 + (rest.takeWhile identCont).length = (rest.takeWhile identCont).length + 1
        from by omega]
      rw [List.take_succ_cons]
      unfold identLen
      dsimp only
      rw [if_pos hw, take_takeWhile_len, takeWhile_all_eq (all_takeWhile identCont rest)]
      rw [Nat.add_comm]
    · cases h

theorem litLen_take_ext {q : Char} {l : List Char} {n : Nat} (h : litLen q l = some n)
    (r : List Char) : litLen q (l.take n ++ r) = some n := by
  cases l with
  | nil => simp [litLen] at h
  | cons c rest =>
    unfold litLen at h
    dsimp only at h
    split at h
    · rename_i hq
      subst hq
      cases hs : scanLitBody c rest with
      | none => rw [hs] at h; simp at h
      | some m =>
        rw [hs] at h
        have hb := scanLitBody_bounds hs
        cases h
        dsimp only
        rw [List.take_succ_cons]
        simp only [List.cons_append]
        unfold litLen
        dsimp only
        rw [if_pos rfl, scanLitBody_trunc hs r]
        rfl
    · cases h

theorem regexLen_eval (l : List Char) : regexLen ('/' :: l) =
    (match scanLitBody '/' l with
     | some n => some (if (l.drop n).head? = some 'i' then n + 2 else n + 1)
     | none => none) := rfl

theorem regexLen_take_ext {l : List Char} {n : Nat} (h : regexLen l = some n)
    {r : List Char} (hr : ∀ c, r.head? = some c → c ≠ 'i') :
    regexLen (l.take n ++ r) = some n := by
  unfold regexLen at h
  split at h
  · rename_i rest
    cases hs : scanLitBody '/' rest with
    | none => rw [hs] at h; cases h
    | some m =>
      rw [hs] at h
      have hb := scanLitBody_bounds hs
      cases h
      split
      · rename_i hn
        have hig : rest[m]? = some 'i' := by rw [← List.head?_drop]; exact hn
        have htk : rest.take (m + 1) = rest.take m ++ ['i'] := by
          rw [List.take_succ, hig]; rfl
        have hlen : (rest.take m).length = m := by
          rw [List.length_take]; omega
        rw [show m + 2 = (m + 1) + 1 from rfl, List.take_succ_cons, htk]
        have hassoc : (rest.take m ++ ['i']) ++ r = rest.take m ++ ('i' :: r) := by
          rw [List.append_assoc]; rfl
        rw [List.cons_append, hassoc, regexLen_eval, scanLitBody_trunc hs ('i' :: r)]
        dsimp only
        rw [List.drop_left' hlen]
        simp
      · rename_i hn
        rw [List.take_succ_cons, List.cons_append, regexLen_eval,
          scanLitBody_trunc hs r]
        dsimp only
        have hlen : (rest.take m).length = m := by rw [List.length_take]; omega
        rw [List.drop_left' hlen]
        cases hr0 : r.head? with
        | none => simp
        | some cc =>
          have hne := hr cc hr0
          simp [hne]
  · cases h

theorem identLen_none_of_head {c : Char} (h : pyIsWord c = false) (l : List Char) :
    identLen (c :: l) = none := by
  unfold identLen
  dsimp only
  rw [h]
  rfl

theorem litLen_none_of_head {q c : Char} (h : c ≠ q) (l : List Char) :
    litLen q (c :: l) = none := by
  unfold litLen
  dsimp only
  rw [if_neg h]

theorem commentLen_eval (l : List Char) :
    commentLen ('/' :: '*' :: l) = (commentTail l).map (· + 2) := rfl

theorem commentLen_nil : commentLen ([] : List Char) = none := rfl

theorem commentLen_one (c : Char) : commentLen [c] = none := by
  unfold commentLen
  split
  · rename_i heq
    cases heq
  · rfl

theorem commentLen_ne {c d : Char} (h : ¬(c = '/' ∧ d = '*')) (l : List Char) :
    commentLen (c :: d :: l) = none := by
  unfold commentLen
  split
  · rename_i heq
    injection heq with h1 h2
    injection h2 with h2 h3
    exact absurd ⟨h1, h2⟩ h
  · rfl

theorem regexLen_nil : regexLen ([] : List Char) = none := rfl

theorem regexLen_ne {c : Char} (h : c ≠ '/') (l : List Char) :
    regexLen (c :: l) = none := by
  unfold regexLen
  split
  · rename_i heq
    injection heq with h1 h2
    exact absurd h1 h
  · rfl

theorem ccLen_nil : ccLen ([] : List Char) = none := rfl

theorem ccLen_bs1 : ccLen ['\\'] = none := rfl

theorem ccLen_bs_eval (d : Char) (l : List Char) : ccLen ('\\' :: d :: l) =
    (if isClassMeta d then some 2
     else if d = 'x' then
       match l with
       | h1 :: h2 :: _ => if pyIsHex h1 && pyIsHex h2 then some 4 else none
       | _ => none
     else if d = 'u' then
       match l with
       | h1 :: h2 :: h3 :: h4 :: _ =>
         if pyIsHex h1 && pyIsHex h2 && pyIsHex h3 && pyIsHex h4 then some 6 else none
       | _ => none
     else if d = 'U' then
       match l with
       | '\x7b' :: rest3 =>
         let run := rest3.takeWhile pyIsHex
         if 1 ≤ run.length && run.length ≤ 6 && (rest3.drop run.length).head? = some '\x7d'
         then some (run.length + 4) else none
       | _ => none
     else none) := rfl

theorem ccLen_bsU_eval (l : List Char) : ccLen ('\\' :: 'U' :: '\x7b' :: l) =
    (if 1 ≤ (l.takeWhile pyIsHex).length && (l.takeWhile pyIsHex).length ≤ 6 &&
        ((l.drop (l.takeWhile pyIsHex).length).head? = some '\x7d' : Bool)
     then some ((l.takeWhile pyIsHex).length + 4) else none) := rfl

theorem ccLen_cons_ne {c : Char} (h : c ≠ '\\') (l : List Char) :
    ccLen (c :: l) = if isClassMeta c then none else some 1 := by
  unfold ccLen
  split
  · rename_i heq
    cases heq
  · rename_i rest heq
    injection heq with h1 h2
    exact absurd h1 h
  · rename_i c2 l2 hne heq
    injection heq with h1 h2
    subst h1
    rfl

theorem ccLen_take_ext {l : List Char} {n : Nat} (h : ccLen l = some n)
    (r : List Char) : ccLen (l.take n ++ r) = some n := by
  unfold ccLen at h
  split at h
  · cases h
  · rename_i rest
    split at h
    · cases h
    · rename_i d rest2
      split at h
      · rename_i hmeta
        cases h
        simp only [List.take_succ_cons, List.take_zero, List.cons_append, List.nil_append]
        rw [ccLen_bs_eval, if_pos hmeta]
      · rename_i hmeta
        split at h
        · rename_i hx
          subst hx
          split at h
          · rename_i h1 h2 rest3
            split at h
            · rename_i hhex
              cases h
              simp only [List.take_succ_cons, List.take_zero, List.cons_append,
                List.nil_append]
              rw [ccLen_bs_eval, if_neg hmeta, if_pos rfl]
              dsimp only
              rw [if_pos hhex]
            · cases h
          · cases h
        · rename_i hx
          split at h
          · rename_i hu
            subst hu
            split at h
            · rename_i h1 h2 h3 h4 rest3
              split at h
              · rename_i hhex
                cases h
                simp only [List.take_succ_cons, List.take_zero, List.cons_append,
                  List.nil_append]
                rw [ccLen_bs_eval, if_neg hmeta, if_neg hx, if_pos rfl]
                dsimp only
                rw [if_pos hhex]
              · cases h
            · cases h
          · rename_i hu
            split at h
            · rename_i hU
              subst hU
              split at h
              · rename_i rest3
                simp only [Bool.and_eq_true, decide_eq_true_eq] at h
                split at h
                · rename_i hcond
                  cases h
                  obtain ⟨⟨hr1, hr2⟩, hr3⟩ := hcond
                  have hig : rest3[(rest3.takeWhile pyIsHex).length]? = some '\x7d' := by
                    rw [← List.head?_drop]; exact hr3
                  have hlt : (rest3.takeWhile pyIsHex).length < rest3.length := by
                    by_contra hc
                    rw [List.drop_eq_nil_of_le (by omega)] at hr3
                    simp at hr3
                  have htk : rest3.take ((rest3.takeWhile pyIsHex).length + 1) =
                      rest3.takeWhile pyIsHex ++ ['\x7d'] := by
                    rw [List.take_succ, hig, take_takeWhile_len]; rfl
                  rw [show (rest3.takeWhile pyIsHex).length + 4 =
                    (((rest3.takeWhile pyIsHex).length + 1) + 1) + 1 + 1 from by omega]
                  simp only [List.take_succ_cons, List.cons_append]
                  rw [htk]
                  have happ : (rest3.takeWhile pyIsHex ++ ['\x7d']) ++ r =
                      rest3.takeWhile pyIsHex ++ ('\x7d' :: r) := by
                    rw [List.append_assoc]; rfl
                  rw [happ, ccLen_bsU_eval]
                  have htw : (rest3.takeWhile pyIsHex ++ ('\x7d' :: r)).takeWhile pyIsHex =
                      rest3.takeWhile pyIsHex := by
                    apply takeWhile_append_of_all (all_takeWhile pyIsHex rest3)
                    intro cc hcc
                    injection hcc with hcc
                    subst hcc
                    decide
                  rw [htw, List.drop_left' rfl]
                  simp only [List.head?_cons]
                  rw [if_pos (by simp [hr1, hr2])]
                · cases h
              · cases h
            · cases h
  · rename_i c l2 hne
    split at h
    · cases h
    · rename_i hmeta
      cases h
      simp only [List.take_succ_cons, List.take_zero, List.cons_append, List.nil_append]
      by_cases hbs : c = '\\'
      · subst hbs
        exact absurd rfl hne
      · rw [ccLen_cons_ne hbs, if_neg hmeta]

theorem classBuiltinLen_eval (d : Char) (l : List Char) : classBuiltinLen ('\\' :: d :: l) =
    (if d = 'D' || d = 'S' || d = 'W' || d = 'd' || d = 's' || d = 'w'
     then some 2 else none) := rfl

theorem classBuiltinLen_nil : classBuiltinLen ([] : List Char) = none := rfl

theorem classBuiltinLen_one (c : Char) : classBuiltinLen [c] = none := by
  unfold classBuiltinLen
  split
  · rename_i heq
    cases heq
  · rfl

theorem classBuiltinLen_none_of_head {c : Char} (h : c ≠ '\\') (l : List Char) :
    classBuiltinLen (c :: l) = none := by
  unfold classBuiltinLen
  split
  · rename_i heq
    injection heq with h1 h2
    exact absurd h1 h
  · rfl

theorem classBuiltinLen_take_ext {l : List Char} {n : Nat}
    (h : classBuiltinLen l = some n) (r : List Char) :
    classBuiltinLen (l.take n ++ r) = some n := by
  unfold classBuiltinLen at h
  split at h
  · rename_i d rest
    split at h
    · rename_i hd
      cases h
      simp only [List.take_succ_cons, List.take_zero, List.cons_append, List.nil_append]
      rw [classBuiltinLen_eval, if_pos hd]
    · cases h
  · cases h

theorem classItemLen_none {l : List Char} (h : ccLen l = none) : classItemLen l = none := by
  unfold classItemLen
  rw [h]

theorem classItemLen_eq_range {l : List Char} {k m : Nat} (h1 : ccLen l = some k)
    (h2 : (l.drop k).head? = some '-') (h3 : ccLen (l.drop (k + 1)) = some m) :
    classItemLen l = some (k + 1 + m) := by
  unfold classItemLen
  rw [h1]
  dsimp only
  rw [h2]
  simp only []
  rw [h3]

theorem classItemLen_eq_single2 {l : List Char} {k : Nat} (h1 : ccLen l = some k)
    (h2 : (l.drop k).head? = some '-') (h3 : ccLen (l.drop (k + 1)) = none) :
    classItemLen l = some k := by
  unfold classItemLen
  rw [h1]
  dsimp only
  rw [h2]
  simp only []
  rw [h3]

theorem classItemLen_eq_single {l : List Char} {k : Nat} (h1 : ccLen l = some k)
    (h2 : ∀ c, (l.drop k).head? = some c → c ≠ '-') :
    classItemLen l = some k := by
  unfold classItemLen
  rw [h1]
  dsimp only
  cases hh : (l.drop k).head? with
  | none => rfl
  | some c =>
    have hc := h2 c hh
    split
    · rename_i heq
      first
        | (injection heq with heq2; exact absurd heq2.symm hc)
        | (injection heq with heq2; exact absurd heq2 hc)
        | exact absurd heq hc
        | exact absurd heq.symm hc
    · rfl

theorem classItemLen_trunc {l : List Char} {n : Nat} (h : classItemLen l = some n) :
    classItemLen (l.take n) = some n := by
  unfold classItemLen at h
  split at h
  · cases h
  · rename_i k hk
    have hb := ccLen_bounds hk
    have hkk : ccLen (l.take k) = some k := by
      have := ccLen_take_ext hk []
      rwa [List.append_nil] at this
    split at h
    · rename_i hd
      have hklt : k < l.length := by
        by_contra hc
        rw [List.drop_eq_nil_of_le (by omega)] at hd
        simp at hd
      split at h
      · rename_i m hm
        have hb2 := ccLen_bounds hm
        cases h
        have hcc1 : ccLen (l.take (k + 1 + m)) = some k := by
          conv_lhs => rw [← List.take_append_drop k (l.take (k + 1 + m))]
          rw [List.take_take, Nat.min_eq_left (by omega)]
          exact ccLen_take_ext hk _
        have hdk : l.drop k = '-' :: l.drop (k + 1) := by
          cases hdrop : l.drop k with
          | nil => rw [hdrop] at hd; simp at hd
          | cons a tail =>
            rw [hdrop] at hd
            simp only [List.head?_cons, Option.some.injEq] at hd
            subst hd
            congr 1
            have := List.tail_drop l k
            rw [hdrop] at this
            simpa using this
        have hdt : (l.take (k + 1 + m)).drop k = (l.drop k).take (m + 1) := by
          rw [List.drop_take]
          congr 1
          omega
        have hhd : ((l.take (k + 1 + m)).drop k).head? = some '-' := by
          rw [hdt, hdk, List.take_succ_cons, List.head?_cons]
        have hdt2 : (l.take (k + 1 + m)).drop (k + 1) = (l.drop (k + 1)).take m := by
          rw [List.drop_take]
          congr 1
          omega
        have hmm : ccLen ((l.take (k + 1 + m)).drop (k + 1)) = some m := by
          rw [hdt2]
          have := ccLen_take_ext hm []
          rwa [List.append_nil] at this
        exact classItemLen_eq_range hcc1 hhd hmm
      · injection h with hlen2
        subst hlen2
        refine classItemLen_eq_single hkk ?_
        have hlen : (l.take k).length = k := by rw [List.length_take]; omega
        intro c hc
        rw [List.drop_eq_nil_of_le (le_of_eq hlen)] at hc
        cases hc
    · rename_i hd
      injection h with hlen2
      subst hlen2
      refine classItemLen_eq_single hkk ?_
      have hlen : (l.take k).length = k := by rw [List.length_take]; omega
      intro c hc
      rw [List.drop_eq_nil_of_le (le_of_eq hlen)] at hc
      cases hc

theorem classItemLen_ext {t r : List Char} (h : classItemLen t = some t.length)
    (hr : r.head? = some '-' → ccLen (r.drop 1) = none) :
    classItemLen (t ++ r) = some t.length := by
  unfold classItemLen at h
  split at h
  · cases h
  · rename_i k hk
    have hb := ccLen_bounds hk
    split at h
    · rename_i hd
      have hklt : k < t.length := by
        by_contra hc
        rw [List.drop_eq_nil_of_le (by omega)] at hd
        simp at hd
      split at h
      · rename_i m hm
        have hb2 := ccLen_bounds hm
        injection h with hlen
        -- k + 1 + m = t.length
        have hcc1 : ccLen (t ++ r) = some k := by
          conv_lhs => rw [← List.take_append_drop k t, List.append_assoc]
          exact ccLen_take_ext hk _
        have hdk : t.drop k = '-' :: t.drop (k + 1) := by
          cases hdrop : t.drop k with
          | nil => rw [hdrop] at hd; simp at hd
          | cons a tail =>
            rw [hdrop] at hd
            simp only [List.head?_cons, Option.some.injEq] at hd
            subst hd
            congr 1
            have := List.tail_drop t k
            rw [hdrop] at this
            simpa using this
        have hda : (t ++ r).drop k = t.drop k ++ r := List.drop_append_of_le_length (by omega)
        have hhd : ((t ++ r).drop k).head? = some '-' := by
          rw [hda, hdk, List.cons_append, List.head?_cons]
        have hfull : (t.drop (k + 1)).length = m := by
          rw [List.length_drop]
          omega
        have hmm : ccLen ((t ++ r).drop (k + 1)) = some m := by
          have hda2 : (t ++ r).drop (k + 1) = t.drop (k + 1) ++ r :=
            List.drop_append_of_le_length (by omega)
          rw [hda2]
          have := ccLen_take_ext hm r
          rw [← hfull, List.take_length] at this
          rw [hfull] at this
          exact this
        rw [classItemLen_eq_range hcc1 hhd hmm, hlen]
      · injection h with hlen
        -- k = t.length but hd says a '-' at position k inside t: impossible
        exfalso
        omega
    · rename_i hd
      injection h with hlen
      subst hlen
      have hcc1 : ccLen (t ++ r) = some t.length := by
        conv_lhs => rw [← List.take_append_drop t.length t, List.append_assoc]
        exact ccLen_take_ext hk _
      have hda : (t ++ r).drop t.length = r := List.drop_left t r
      cases hh : r.head? with
      | none =>
        refine classItemLen_eq_single hcc1 ?_
        intro c hc
        rw [hda, hh] at hc
        cases hc
      | some c =>
        by_cases hcd : c = '-'
        · subst hcd
          have hd2 : (t ++ r).drop (t.length + 1) = r.drop 1 := by
            rw [← List.drop_drop, hda]
          have h3 : ccLen ((t ++ r).drop (t.length + 1)) = none := by
            rw [hd2]
            exact hr hh
          have hhd2 : ((t ++ r).drop t.length).head? = some '-' := by rw [hda, hh]
          exact classItemLen_eq_single2 hcc1 hhd2 h3
        · refine classItemLen_eq_single hcc1 ?_
          intro c2 hc2
          rw [hda, hh] at hc2
          injection hc2 with hc2
          subst hc2
          exact hcd

theorem commentTail_append_some : ∀ {l : List Char} {n : Nat}, commentTail l = some n →
    ∀ z : List Char, ∃ m, commentTail (l ++ z) = some m
  | [], n, h, z => by simp [commentTail] at h
  | [c], n, h, z => by simp [commentTail] at h
  | c :: d :: rest, n, h, z => by
    simp only [commentTail] at h
    simp only [List.cons_append]
    simp only [commentTail]
    rcases ho1 : (if c ≠ '*' && c ≠ '/' then (commentTail (d :: rest)).map (· + 1) else none)
      with _ | m1
    · rw [ho1] at h
      simp only [Option.none_orElse] at h
      rcases he1 : (if c ≠ '*' && c ≠ '/' then (commentTail (d :: (rest ++ z))).map (· + 1)
          else none) with _ | k1
      case some => exact ⟨k1, by simp⟩
      simp only [Option.none_orElse]
      rcases ho2 : (if c ≠ '*' && d = '/' then (commentTail rest).map (· + 2) else none)
        with _ | m2
      · rw [ho2] at h
        simp only [Option.none_orElse] at h
        rcases he2 : (if c = '*' && d ≠ '/' then (commentTail (rest ++ z)).map (· + 2)
            else none) with _ | k2
        · rcases ho3 : (if c = '*' && d ≠ '/' then (commentTail rest).map (· + 2) else none)
            with _ | m3
          · rw [ho3] at h
            simp only [Option.none_orElse] at h
            split at h
            · rename_i hg
              refine ⟨2, ?_⟩
              have hgp : (decide (c = '*') && decide (d = '/')) = true := hg
              simp only [Bool.and_eq_true, decide_eq_true_eq] at hgp
              have hg1 : (c ≠ '*' && d = '/') = false := by
                simp [hgp.1]
              rw [hg1]
              simp only [Bool.false_eq_true, if_false, Option.none_orElse]
              rw [if_pos hg]
            · cases h
          · rw [ho3] at h
            simp only [Option.some_orElse] at h
            cases h
            split at ho3
            · rename_i hg
              cases hrz : commentTail (rest ++ z) with
              | some kk =>
                rw [if_pos hg, hrz] at he2
                cases he2
              | none =>
                cases hr : commentTail rest with
                | none => rw [hr] at ho3; cases ho3
                | some k =>
                  obtain ⟨mm, hmm⟩ := commentTail_append_some hr z
                  rw [hmm] at hrz
                  cases hrz
            · cases ho3
        · refine ⟨k2, ?_⟩
          split at he2
          · rename_i hg
            have hgp : (decide (c = '*') && decide (d ≠ '/')) = true := hg
            simp only [Bool.and_eq_true, decide_eq_true_eq] at hgp
            have hg1 : (c ≠ '*' && d = '/') = false := by
              simp [hgp.1]
            rw [hg1]
            simp
          · cases he2
      · rw [ho2] at h
        simp only [Option.some_orElse] at h
        cases h
        split at ho2
        · rename_i hg
          cases hr : commentTail rest with
          | none => rw [hr] at ho2; cases ho2
          | some k =>
            obtain ⟨mm, hmm⟩ := commentTail_append_some hr z
            refine ⟨mm + 2, ?_⟩
            rw [if_pos hg, hmm]
            simp
        · cases ho2
    · rw [ho1] at h
      simp only [Option.some_orElse] at h
      cases h
      split at ho1
      · rename_i hg
        cases hr : commentTail (d :: rest) with
        | none => rw [hr] at ho1; cases ho1
        | some k =>
          obtain ⟨mm, hmm⟩ := commentTail_append_some hr z
          have hmm2 : commentTail (d :: (rest ++ z)) = some mm := by
            rw [← List.cons_append]
            exact hmm
          refine ⟨mm + 1, ?_⟩
          rw [if_pos hg, hmm2]
          simp
      · cases ho1

theorem commentTail_take_none {l : List Char} (h : commentTail l = none) (k : Nat) :
    commentTail (l.take k) = none := by
  cases hc : commentTail (l.take k) with
  | none => rfl
  | some m =>
    obtain ⟨m2, hm2⟩ := commentTail_append_some hc (l.drop k)
    rw [List.take_append_drop, h] at hm2
    cases hm2

theorem commentTail_take : ∀ {l : List Char} {n : Nat}, commentTail l = some n →
    commentTail (l.take n) = some n
  | [], n, h => by simp [commentTail] at h
  | [c], n, h => by simp [commentTail] at h
  | c :: d :: rest, n, h => by
    simp only [commentTail] at h
    rcases ho1 : (if c ≠ '*' && c ≠ '/' then (commentTail (d :: rest)).map (· + 1) else none)
      with _ | m1
    · rw [ho1] at h
      simp only [Option.none_orElse] at h
      rcases ho2 : (if c ≠ '*' && d = '/' then (commentTail rest).map (· + 2) else none)
        with _ | m2
      · rw [ho2] at h
        simp only [Option.none_orElse] at h
        rcases ho3 : (if c = '*' && d ≠ '/' then (commentTail rest).map (· + 2) else none)
          with _ | m3
        · rw [ho3] at h
          simp only [Option.none_orElse] at h
          split at h
          · rename_i hg
            cases h
            have hgp : (decide (c = '*') && decide (d = '/')) = true := hg
            simp only [Bool.and_eq_true, decide_eq_true_eq] at hgp
            obtain ⟨hc1, hc2⟩ := hgp
            subst hc1
            subst hc2
            simp [commentTail]
          · cases h
        · rw [ho3] at h
          simp only [Option.some_orElse] at h
          cases h
          split at ho3
          · rename_i hg
            have hgp : (decide (c = '*') && decide (d ≠ '/')) = true := hg
            simp only [Bool.and_eq_true, decide_eq_true_eq] at hgp
            cases hr : commentTail rest with
            | none => rw [hr] at ho3; cases ho3
            | some k =>
              rw [hr] at ho3
              have hb := commentTail_bounds hr
              cases ho3
              dsimp only
              have ih := commentTail_take hr
              rw [show k + 2 = (k + 1) + 1 from rfl, List.take_succ_cons, List.take_succ_cons]
              simp only [commentTail]
              -- A1 on truncated: guard false since c = '*'
              have hg1 : (c ≠ '*' && c ≠ '/') = false := by simp [hgp.1]
              have hg2 : (c ≠ '*' && d = '/') = false := by simp [hgp.1]
              rw [hg1, hg2]
              simp only [Bool.false_eq_true, if_false, Option.none_orElse]
              rw [if_pos hg, ih]
              simp
          · cases ho3
      · rw [ho2] at h
        simp only [Option.some_orElse] at h
        cases h
        split at ho2
        · rename_i hg
          have hgp : (decide (c ≠ '*') && decide (d = '/')) = true := hg
          simp only [Bool.and_eq_true, decide_eq_true_eq] at hgp
          cases hr : commentTail rest with
          | none => rw [hr] at ho2; cases ho2
          | some k =>
            rw [hr] at ho2
            have hb := commentTail_bounds hr
            cases ho2
            dsimp only
            have ih := commentTail_take hr
            rw [show k + 2 = (k + 1) + 1 from rfl, List.take_succ_cons, List.take_succ_cons]
            simp only [commentTail]
            -- A1 on truncated: original A1 = none
            have ha1 : (if c ≠ '*' && c ≠ '/' then
                (commentTail (d :: rest.take k)).map (· + 1) else none) = none := by
              rcases hg1 : (c ≠ '*' && c ≠ '/') with _ | _
              · rfl
              · rw [if_pos rfl]
                rw [hg1, if_pos rfl] at ho1
                cases hdr : commentTail (d :: rest) with
                | some mm => rw [hdr] at ho1; cases ho1
                | none =>
                  have htn := commentTail_take_none hdr (k + 1)
                  rw [List.take_succ_cons] at htn
                  rw [htn]
                  rfl
            rw [ha1]
            simp only [Option.none_orElse]
            rw [if_pos hg, ih]
            simp
        · cases ho2
    · rw [ho1] at h
      simp only [Option.some_orElse] at h
      cases h
      split at ho1
      · rename_i hg
        cases hr : commentTail (d :: rest) with
        | none => rw [hr] at ho1; cases ho1
        | some k =>
          rw [hr] at ho1
          have hb := commentTail_bounds hr
          cases ho1
          dsimp only
          have ih := commentTail_take hr
          rw [List.take_succ_cons]
          have hk : (d :: rest).take k = d :: rest.take (k - 1) := by
            obtain ⟨hb1, hb2⟩ := hb
            conv_lhs => rw [show k = (k - 1) + 1 from by omega]
            rw [List.take_succ_cons]
          rw [hk] at ih ⊢
          -- need rest.take (k-1) to expose one more head for the comment pattern
          have hb2 : 2 ≤ k := (commentTail_bounds hr).1
          have hlen : k ≤ (d :: rest).length := (commentTail_bounds hr).2
          obtain ⟨r1, rest2, hrr⟩ : ∃ r1 rest2, rest.take (k - 1) = r1 :: rest2 := by
            cases hres : rest.take (k - 1) with
            | nil =>
              exfalso
              have : (rest.take (k - 1)).length = 0 := by rw [hres]; rfl
              rw [List.length_take] at this
              simp only [List.length_cons] at hlen
              omega
            | cons a b => exact ⟨a, b, rfl⟩
          rw [hrr] at ih ⊢
          simp only [commentTail]
          rw [if_pos hg]
          simp only [commentTail] at ih
          rw [ih]
          simp
      · cases ho1

theorem commentTail_ends : ∀ {l : List Char} {n : Nat}, commentTail l = some n →
    ∃ y, l.take n = y ++ ['*', '/']
  | [], n, h => by simp [commentTail] at h
  | [c], n, h => by simp [commentTail] at h
  | c :: d :: rest, n, h => by
    simp only [commentTail] at h
    rcases ho1 : (if c ≠ '*' && c ≠ '/' then (commentTail (d :: rest)).map (· + 1) else none)
      with _ | m1
    · rw [ho1] at h
      simp only [Option.none_orElse] at h
      rcases ho2 : (if c ≠ '*' && d = '/' then (commentTail rest).map (· + 2) else none)
        with _ | m2
      · rw [ho2] at h
        simp only [Option.none_orElse] at h
        rcases ho3 : (if c = '*' && d ≠ '/' then (commentTail rest).map (· + 2) else none)
          with _ | m3
        · rw [ho3] at h
          simp only [Option.none_orElse] at h
          split at h
          · rename_i hg
            cases h
            have hgp : (decide (c = '*') && decide (d = '/')) = true := hg
            simp only [Bool.and_eq_true, decide_eq_true_eq] at hgp
            obtain ⟨hc1, hc2⟩ := hgp
            subst hc1
            subst hc2
            exact ⟨[], rfl⟩
          · cases h
        · rw [ho3] at h
          simp only [Option.some_orElse] at h
          cases h
          split at ho3
          · rename_i hg
            cases hr : commentTail rest with
            | none => rw [hr] at ho3; cases ho3
            | some k =>
              rw [hr] at ho3
              cases ho3
              dsimp only
              obtain ⟨y, hy⟩ := commentTail_ends hr
              refine ⟨c :: d :: y, ?_⟩
              rw [show k + 2 = (k + 1) + 1 from rfl, List.take_succ_cons,
                List.take_succ_cons, hy]
              rfl
          · cases ho3
      · rw [ho2] at h
        simp only [Option.some_orElse] at h
        cases h
        split at ho2
        · rename_i hg
          cases hr : commentTail rest with
          | none => rw [hr] at ho2; cases ho2
          | some k =>
            rw [hr] at ho2
            cases ho2
            dsimp only
            obtain ⟨y, hy⟩ := commentTail_ends hr
            refine ⟨c :: d :: y, ?_⟩
            rw [show k + 2 = (k + 1) + 1 from rfl, List.take_succ_cons,
              List.take_succ_cons, hy]
            rfl
        · cases ho2
    · rw [ho1] at h
      simp only [Option.some_orElse] at h
      cases h
      split at ho1
      · rename_i hg
        cases hr : commentTail (d :: rest) with
        | none => rw [hr] at ho1; cases ho1
        | some k =>
          rw [hr] at ho1
          cases ho1
          dsimp only
          obtain ⟨y, hy⟩ := commentTail_ends hr
          refine ⟨c :: y, ?_⟩
          rw [List.take_succ_cons, hy]
          rfl
      · cases ho1

theorem commentTail_none_ext : ∀ {x : List Char}, commentTail x = none →
    ((∃ y, x = y ++ ['*', '/']) ∨ x = ['/']) →
    ∀ {r : List Char}, (∀ c0, r.head? = some c0 → c0 ≠ '/') →
    commentTail (x ++ r) = none
  | [], _, hcond, r, hr => by
    rcases hcond with ⟨y, hy⟩ | hy
    · cases y <;> simp at hy
    · cases hy
  | [c], _, hcond, r, hr => by
    have hc : c = '/' := by
      rcases hcond with ⟨y, hy⟩ | hy
      · cases y with
        | nil => simp at hy
        | cons a y2 => cases y2 <;> simp at hy
      · injection hy
    subst hc
    cases r with
    | nil => rfl
    | cons r0 r2 =>
      have hne : r0 ≠ '/' := hr r0 rfl
      simp [commentTail, hne]
  | c :: d :: rest, h, hcond, r, hr => by
    -- x has at least two characters and ends with */ (the ['/'] shape is impossible)
    have hxe : ∃ y, c :: d :: rest = y ++ ['*', '/'] := by
      rcases hcond with hy | hy
      · exact hy
      · cases hy
    simp only [commentTail] at h
    rcases ho1 : (if c ≠ '*' && c ≠ '/' then (commentTail (d :: rest)).map (· + 1) else none)
      with _ | m1
    swap
    · rw [ho1] at h
      simp only [Option.some_orElse] at h
      cases h
    rw [ho1] at h
    simp only [Option.none_orElse] at h
    rcases ho2 : (if c ≠ '*' && d = '/' then (commentTail rest).map (· + 2) else none)
      with _ | m2
    swap
    · rw [ho2] at h
      simp only [Option.some_orElse] at h
      cases h
    rw [ho2] at h
    simp only [Option.none_orElse] at h
    rcases ho3 : (if c = '*' && d ≠ '/' then (commentTail rest).map (· + 2) else none)
      with _ | m3
    swap
    · rw [ho3] at h
      simp only [Option.some_orElse] at h
      cases h
    rw [ho3] at h
    simp only [Option.none_orElse] at h
    -- h : A4 = none
    have hne4 : (c = '*' && d = '/') = false := by
      rcases hg : (c = '*' && d = '/') with _ | _
      · rfl
      · rw [hg, if_pos rfl] at h
        cases h
    simp only [List.cons_append]
    simp only [commentTail]
    -- extended A4 is none
    rw [hne4]
    -- extended A1
    have he1 : (if c ≠ '*' && c ≠ '/' then
        (commentTail (d :: (rest ++ r))).map (· + 1) else none) = none := by
      rcases hg : (c ≠ '*' && c ≠ '/') with _ | _
      · rfl
      · rw [if_pos rfl]
        rw [hg, if_pos rfl] at ho1
        cases hdr : commentTail (d :: rest) with
        | some mm => rw [hdr] at ho1; cases ho1
        | none =>
          have hcond2 : (∃ y, d :: rest = y ++ ['*', '/']) ∨ d :: rest = ['/'] := by
            obtain ⟨y, hy⟩ := hxe
            cases y with
            | nil =>
              exfalso
              simp only [List.nil_append] at hy
              injection hy with hy1 hy2
              simp only [Bool.and_eq_true, decide_eq_true_eq] at hg
              exact hg.1 hy1
            | cons y0 y2 =>
              left
              refine ⟨y2, ?_⟩
              simp only [List.cons_append] at hy
              injection hy with hy1 hy2
              try exact hy2
          have := commentTail_none_ext hdr hcond2 hr
          rw [show d :: rest ++ r = d :: (rest ++ r) from rfl] at this
          rw [this]
          try rfl
    rw [he1]
    simp only [Option.none_orElse]
    -- extended A2
    have he2 : (if c ≠ '*' && d = '/' then
        (commentTail (rest ++ r)).map (· + 2) else none) = none := by
      rcases hg : (c ≠ '*' && d = '/') with _ | _
      · rfl
      · rw [if_pos rfl]
        rw [hg, if_pos rfl] at ho2
        cases hdr : commentTail rest with
        | some mm => rw [hdr] at ho2; cases ho2
        | none =>
          simp only [Bool.and_eq_true, decide_eq_true_eq] at hg
          have hcond2 : (∃ y, rest = y ++ ['*', '/']) ∨ rest = ['/'] := by
            obtain ⟨y, hy⟩ := hxe
            cases y with
            | nil =>
              exfalso
              simp only [List.nil_append] at hy
              injection hy with hy1 hy2
              exact hg.1 hy1
            | cons y0 y2 =>
              cases y2 with
              | nil =>
                exfalso
                simp only [List.cons_append, List.nil_append] at hy
                injection hy with hy1 hy2
                injection hy2 with hy2 hy3
                rw [hy2] at hg
                exact absurd hg.2 (by decide)
              | cons y1 y3 =>
                left
                refine ⟨y3, ?_⟩
                simp only [List.cons_append] at hy
                injection hy with hy1 hy2
                injection hy2 with hy2 hy3
                try exact hy3
          have := commentTail_none_ext hdr hcond2 hr
          rw [this]
          try rfl
    rw [he2]
    simp only [Option.none_orElse]
    -- extended A3
    have he3 : (if c = '*' && d ≠ '/' then
        (commentTail (rest ++ r)).map (· + 2) else none) = none := by
      rcases hg : (c = '*' && d ≠ '/') with _ | _
      · rfl
      · rw [if_pos rfl]
        rw [hg, if_pos rfl] at ho3
        cases hdr : commentTail rest with
        | some mm => rw [hdr] at ho3; cases ho3
        | none =>
          simp only [Bool.and_eq_true, decide_eq_true_eq] at hg
          have hcond2 : (∃ y, rest = y ++ ['*', '/']) ∨ rest = ['/'] := by
            obtain ⟨y, hy⟩ := hxe
            cases y with
            | nil =>
              exfalso
              simp only [List.nil_append] at hy
              injection hy with hy1 hy2
              injection hy2 with hy2 hy3
              exact hg.2 hy2
            | cons y0 y2 =>
              cases y2 with
              | nil =>
                right
                simp only [List.cons_append, List.nil_append] at hy
                injection hy with hy1 hy2
                injection hy2 with hy2 hy3
                try exact hy3
              | cons y1 y3 =>
                left
                refine ⟨y3, ?_⟩
                simp only [List.cons_append] at hy
                injection hy with hy1 hy2
                injection hy2 with hy2 hy3
                try exact hy3
          have := commentTail_none_ext hdr hcond2 hr
          rw [this]
          try rfl
    rw [he3]
    simp only [Option.none_orElse]
    rfl

theorem commentTail_full_shape {l : List Char} (h : commentTail l = some l.length) :
    ∃ y, l = y ++ ['*', '/'] := by
  obtain ⟨y, hy⟩ := commentTail_ends h
  rw [List.take_length] at hy
  exact ⟨y, hy⟩

theorem commentTail_full_ext : ∀ {l : List Char}, commentTail l = some l.length →
    ∀ {r : List Char}, (∀ c0, r.head? = some c0 → c0 ≠ '/') →
    commentTail (l ++ r) = some l.length
  | [], h, r, hr => by simp [commentTail] at h
  | [c], h, r, hr => by simp [commentTail] at h
  | c :: d :: rest, h, r, hr => by
    have hshape := commentTail_full_shape h
    simp only [commentTail] at h
    simp only [List.cons_append]
    simp only [commentTail]
    rcases ho1 : (if c ≠ '*' && c ≠ '/' then (commentTail (d :: rest)).map (· + 1) else none)
      with _ | m1
    · rw [ho1] at h
      simp only [Option.none_orElse] at h
      -- extended A1 is none
      have he1 : (if c ≠ '*' && c ≠ '/' then
          (commentTail (d :: (rest ++ r))).map (· + 1) else none) = none := by
        rcases hg : (c ≠ '*' && c ≠ '/') with _ | _
        · rfl
        · rw [if_pos rfl]
          rw [hg, if_pos rfl] at ho1
          cases hdr : commentTail (d :: rest) with
          | some mm => rw [hdr] at ho1; cases ho1
          | none =>
            have hcond2 : (∃ y, d :: rest = y ++ ['*', '/']) ∨ d :: rest = ['/'] := by
              obtain ⟨y, hy⟩ := hshape
              cases y with
              | nil =>
                exfalso
                simp only [List.nil_append] at hy
                injection hy with hy1 hy2
                simp only [Bool.and_eq_true, decide_eq_true_eq] at hg
                exact hg.1 hy1
              | cons y0 y2 =>
                left
                refine ⟨y2, ?_⟩
                simp only [List.cons_append] at hy
                injection hy with hy1 hy2
                try exact hy2
            have hne := commentTail_none_ext hdr hcond2 hr
            rw [show d :: rest ++ r = d :: (rest ++ r) from rfl] at hne
            rw [hne]
            try rfl
      rw [he1]
      simp only [Option.none_orElse]
      rcases ho2 : (if c ≠ '*' && d = '/' then (commentTail rest).map (· + 2) else none)
        with _ | m2
      · rw [ho2] at h
        simp only [Option.none_orElse] at h
        rcases ho3 : (if c = '*' && d ≠ '/' then (commentTail rest).map (· + 2) else none)
          with _ | m3
        · rw [ho3] at h
          simp only [Option.none_orElse] at h
          split at h
          · rename_i hg
            -- A4: length = 2 so rest = []
            have h2 := Option.some.inj h
            have hrest : rest = [] := by
              have : rest.length = 0 := by
                simp only [List.length_cons] at h2
                omega
              exact List.eq_nil_of_length_eq_zero this
            subst hrest
            have hgp : (decide (c = '*') && decide (d = '/')) = true := hg
            simp only [Bool.and_eq_true, decide_eq_true_eq] at hgp
            obtain ⟨hc1, hc2⟩ := hgp
            subst hc1
            subst hc2
            rw [← h2]
            simp [commentTail]
          · cases h
        · -- A3 succeeded
          rw [ho3] at h
          simp only [Option.some_orElse] at h
          split at ho3
          · rename_i hg
            have hgp : (decide (c = '*') && decide (d ≠ '/')) = true := hg
            simp only [Bool.and_eq_true, decide_eq_true_eq] at hgp
            cases hrr : commentTail rest with
            | none => rw [hrr] at ho3; cases ho3
            | some k =>
              rw [hrr] at ho3
              cases ho3
              have hb := commentTail_bounds hrr
              have h2 := Option.some.inj h
              have hkfull : k = rest.length := by
                simp only [List.length_cons] at h2
                omega
              subst hkfull
              have ih := commentTail_full_ext hrr hr
              have hg2 : (c ≠ '*' && d = '/') = false := by
                simp [hgp.1]
              rw [hg2]
              simp only [Bool.false_eq_true, if_false, Option.none_orElse]
              rw [if_pos hg, ih]
              simp only [Option.map_some', Option.some_orElse]
              rw [← h2]
              try simp only [List.length_cons]
              try congr 1
              try omega
          · cases ho3
      · -- A2 succeeded
        rw [ho2] at h
        simp only [Option.some_orElse] at h
        split at ho2
        · rename_i hg
          have hgp : (decide (c ≠ '*') && decide (d = '/')) = true := hg
          simp only [Bool.and_eq_true, decide_eq_true_eq] at hgp
          cases hrr : commentTail rest with
          | none => rw [hrr] at ho2; cases ho2
          | some k =>
            rw [hrr] at ho2
            cases ho2
            have hb := commentTail_bounds hrr
            have h2 := Option.some.inj h
            have hkfull : k = rest.length := by
              simp only [List.length_cons] at h2
              omega
            subst hkfull
            have ih := commentTail_full_ext hrr hr
            rw [if_pos hg, ih]
            simp only [Option.map_some', Option.some_orElse]
            rw [← h2]
            try simp only [List.length_cons]
            try congr 1
            try omega
        · cases ho2
    · -- A1 succeeded
      rw [ho1] at h
      simp only [Option.some_orElse] at h
      split at ho1
      · rename_i hg
        cases hrr : commentTail (d :: rest) with
        | none => rw [hrr] at ho1; cases ho1
        | some k =>
          rw [hrr] at ho1
          cases ho1
          have hb := commentTail_bounds hrr
          have h2 := Option.some.inj h
          have hkfull : k = (d :: rest).length := by
            simp only [List.length_cons] at h2 ⊢
            omega
          subst hkfull
          have ih := commentTail_full_ext hrr hr
          have ih2 : commentTail (d :: (rest ++ r)) = some (d :: rest).length := by
            rw [← List.cons_append]
            exact ih
          rw [if_pos hg, ih2]
          simp only [Option.map_some', Option.some_orElse]
          rw [← h2]
          try simp only [List.length_cons]
      · cases ho1

theorem commentLen_trunc {l : List Char} {n : Nat} (h : commentLen l = some n) :
    commentLen (l.take n) = some n := by
  unfold commentLen at h
  split at h
  · rename_i rest
    cases hs : commentTail rest with
    | none => rw [hs] at h; cases h
    | some k =>
      rw [hs] at h
      have hb := commentTail_bounds hs
      cases h
      dsimp only
      rw [show k + 2 = (k + 1) + 1 from rfl, List.take_succ_cons, List.take_succ_cons]
      rw [commentLen_eval, commentTail_take hs]
      rfl
  · cases h

theorem commentLen_full_ext {t r : List Char} (h : commentLen t = some t.length)
    (hr : ∀ c0, r.head? = some c0 → c0 ≠ '/') :
    commentLen (t ++ r) = some t.length := by
  unfold commentLen at h
  split at h
  · rename_i rest
    cases hs : commentTail rest with
    | none => rw [hs] at h; cases h
    | some k =>
      rw [hs] at h
      have h2 := Option.some.inj h
      have hkfull : k = rest.length := by
        simp only [List.length_cons] at h2
        omega
      subst hkfull
      have ih := commentTail_full_ext hs hr
      simp only [List.cons_append]
      rw [commentLen_eval, ih]
      simp only [Option.map_some']
      rw [← h2]
      try simp [List.length_cons]
  · cases h

/-! ### Well-formed leaf texts

Characterisation of the texts the reader stores in leaves: each is a full
match of its token's scanner, and a char-class text has the canonical
bracketed shape that the class reader both produces and re-reads. -/

/-- One stored class-item text: a full `_class_builtin` or `_class_item`
match. -/
def ItemTok (it : List Char) : Prop :=
  classBuiltinLen it = some it.length ∨ classItemLen it = some it.length

mutual
/-- Canonical text of a char-class Terminal as assembled by `readClass`:
`[`, the optional `^` and `-` flags, the stored item texts, an optional
trailing `-` (optionally followed by a nested canonical class text), and
`]`.  The two head-shape conditions record that when a flag is absent, the
following character is not that flag's character (as enforced by the
reader's positional flag checks). -/
inductive ClsTok : List Char → Prop where
  | mk (f1 f2 : Bool) (items : List (List Char)) (trail : List Char)
      (hitems : ∀ it ∈ items, ItemTok it)
      (hne : f1 = true ∨ f2 = true ∨ items ≠ [])
      (htrail : ClsTrail trail)
      (h1 : f1 = false →
        ((if f2 then ['-'] else []) ++ items.flatten ++ trail ++ [']']).head? ≠ some '^')
      (h2 : f2 = false → (items.flatten ++ trail ++ [']']).head? ≠ some '-') :
      ClsTok ('[' :: ((if f1 then ['^'] else []) ++ (if f2 then ['-'] else []) ++
        items.flatten ++ trail) ++ [']'])
/-- The trailing part of a canonical class text after the items: empty, a
bare `-`, or `-` followed by a nested canonical class text. -/
inductive ClsTrail : List Char → Prop where
  | nil : ClsTrail []
  | bare : ClsTrail ['-']
  | nested (t : List Char) : ClsTok t → ClsTrail ('-' :: t)
end

/-- A stored literal text: a full single- or double-quoted literal match. -/
def LitTok (t : String) : Prop :=
  litLen '\'' t.data = some t.data.length ∨ litLen '"' t.data = some t.data.length

/-- Well-formedness of one leaf: the stored text is a full token match of
the leaf's class. -/
def WfLeaf : Node → Prop
  | .Terminal t cls =>
      (cls = "literal" → LitTok t) ∧
      (cls = "comment" → commentLen t.data = some t.data.length) ∧
      (cls = "regex" → regexLen t.data = some t.data.length) ∧
      (cls = "char-class" → (t = "." ∨ ClsTok t.data))
  | .NonTerminal t => identLen t.data = some t.data.length
  | _ => True

mutual
/-- Every leaf of the tree stores a full token match. -/
def WfN : Node → Prop
  | .Alternation items => WfL items
  | .Sequence items => WfL items
  | .Optional x => WfN x
  | .ZeroOrMore x => WfN x
  | .OneOrMore x => WfN x
  | .Terminal t cls => WfLeaf (.Terminal t cls)
  | .NonTerminal t => WfLeaf (.NonTerminal t)
/-- `WfN` over a child list. -/
def WfL : List Node → Prop
  | [] => True
  | x :: xs => WfN x ∧ WfL xs
end

theorem WfL_append {a : List Node} {x : Node} (h1 : WfL a) (h2 : WfN x) :
    WfL (a ++ [x]) := by
  induction a with
  | nil => exact ⟨h2, trivial⟩
  | cons y ys ih =>
    obtain ⟨hy, hys⟩ := h1
    exact ⟨hy, ih hys⟩

theorem WfN_quant (s : List Char) (item : Node) (off : Nat) (h : WfN item) :
    WfN (readQuantifier s item off).1 := by
  rcases readQuantifier_node s item off with hq | hq | hq | hq <;> rw [hq] <;>
    first
      | exact h
      | (simp only [WfN]; exact h)

/-- Decompose a successful anchored match. -/
theorem matchAt_some {s : List Char} {o e : Nat} {m : List Char → Option Nat}
    (h : matchAt s o m = some e) : m (s.drop o) = some (e - o) ∧ o ≤ e := by
  unfold matchAt at h
  cases hm : m (s.drop o) with
  | none => rw [hm] at h; cases h
  | some n =>
    rw [hm] at h
    cases h
    dsimp only
    constructor
    · congr 1
      omega
    · omega

/-- The length of a matched slice is the match length. -/
theorem extractL_len {s : List Char} {o e : Nat} (h1 : o ≤ e) (h2 : e - o ≤ (s.drop o).length) :
    (extractL s o e).length = e - o := by
  unfold extractL
  rw [List.length_take]
  omega

/-- Adjacent slices concatenate. -/
theorem extractL_append {s : List Char} {a b c : Nat} (h1 : a ≤ b) (h2 : b ≤ c) :
    extractL s a b ++ extractL s b c = extractL s a c := by
  unfold extractL
  have hd : s.drop b = (s.drop a).drop (b - a) := by
    rw [List.drop_drop]
    congr 1
    omega
  rw [hd, ← List.take_add]
  congr 1
  omega

/-- The empty slice. -/
theorem extractL_self (s : List Char) (o : Nat) : extractL s o o = [] := by
  unfold extractL
  simp

/-- A nonempty slice starts with the source character at its start offset. -/
theorem extractL_head {s : List Char} {o e : Nat} (h : extractL s o e ≠ []) :
    ∃ ch tail, s.drop o = ch :: tail ∧ (extractL s o e).head? = some ch ∧
      (s.drop o).take 1 = [ch] := by
  unfold extractL at h ⊢
  cases hd : s.drop o with
  | nil => rw [hd] at h; simp at h
  | cons ch tail =>
    rw [hd] at h
    refine ⟨ch, tail, rfl, ?_, rfl⟩
    cases he : e - o with
    | zero =>
      simp only [ne_eq, List.take_eq_nil_iff] at h
      simp [he] at h
    | succ n => rw [List.take_succ_cons, List.head?_cons]

/-- A successful anchored match makes the matched slice a full match of the
same scanner. -/
theorem slice_full {s : List Char} {o e : Nat} {m : List Char → Option Nat}
    (bounds : ∀ {l : List Char} {n : Nat}, m l = some n → n ≤ l.length)
    (trunc : ∀ {l : List Char} {n : Nat}, m l = some n → m (l.take n) = some n)
    (h : matchAt s o m = some e) :
    m (extractL s o e) = some (extractL s o e).length ∧
      (extractL s o e).length = e - o := by
  obtain ⟨hm, hle⟩ := matchAt_some h
  have hb := bounds hm
  have hlen : (extractL s o e).length = e - o := extractL_len hle hb
  refine ⟨?_, hlen⟩
  rw [hlen]
  exact trunc hm

/-- Obligations per command for the leaf-text characterisation: procedures
returning nodes return trees whose leaves are full token matches; the class
reader returns canonical class texts; the class-item loop appends full item
matches forming one contiguous slice. -/
def StepWf (s : List Char) : (c : RCmd) → ROutT c → Prop
  | .alt _, v => WfN v.1
  | .altLoop _ acc, v => WfL acc → WfN v.1
  | .seq _, v => WfN v.1
  | .seqLoop _ acc, v => WfL acc → WfN v.1
  | .item _, v => ∀ x, v.1 = some x → WfN x
  | .charClass _, v => ∀ t, v.1 = some t → ClsTok t.data
  | .classItems off acc, v =>
      ∃ new, v.1 = acc ++ new ∧ (∀ it ∈ new, ItemTok it) ∧
        new.flatten = extractL s off v.2 ∧ (new = [] → v.2 = off)

theorem classItemsBody_wf {s : List Char} {recLoop}
    (hLoop : ∀ o a w, recLoop o a = .ok w → ∃ new, w.1 = a ++ new ∧
      (∀ it ∈ new, ItemTok it) ∧ new.flatten = extractL s o w.2 ∧ (new = [] → w.2 = o))
    (hLoopB : ∀ o a w, recLoop o a = .ok w → o ≤ w.2)
    (off : Nat) (acc : List (List Char)) (v : List (List Char) × Nat)
    (h : classItemsBody s recLoop off acc = .ok v) :
    ∃ new, v.1 = acc ++ new ∧ (∀ it ∈ new, ItemTok it) ∧
      new.flatten = extractL s off v.2 ∧ (new = [] → v.2 = off) := by
  unfold classItemsBody at h
  split at h
  · rename_i txt off2 heq
    obtain ⟨new2, h1, h2, h3, h4⟩ := hLoop _ _ _ h
    have hb := readClassItem_bounds heq
    have htxt : txt = extractL s off off2 ∧ ItemTok txt := by
      unfold readClassItem at heq
      cases hm1 : matchAt s off classBuiltinLen with
      | some e =>
        rw [hm1] at heq
        cases heq
        have := slice_full (fun hx => by have h4 := classBuiltinLen_bounds hx; omega)
          (fun hx => by
            have h4 := classBuiltinLen_take_ext hx []
            rwa [List.append_nil] at h4) hm1
        exact ⟨rfl, Or.inl this.1⟩
      | none =>
        rw [hm1] at heq
        cases hm2 : matchAt s off classItemLen with
        | some e =>
          rw [hm2] at heq
          cases heq
          have := slice_full (fun hx => (classItemLen_bounds hx).2)
            (fun hx => classItemLen_trunc hx) hm2
          exact ⟨rfl, Or.inr this.1⟩
        | none => rw [hm2] at heq; cases heq
    have hb2 := hLoopB _ _ _ h
    refine ⟨txt :: new2, ?_, ?_, ?_, fun hc => by cases hc⟩
    · rw [h1, List.append_assoc]
      rfl
    · intro it hit
      rcases List.mem_cons.mp hit with rfl | hit2
      · exact htxt.2
      · exact h2 it hit2
    · rw [List.flatten_cons, h3, htxt.1]
      exact extractL_append hb.1.le hb2
  · cases h
    refine ⟨[], by simp, by simp, ?_, fun _ => rfl⟩
    rw [extractL_self]
    rfl

theorem altLoopBody_wf {s : List Char} {recSeq recLoop}
    (hSeq : ∀ o w, recSeq o = .ok w → WfN w.1)
    (hLoop : ∀ o a w, recLoop o a = .ok w → WfL a → WfN w.1)
    (off : Nat) (acc : List Node) (v : Node × Nat)
    (h : altLoopBody s recSeq recLoop off acc = .ok v)
    (hacc : WfL acc) : WfN v.1 := by
  unfold altLoopBody at h
  split at h
  · rename_i nv node off1 heq
    have hg := hSeq off (node, off1) heq
    simp only at hg
    have hacc2 : WfL (acc ++ [node]) := WfL_append hacc hg
    dsimp only at h
    split at h
    · exact hLoop _ _ _ h hacc2
    · split at h
      · cases h
        simp only [WfN]
        exact hacc2
      · split at h
        · cases h
          rename_i x heq2
          rw [heq2] at hacc2
          exact hacc2.1
        · cases h
  · cases h
  · cases h

theorem seqLoopBody_wf {s : List Char} {recItem recLoop}
    (hItem : ∀ o w, recItem o = .ok w → ∀ x, w.1 = some x → WfN x)
    (hLoop : ∀ o a w, recLoop o a = .ok w → WfL a → WfN w.1)
    (off : Nat) (acc : List Node) (v : Node × Nat)
    (h : seqLoopBody s recItem recLoop off acc = .ok v)
    (hacc : WfL acc) : WfN v.1 := by
  unfold seqLoopBody at h
  split at h
  · rename_i nv item off1 heq
    have hg := hItem off (some item, off1) heq item rfl
    have hacc2 : WfL (acc ++ [item]) := WfL_append hacc hg
    exact hLoop _ _ _ h hacc2
  · rename_i nv off1 heq
    split at h
    · cases h
      simp only [WfN]
      exact hacc
    · split at h
      · cases h
        exact hacc.1
      · cases h
  · cases h
  · cases h

theorem itemBody_wf {s : List Char} {recCls recAlt}
    (hCls : ∀ o w, recCls o = .ok w → ∀ t, w.1 = some t → ClsTok t.data)
    (hAlt : ∀ o w, recAlt o = .ok w → WfN w.1)
    (off : Nat) (v : Option Node × Nat)
    (h : itemBody s recCls recAlt off = .ok v) :
    ∀ x, v.1 = some x → WfN x := by
  unfold itemBody at h
  dsimp only at h
  split at h
  · rename_i e heq
    cases h
    intro x hx
    cases hx
    apply WfN_quant
    show WfLeaf (.NonTerminal (extract s (skipWhitespace s off) e))
    have := slice_full (fun hx => (identLen_bounds hx).2) (fun hx => identLen_trunc hx) heq
    exact this.1
  · split at h
    · rename_i e heq
      cases h
      intro x hx
      cases hx
      apply WfN_quant
      show WfLeaf (.Terminal (extract s (skipWhitespace s off) e) "literal")
      have := slice_full (fun hx => (litLen_bounds hx).2) (fun hx => by
        have h4 := litLen_take_ext hx []
        rwa [List.append_nil] at h4) heq
      refine ⟨fun _ => Or.inl this.1, fun hcl => absurd hcl (by decide), fun hcl => absurd hcl (by decide),
        fun hcl => absurd hcl (by decide)⟩
    · split at h
      · rename_i e heq
        cases h
        intro x hx
        cases hx
        apply WfN_quant
        show WfLeaf (.Terminal (extract s (skipWhitespace s off) e) "literal")
        have := slice_full (fun hx => (litLen_bounds hx).2) (fun hx => by
          have h4 := litLen_take_ext hx []
          rwa [List.append_nil] at h4) heq
        refine ⟨fun _ => Or.inr this.1, fun hcl => absurd hcl (by decide), fun hcl => absurd hcl (by decide),
          fun hcl => absurd hcl (by decide)⟩
      · split at h
        · rename_i e heq
          cases h
          intro x hx
          cases hx
          show WfLeaf (.Terminal (extract s (skipWhitespace s off) e) "comment")
          have := slice_full (fun hx => (commentLen_bounds hx).2)
            (fun hx => commentLen_trunc hx) heq
          refine ⟨fun hcl => absurd hcl (by decide), fun _ => this.1, fun hcl => absurd hcl (by decide),
            fun hcl => absurd hcl (by decide)⟩
        · split at h
          · rename_i e heq
            cases h
            intro x hx
            cases hx
            apply WfN_quant
            show WfLeaf (.Terminal (extract s (skipWhitespace s off) e) "regex")
            have := slice_full (fun hx => (regexLen_bounds hx).2) (fun hx => by
              have h4 := regexLen_take_ext hx (r := []) (fun c hc => by cases hc)
              rwa [List.append_nil] at h4) heq
            refine ⟨fun hcl => absurd hcl (by decide), fun hcl => absurd hcl (by decide), fun _ => this.1,
              fun hcl => absurd hcl (by decide)⟩
          · split at h
            · rename_i cv text e heq
              cases h
              intro x hx
              cases hx
              apply WfN_quant
              show WfLeaf (.Terminal text "char-class")
              have := hCls _ _ heq text rfl
              refine ⟨fun hcl => absurd hcl (by decide), fun hcl => absurd hcl (by decide),
                fun hcl => absurd hcl (by decide), fun _ => Or.inr this⟩
            · rename_i cv o2 heq
              split at h
              · cases h
                intro x hx
                cases hx
                apply WfN_quant
                show WfLeaf (.Terminal "." "char-class")
                refine ⟨fun hcl => absurd hcl (by decide), fun hcl => absurd hcl (by decide),
                  fun hcl => absurd hcl (by decide), fun _ => Or.inl rfl⟩
              · split at h
                · split at h
                  · rename_i av node off2 heq2
                    have hg := hAlt _ _ heq2
                    simp only at hg
                    split at h
                    · cases h
                      intro x hx
                      cases hx
                      exact WfN_quant _ _ _ hg
                    · cases h
                  · cases h
                  · cases h
                · cases h
                  intro x hx
                  cases hx
            · cases h
            · cases h

theorem readLiteral_false_noskip {s : List Char} {off : Nat} {v : List Char}
    (h : (readLiteral s off v false).1 = false) :
    (readLiteral s off v false).2 = off ∧ (s.drop off).take v.length ≠ v := by
  rcases readLiteral_cases s off v false with ⟨he, ht⟩ | ⟨he, ht⟩
  · rw [he] at h
    simp at h
  · constructor
    · rw [he]
      rfl
    · simpa using ht

theorem readLiteral_true_noskip {s : List Char} {off : Nat} {v : List Char}
    (h : (readLiteral s off v false).1 = true) :
    (readLiteral s off v false).2 = off + v.length ∧ (s.drop off).take v.length = v := by
  rcases readLiteral_cases s off v false with ⟨he, ht⟩ | ⟨he, ht⟩
  · constructor
    · rw [he]
      rfl
    · simpa using ht
  · rw [he] at h
    simp at h

theorem ItemTok_ne_nil {it : List Char} (h : ItemTok it) : it ≠ [] := by
  rcases h with h | h
  · have hb := classBuiltinLen_bounds h
    intro he
    subst he
    simp at hb
  · have hb := classItemLen_bounds h
    intro he
    subst he
    simp at hb

theorem flatten_itemTok_ne_nil {it : List Char} {rest : List (List Char)}
    (h : ItemTok it) : ((it :: rest).flatten) ≠ [] := by
  rw [List.flatten_cons]
  intro hc
  rcases List.append_eq_nil.mp hc with ⟨h1, _⟩
  exact ItemTok_ne_nil h h1

theorem asString_data (l : List Char) : (l.asString).data = l := rfl

theorem classBody_wf {s : List Char} {recItems recCls}
    (hItems : ∀ o a w, recItems o a = .ok w → ∃ new, w.1 = a ++ new ∧
      (∀ it ∈ new, ItemTok it) ∧ new.flatten = extractL s o w.2 ∧ (new = [] → w.2 = o))
    (hCls : ∀ o w, recCls o = .ok w → ∀ t, w.1 = some t → ClsTok t.data)
    (off : Nat) (v : Option String × Nat)
    (h : classBody s recItems recCls off = .ok v) :
    ∀ t, v.1 = some t → ClsTok t.data := by
  unfold classBody at h
  dsimp only at h
  split at h
  · cases h
    intro t ht
    cases ht
  · rename_i hbr
    set o1 := (readLiteral s off ['['] true).2 with ho1
    set b1 := (readLiteral s o1 ['^'] false).1 with hb1
    set o2 := (readLiteral s o1 ['^'] false).2 with ho2
    set b2 := (readLiteral s o2 ['-'] false).1 with hb2
    set o2b := (readLiteral s o2 ['-'] false).2 with ho2b
    split at h
    · rename_i nv items3 o3 heqI
      obtain ⟨new, hi1, hi2, hi3, hi4⟩ := hItems _ _ _ heqI
      simp only at hi1 hi3 hi4
      split at h
      · cases h
      · rename_i hlen3
        set b3 := (readLiteral s o3 ['-'] false).1 with hb3
        set o3b := (readLiteral s o3 ['-'] false).2 with ho3b
        have hcommon : ∀ (trail : List Char), ClsTrail trail → (trail ≠ [] → b3 = true) →
            ∀ t : String, t.data = '[' :: ((if b1 then ['^'] else []) ++
              (if b2 then ['-'] else []) ++ new.flatten ++ trail) ++ [']'] →
            ClsTok t.data := by
          intro trail htrail htr3 t ht
          rw [ht]
          have hh2 : b2 = false → (new.flatten ++ trail ++ [']']).head? ≠ some '-' := by
            intro hb2f
            have hf2 := readLiteral_false_noskip (v := ['-']) (by rw [← hb2, hb2f])
            have ho2be : o2b = o2 := by rw [ho2b, hf2.1]
            cases hnew : new with
            | nil =>
              subst hnew
              simp only [List.flatten_nil, List.nil_append]
              have ho3e : o3 = o2b := hi4 rfl
              cases htrail with
              | nil => simp
              | bare =>
                exfalso
                have hf3 := readLiteral_true_noskip (v := ['-'])
                  (by rw [← hb3]; exact htr3 (by simp))
                rw [ho3e, ho2be] at hf3
                exact hf2.2 hf3.2
              | nested tn htn =>
                exfalso
                have hf3 := readLiteral_true_noskip (v := ['-'])
                  (by rw [← hb3]; exact htr3 (by simp))
                rw [ho3e, ho2be] at hf3
                exact hf2.2 hf3.2
            | cons it new2 =>
              subst hnew
              have hfl0 : ((it :: new2).flatten) ≠ [] := flatten_itemTok_ne_nil
                (hi2 it (List.mem_cons_self it new2))
              have hflE : extractL s o2b o3 ≠ [] := by rw [← hi3]; exact hfl0
              obtain ⟨ch, tail, hdrop, hheadE, htake⟩ := extractL_head hflE
              have hhead : ((it :: new2).flatten).head? = some ch := by
                rw [hi3]; exact hheadE
              obtain ⟨fr, hfleq⟩ : ∃ fr, (it :: new2).flatten = ch :: fr := by
                cases hfe : (it :: new2).flatten with
                | nil => exact absurd hfe hfl0
                | cons a fr =>
                  rw [hfe] at hhead
                  simp only [List.head?_cons, Option.some.injEq] at hhead
                  subst hhead
                  exact ⟨fr, rfl⟩
              rw [hfleq]
              simp only [List.cons_append, List.head?_cons]
              intro hc
              injection hc with hc
              subst hc
              rw [ho2be] at htake
              exact hf2.2 (by simpa using htake)
          refine ClsTok.mk b1 b2 new trail hi2 ?_ htrail ?_ hh2
          · cases hcb1 : b1 with
            | true => exact Or.inl rfl
            | false =>
              cases hcb2 : b2 with
              | true => exact Or.inr (Or.inl rfl)
              | false =>
                refine Or.inr (Or.inr ?_)
                intro hne
                subst hne
                rw [hcb1, hcb2] at hi1
                simp at hi1
                rw [hi1] at hlen3
                simp at hlen3
          · intro hb1f
            cases hcb2 : b2 with
            | true => simp
            | false =>
              have hf1 := readLiteral_false_noskip (v := ['^']) (by rw [← hb1, hb1f])
              have hf2 := readLiteral_false_noskip (v := ['-']) (by rw [← hb2, hcb2])
              have ho2e : o2 = o1 := by rw [ho2, hf1.1]
              have ho2be : o2b = o2 := by rw [ho2b, hf2.1]
              simp only [Bool.false_eq_true, if_false, List.nil_append]
              cases hnew : new with
              | nil =>
                subst hnew
                simp only [List.flatten_nil, List.nil_append]
                cases htrail with
                | nil => simp
                | bare => simp
                | nested tn htn => simp
              | cons it new2 =>
                subst hnew
                have hfl0 : ((it :: new2).flatten) ≠ [] := flatten_itemTok_ne_nil
                  (hi2 it (List.mem_cons_self it new2))
                have hflE : extractL s o2b o3 ≠ [] := by rw [← hi3]; exact hfl0
                obtain ⟨ch, tail, hdrop, hheadE, htake⟩ := extractL_head hflE
                have hhead : ((it :: new2).flatten).head? = some ch := by
                  rw [hi3]; exact hheadE
                obtain ⟨fr, hfleq⟩ : ∃ fr, (it :: new2).flatten = ch :: fr := by
                  cases hfe : (it :: new2).flatten with
                  | nil => exact absurd hfe hfl0
                  | cons a fr =>
                    rw [hfe] at hhead
                    simp only [List.head?_cons, Option.some.injEq] at hhead
                    subst hhead
                    exact ⟨fr, rfl⟩
                rw [hfleq]
                simp only [List.cons_append, List.head?_cons]
                intro hc
                injection hc with hc
                subst hc
                rw [ho2be, ho2e] at htake
                exact hf1.2 (by simpa using htake)
        -- dispatch over the trailing-dash shapes
        split at h
        · rename_i hb3t
          split at h
          · rename_i cv res o4 heqC
            unfold closeClass at h
            dsimp only at h
            split at h
            · cases h
              intro t ht
              injection ht with ht
              subst ht
              cases res with
              | none =>
                refine hcommon ['-'] ClsTrail.bare (fun _ => hb3t) _ ?_
                rw [asString_data]
                dsimp only
                rw [hi1]
                cases hc1 : b1 <;> cases hc2 : b2 <;>
                  simp [List.flatten_append, List.flatten]
              | some tn =>
                refine hcommon ('-' :: tn.data) (ClsTrail.nested tn.data
                  (hCls _ _ heqC tn rfl)) (fun _ => hb3t) _ ?_
                rw [asString_data]
                dsimp only
                rw [hi1]
                cases hc1 : b1 <;> cases hc2 : b2 <;>
                  simp [List.flatten_append, List.flatten]
            · cases h
          · cases h
          · cases h
        · rename_i hb3f
          unfold closeClass at h
          dsimp only at h
          split at h
          · cases h
            intro t ht
            injection ht with ht
            subst ht
            refine hcommon [] ClsTrail.nil (fun hc => absurd rfl hc) _ ?_
            rw [asString_data]
            rw [hi1]
            cases hc1 : b1 <;> cases hc2 : b2 <;>
              simp [List.flatten_append, List.flatten]
          · cases h
    · cases h
    · cases h

/-- Every node a reader procedure returns has well-formed leaf texts. -/
theorem step_wf (s : List Char) : ∀ (fuel : Nat) (c : RCmd) (v : ROutT c),
    step s fuel c = .ok v → StepWf s c v := by
  intro fuel
  induction fuel with
  | zero => intro c v h; simp [step] at h
  | succ fuel ih =>
    intro c v h
    cases c with
    | alt off =>
      have h2 : step s fuel (.altLoop off []) = .ok v := h
      exact (ih (.altLoop off []) v h2 : StepWf s (.altLoop off []) v) trivial
    | altLoop off acc =>
      have h2 : altLoopBody s (fun o => step s fuel (.seq o))
          (fun o a => step s fuel (.altLoop o a)) off acc = .ok v := h
      intro hacc
      refine altLoopBody_wf ?_ ?_ off acc v h2 hacc
      · intro o w hw
        exact (ih (.seq o) w hw : StepWf s (.seq o) w)
      · intro o a w hw ha
        exact (ih (.altLoop o a) w hw : StepWf s (.altLoop o a) w) ha
    | seq off =>
      have h2 : step s fuel (.seqLoop off []) = .ok v := h
      exact (ih (.seqLoop off []) v h2 : StepWf s (.seqLoop off []) v) trivial
    | seqLoop off acc =>
      have h2 : seqLoopBody s (fun o => step s fuel (.item o))
          (fun o a => step s fuel (.seqLoop o a)) off acc = .ok v := h
      intro hacc
      refine seqLoopBody_wf ?_ ?_ off acc v h2 hacc
      · intro o w hw
        exact (ih (.item o) w hw : StepWf s (.item o) w)
      · intro o a w hw ha
        exact (ih (.seqLoop o a) w hw : StepWf s (.seqLoop o a) w) ha
    | item off =>
      have h2 : itemBody s (fun o => step s fuel (.charClass o))
          (fun o => step s fuel (.alt o)) off = .ok v := h
      refine itemBody_wf ?_ ?_ off v h2
      · intro o w hw
        exact (ih (.charClass o) w hw : StepWf s (.charClass o) w)
      · intro o w hw
        exact (ih (.alt o) w hw : StepWf s (.alt o) w)
    | charClass off =>
      have h2 : classBody s (fun o a => step s fuel (.classItems o a))
          (fun o => step s fuel (.charClass o)) off = .ok v := h
      refine classBody_wf ?_ ?_ off v h2
      · intro o a w hw
        exact (ih (.classItems o a) w hw : StepWf s (.classItems o a) w)
      · intro o w hw
        exact (ih (.charClass o) w hw : StepWf s (.charClass o) w)
    | classItems off acc =>
      have h2 : classItemsBody s (fun o a => step s fuel (.classItems o a)) off acc
          = .ok v := h
      refine classItemsBody_wf ?_ ?_ off acc v h2
      · intro o a w hw
        exact (ih (.classItems o a) w hw : StepWf s (.classItems o a) w)
      · intro o a w hw
        exact ((step_bounds s fuel (.classItems o a) w hw).1.1 :
          cmdOff (.classItems o a) ≤ outOff (.classItems o a) w)

/-- Every tree `read` returns has well-formed leaf texts. -/
theorem read_wf (source : String) (t : Node) (h : read source = .ok t) : WfN t := by
  unfold read readFuel readAlternation at h
  cases hr : step source.data (parseFuel source) (.alt 0) with
  | ok nv =>
    rw [hr] at h
    obtain ⟨node, off⟩ := nv
    dsimp only at h
    split at h
    · cases h
    · cases h
      exact (step_wf source.data (parseFuel source) (.alt 0) (t, off) hr :
        StepWf source.data (.alt 0) (t, off))
  | err m => rw [hr] at h; cases h
  | outOfFuel => rw [hr] at h; cases h

/-! ### Re-parsing rendered text (for the C1 analysis)

`Evals s c r` states that the procedure `c` on source `s` returns `r` for
every sufficiently large fuel; by `step_mono`/`step_enough` this determines
the parse at the canonical budget. -/

/-- Eventually-stable evaluation of a reader procedure. -/
def Evals (s : List Char) (c : RCmd) (r : PResult (ROutT c)) : Prop :=
  ∃ F, ∀ fuel, F ≤ fuel → step s fuel c = r

/-- The characters that can begin a rendered item. -/
def ItemStart (c : Char) : Prop :=
  pyIsWord c = true ∨ c = '\'' ∨ c = '"' ∨ c = '/' ∨ c = '[' ∨ c = '.' ∨ c = '('

theorem ItemStart_not_space {c : Char} (h : ItemStart c) : pyIsSpace c = false := by
  rcases h with h | h | h | h | h | h | h
  · exact not_space_of_word h
  all_goals (subst h; decide)

theorem word_ne {c d : Char} (hw : pyIsWord c = true) (hd : pyIsWord d = false) : c ≠ d := by
  intro he
  subst he
  rw [hw] at hd
  cases hd

/-- What may follow a rendered item: end of input, `|`, `)`, or a single
space followed by another item or a `|`. -/
def RestOk (r : List Char) : Prop :=
  r = [] ∨ (∃ r2, r = '|' :: r2) ∨ (∃ r2, r = ')' :: r2) ∨
    (∃ c r2, r = ' ' :: c :: r2 ∧ (ItemStart c ∨ c = '|'))

/-! Round-trip structural conditions: no Alternation directly inside an
Alternation, no quantifier directly wrapping a quantifier or a comment, and
no regex text beginning with `/*`. -/

/-- A regex text that re-tokenises as a comment opening. -/
def slashStar (t : String) : Bool := decide (t.data.take 2 = ['/', '*'])

/-- Not an Alternation node. -/
def notAlt : Node → Bool
  | .Alternation _ => false
  | _ => true

/-- A node a quantifier may wrap while preserving the round trip: not a
quantifier (whose suffix would merge) and not a comment (which the reader
returns without reading a quantifier). -/
def quantChildOk : Node → Bool
  | .Optional _ => false
  | .ZeroOrMore _ => false
  | .OneOrMore _ => false
  | .Terminal _ cls => !(cls == "comment")
  | _ => true

mutual
/-- The structural conditions under which the text projection re-parses to
the same tree. -/
def rtOkB : Node → Bool
  | .Alternation items => items.all notAlt && rtOkL items
  | .Sequence items => rtOkL items
  | .Optional x => quantChildOk x && rtOkB x
  | .ZeroOrMore x => quantChildOk x && rtOkB x
  | .OneOrMore x => quantChildOk x && rtOkB x
  | .Terminal t cls => !(cls == "regex" && slashStar t)
  | .NonTerminal _ => true
/-- `rtOkB` over a child list. -/
def rtOkL : List Node → Bool
  | [] => true
  | x :: xs => rtOkB x && rtOkL xs
end

/-- The single-element collapse of `readSequence`'s accumulated list. -/
def collapse1Seq : List Node → Node
  | [x] => x
  | xs => .Sequence xs

/-- The single-element collapse of `readAlternation`'s accumulated list. -/
def collapse1Alt : List Node → Node
  | [x] => x
  | xs => .Alternation xs

/-- Not a Sequence node. -/
def notSeq : Node → Bool
  | .Sequence _ => false
  | _ => true

theorem toEbnf_brace_irrel : ∀ t : Node, notAlt t = true → notSeq t = true →
    toEbnf t false = toEbnf t true := by
  intro t h1 h2
  cases t with
  | Alternation items => simp [notAlt] at h1
  | Sequence items => simp [notSeq] at h2
  | Optional x => rfl
  | ZeroOrMore x => rfl
  | OneOrMore x => rfl
  | Terminal a b => rfl
  | NonTerminal a => rfl

/-! Head-shape extraction for the token scanners. -/

theorem litLen_shape {q : Char} {l : List Char} {n : Nat} (h : litLen q l = some n) :
    ∃ rest, l = q :: rest := by
  cases l with
  | nil => simp [litLen] at h
  | cons c rest =>
    unfold litLen at h
    dsimp only at h
    split at h
    · rename_i hq
      subst hq
      exact ⟨rest, rfl⟩
    · cases h

theorem commentLen_shape {l : List Char} {n : Nat} (h : commentLen l = some n) :
    ∃ rest, l = '/' :: '*' :: rest := by
  unfold commentLen at h
  split at h
  · rename_i rest
    exact ⟨rest, rfl⟩
  · cases h

theorem regexLen_shape {l : List Char} {n : Nat} (h : regexLen l = some n) :
    ∃ rest, l = '/' :: rest := by
  unfold regexLen at h
  split at h
  · rename_i rest
    exact ⟨rest, rfl⟩
  · cases h

theorem identLen_shape {l : List Char} {n : Nat} (h : identLen l = some n) :
    ∃ c rest, l = c :: rest ∧ pyIsWord c = true := by
  cases l with
  | nil => simp [identLen] at h
  | cons c rest =>
    unfold identLen at h
    dsimp only at h
    split at h
    · rename_i hw
      exact ⟨c, rest, rfl, hw⟩
    · cases h

theorem ClsTok_shape {l : List Char} (h : ClsTok l) : ∃ rest, l = '[' :: rest := by
  cases h
  exact ⟨_, rfl⟩

/-- Every well-formed, well-tagged node renders (with `brace = true`) to a
nonempty text beginning with an item-start character. -/
theorem renderHead : ∀ t : Node, WfN t → tagsB t = true →
    ∃ c r, (toEbnf t true).data = c :: r ∧ ItemStart c
  | .Alternation items, _, _ => by
    refine ⟨'(', (toEbnfJoin " | " false items).data ++ [')'], ?_, ?_⟩
    · show ("(" ++ toEbnfJoin " | " false items ++ ")").data = _
      rw [String.data_append, String.data_append]
      rfl
    · right; right; right; right; right; right; rfl
  | .Sequence items, _, _ => by
    refine ⟨'(', (toEbnfJoin " " true items).data ++ [')'], ?_, ?_⟩
    · show ("(" ++ toEbnfJoin " " true items ++ ")").data = _
      rw [String.data_append, String.data_append]
      rfl
    · right; right; right; right; right; right; rfl
  | .Optional x, hwf, htags => by
    obtain ⟨c, r, hcr, hc⟩ := renderHead x hwf htags
    refine ⟨c, r ++ ['?'], ?_, hc⟩
    show (toEbnf x true ++ "?").data = _
    rw [String.data_append, hcr]
    rfl
  | .ZeroOrMore x, hwf, htags => by
    obtain ⟨c, r, hcr, hc⟩ := renderHead x hwf htags
    refine ⟨c, r ++ ['*'], ?_, hc⟩
    show (toEbnf x true ++ "*").data = _
    rw [String.data_append, hcr]
    rfl
  | .OneOrMore x, hwf, htags => by
    obtain ⟨c, r, hcr, hc⟩ := renderHead x hwf htags
    refine ⟨c, r ++ ['+'], ?_, hc⟩
    show (toEbnf x true ++ "+").data = _
    rw [String.data_append, hcr]
    rfl
  | .NonTerminal t, hwf, htags => by
    obtain ⟨c, rest, hcr, hw⟩ := identLen_shape (hwf : WfLeaf (.NonTerminal t))
    exact ⟨c, rest, hcr, Or.inl hw⟩
  | .Terminal t cls, hwf, htags => by
    have hleaf : WfLeaf (.Terminal t cls) := hwf
    obtain ⟨hlit, hcom, hreg, hcc⟩ := hleaf
    simp only [tagsB, Bool.or_eq_true, decide_eq_true_eq] at htags
    rcases htags with ((hcl | hcl) | hcl) | hcl
    · rcases hlit hcl with hq | hq
      · obtain ⟨rest, hr⟩ := litLen_shape hq
        exact ⟨'\'', rest, hr, Or.inr (Or.inl rfl)⟩
      · obtain ⟨rest, hr⟩ := litLen_shape hq
        exact ⟨'"', rest, hr, Or.inr (Or.inr (Or.inl rfl))⟩
    · obtain ⟨rest, hr⟩ := regexLen_shape (hreg hcl)
      exact ⟨'/', rest, hr, Or.inr (Or.inr (Or.inr (Or.inl rfl)))⟩
    · obtain ⟨rest, hr⟩ := commentLen_shape (hcom hcl)
      exact ⟨'/', '*' :: rest, hr, Or.inr (Or.inr (Or.inr (Or.inl rfl)))⟩
    · rcases hcc hcl with hdot | hcls
      · refine ⟨'.', [], ?_, Or.inr (Or.inr (Or.inr (Or.inr (Or.inr (Or.inl rfl)))))⟩
        show t.data = _
        rw [hdot]
      · obtain ⟨rest, hr⟩ := ClsTok_shape hcls
        exact ⟨'[', rest, hr, Or.inr (Or.inr (Or.inr (Or.inr (Or.inl rfl))))⟩

theorem skipWhitespace_eval {s : List Char} {off k : Nat} {rest : List Char}
    (hs : s.drop off = List.replicate k ' ' ++ rest)
    (hrest : ∀ c, rest.head? = some c → pyIsSpace c = false) :
    skipWhitespace s off = off + k := by
  unfold skipWhitespace
  have hall : (List.replicate k ' ').all pyIsSpace = true := by
    rw [List.all_eq_true]
    intro c hc
    rw [List.eq_of_mem_replicate hc]
    decide
  rw [hs, takeWhile_append_of_all hall hrest, List.length_replicate]

theorem drop_shift {s : List Char} {off : Nat} {pre rest : List Char}
    (hs : s.drop off = pre ++ rest) : s.drop (off + pre.length) = rest := by
  rw [← List.drop_drop, hs, List.drop_left]

theorem readLiteral_skip_true {s : List Char} {off k : Nat} {ch : Char} {rest : List Char}
    (hs : s.drop off = List.replicate k ' ' ++ ch :: rest)
    (hns : pyIsSpace ch = false) :
    readLiteral s off [ch] true = (true, off + k + 1) := by
  have hws : skipWhitespace s off = off + k := skipWhitespace_eval hs
    (fun c hc => by injection hc with hc; subst hc; exact hns)
  have hd : s.drop (off + k) = ch :: rest := by
    have := drop_shift hs
    rwa [List.length_replicate] at this
  unfold readLiteral
  dsimp only
  have hif : (if true = true then skipWhitespace s off else off) = off + k := by
    rw [if_pos rfl]
    exact hws
  rw [hif, hd]
  simp

theorem readLiteral_skip_false {s : List Char} {off k : Nat} {ch tgt : Char}
    {rest : List Char}
    (hs : s.drop off = List.replicate k ' ' ++ ch :: rest)
    (hns : pyIsSpace ch = false) (hne : ch ≠ tgt) :
    readLiteral s off [tgt] true = (false, off + k) := by
  have hws : skipWhitespace s off = off + k := skipWhitespace_eval hs
    (fun c hc => by injection hc with hc; subst hc; exact hns)
  have hd : s.drop (off + k) = ch :: rest := by
    have := drop_shift hs
    rwa [List.length_replicate] at this
  unfold readLiteral
  dsimp only
  have hif : (if true = true then skipWhitespace s off else off) = off + k := by
    rw [if_pos rfl]
    exact hws
  rw [hif, hd]
  simp [hne]

theorem readLiteral_skip_eof {s : List Char} {off k : Nat} (tgt : Char)
    (hs : s.drop off = List.replicate k ' ') :
    readLiteral s off [tgt] true = (false, off + k) := by
  have hws : skipWhitespace s off = off + k := skipWhitespace_eval
    (by rw [hs, List.append_nil]) (fun c hc => by cases hc)
  have hd : s.drop (off + k) = [] := by
    have hs2 : s.drop off = List.replicate k ' ' ++ [] := by rw [hs, List.append_nil]
    have := drop_shift hs2
    rwa [List.length_replicate] at this
  unfold readLiteral
  dsimp only
  have hif : (if true = true then skipWhitespace s off else off) = off + k := by
    rw [if_pos rfl]
    exact hws
  rw [hif, hd]
  simp

theorem readQuantifier_nil {s : List Char} {e k : Nat} {rest : List Char} (item : Node)
    (hs : s.drop e = List.replicate k ' ' ++ rest)
    (hh : ∀ c, rest.head? = some c →
      pyIsSpace c = false ∧ c ≠ '?' ∧ c ≠ '*' ∧ c ≠ '+') :
    readQuantifier s item e = (item, e + k) := by
  have hd : s.drop (e + k) = rest := by
    have := drop_shift hs
    rwa [List.length_replicate] at this
  unfold readQuantifier
  cases hre : rest with
  | nil =>
    subst hre
    have h1 : readLiteral s e ['?'] true = (false, e + k) :=
      readLiteral_skip_eof '?' (by rw [hs, List.append_nil])
    have hzero : s.drop (e + k) = List.replicate 0 ' ' := hd
    have h2 : readLiteral s (e + k) ['*'] true = (false, e + k) := by
      have := readLiteral_skip_eof '*' hzero
      rwa [Nat.add_zero] at this
    have h3 : readLiteral s (e + k) ['+'] true = (false, e + k) := by
      have := readLiteral_skip_eof '+' hzero
      rwa [Nat.add_zero] at this
    rw [h1]
    dsimp only
    rw [h2]
    dsimp only
    rw [h3]
    simp
  | cons c r2 =>
    subst hre
    obtain ⟨hcs, hcq, hcst, hcp⟩ := hh c rfl
    have h1 : readLiteral s e ['?'] true = (false, e + k) :=
      readLiteral_skip_false hs hcs hcq
    have hzero : s.drop (e + k) = List.replicate 0 ' ' ++ c :: r2 := hd
    have h2 : readLiteral s (e + k) ['*'] true = (false, e + k) := by
      have := readLiteral_skip_false hzero hcs hcst
      rwa [Nat.add_zero] at this
    have h3 : readLiteral s (e + k) ['+'] true = (false, e + k) := by
      have := readLiteral_skip_false hzero hcs hcp
      rwa [Nat.add_zero] at this
    rw [h1]
    dsimp only
    rw [h2]
    dsimp only
    rw [h3]
    simp

theorem readQuantifier_opt {s : List Char} {e : Nat} {rest : List Char} (item : Node)
    (hs : s.drop e = '?' :: rest) :
    readQuantifier s item e = (.Optional item, e + 1) := by
  have h1 : readLiteral s e ['?'] true = (true, e + 1) := by
    have := readLiteral_skip_true (k := 0) (by simpa using hs) (by decide)
    simpa using this
  unfold readQuantifier
  dsimp only
  rw [h1]
  simp

theorem readQuantifier_star {s : List Char} {e : Nat} {rest : List Char} (item : Node)
    (hs : s.drop e = '*' :: rest) :
    readQuantifier s item e = (.ZeroOrMore item, e + 1) := by
  have h1 : readLiteral s e ['?'] true = (false, e) := by
    have := readLiteral_skip_false (k := 0) (by simpa using hs)
      (by decide) (show ('*' : Char) ≠ '?' from by decide)
    simpa using this
  have h2 : readLiteral s e ['*'] true = (true, e + 1) := by
    have := readLiteral_skip_true (k := 0) (by simpa using hs) (by decide)
    simpa using this
  unfold readQuantifier
  dsimp only
  rw [h1]
  dsimp only
  rw [h2]
  simp

theorem readQuantifier_plus {s : List Char} {e : Nat} {rest : List Char} (item : Node)
    (hs : s.drop e = '+' :: rest) :
    readQuantifier s item e = (.OneOrMore item, e + 1) := by
  have h1 : readLiteral s e ['?'] true = (false, e) := by
    have := readLiteral_skip_false (k := 0) (by simpa using hs)
      (by decide) (show ('+' : Char) ≠ '?' from by decide)
    simpa using this
  have h2 : readLiteral s e ['*'] true = (false, e) := by
    have := readLiteral_skip_false (k := 0) (by simpa using hs)
      (by decide) (show ('+' : Char) ≠ '*' from by decide)
    simpa using this
  have h3 : readLiteral s e ['+'] true = (true, e + 1) := by
    have := readLiteral_skip_true (k := 0) (by simpa using hs) (by decide)
    simpa using this
  unfold readQuantifier
  dsimp only
  rw [h1]
  dsimp only
  rw [h2]
  dsimp only
  rw [h3]
  simp

theorem commentLen_none_of_head {c : Char} (h : c ≠ '/') (l : List Char) :
    commentLen (c :: l) = none := by
  cases l with
  | nil => exact commentLen_one c
  | cons d l2 => exact commentLen_ne (fun hc => h hc.1) l2

theorem matchAt_none {s : List Char} {o : Nat} {m : List Char → Option Nat}
    (h : m (s.drop o) = none) : matchAt s o m = none := by
  unfold matchAt
  rw [h]
  rfl

theorem matchAt_some_of {s : List Char} {o n : Nat} {m : List Char → Option Nat}
    (h : m (s.drop o) = some n) : matchAt s o m = some (o + n) := by
  unfold matchAt
  rw [h]
  rfl

theorem charClass_none_eval {s : List Char} {o o2 : Nat}
    (h1 : readLiteral s o ['['] true = (false, o2)) :
    ∀ g, 1 ≤ g → step s g (.charClass o) = .ok (none, o2) := by
  intro g hg
  obtain ⟨g2, rfl⟩ : ∃ g2, g = g2 + 1 := ⟨g - 1, by omega⟩
  show classBody s (fun o a => step s g2 (.classItems o a))
    (fun o => step s g2 (.charClass o)) o = _
  unfold classBody
  dsimp only
  rw [h1]
  simp

/-- `Reader.readItem` returns `None` when, after the whitespace skip, the
input is exhausted or starts with `|` or `)`: every matcher fails and the
cursor rests at the end of the skipped whitespace. -/
theorem item_none_eval {s : List Char} {off k : Nat} {rest : List Char}
    (hs : s.drop off = List.replicate k ' ' ++ rest)
    (hrest : rest = [] ∨ (∃ r, rest = '|' :: r) ∨ (∃ r, rest = ')' :: r)) :
    ∀ g, 2 ≤ g → step s g (.item off) = .ok (none, off + k) := by
  have hhead : ∀ c, rest.head? = some c → pyIsSpace c = false := by
    rcases hrest with rfl | ⟨r, rfl⟩ | ⟨r, rfl⟩
    · intro c hc; cases hc
    · intro c hc; injection hc with hc; subst hc; decide
    · intro c hc; injection hc with hc; subst hc; decide
  have hws : skipWhitespace s off = off + k := skipWhitespace_eval hs hhead
  have hd : s.drop (off + k) = rest := by
    have := drop_shift hs
    rwa [List.length_replicate] at this
  have hd0 : s.drop (off + k) = List.replicate 0 ' ' ++ rest := by simpa using hd
  have hI : identLen (s.drop (off + k)) = none := by
    rw [hd]
    rcases hrest with rfl | ⟨r, rfl⟩ | ⟨r, rfl⟩
    · rfl
    · exact identLen_none_of_head (by decide) r
    · exact identLen_none_of_head (by decide) r
  have hS : litLen '\'' (s.drop (off + k)) = none := by
    rw [hd]
    rcases hrest with rfl | ⟨r, rfl⟩ | ⟨r, rfl⟩
    · rfl
    · exact litLen_none_of_head (by decide) r
    · exact litLen_none_of_head (by decide) r
  have hD : litLen '"' (s.drop (off + k)) = none := by
    rw [hd]
    rcases hrest with rfl | ⟨r, rfl⟩ | ⟨r, rfl⟩
    · rfl
    · exact litLen_none_of_head (by decide) r
    · exact litLen_none_of_head (by decide) r
  have hC : commentLen (s.drop (off + k)) = none := by
    rw [hd]
    rcases hrest with rfl | ⟨r, rfl⟩ | ⟨r, rfl⟩
    · rfl
    · exact commentLen_none_of_head (by decide) r
    · exact commentLen_none_of_head (by decide) r
  have hR : regexLen (s.drop (off + k)) = none := by
    rw [hd]
    rcases hrest with rfl | ⟨r, rfl⟩ | ⟨r, rfl⟩
    · rfl
    · exact regexLen_ne (by decide) r
    · exact regexLen_ne (by decide) r
  have hBr : readLiteral s (off + k) ['['] true = (false, off + k) := by
    rcases hrest with rfl | ⟨r, rfl⟩ | ⟨r, rfl⟩
    · have := readLiteral_skip_eof (k := 0) '[' (by simpa using hd)
      simpa using this
    · have := readLiteral_skip_false (k := 0) hd0 (by decide)
        (show ('|' : Char) ≠ '[' from by decide)
      simpa using this
    · have := readLiteral_skip_false (k := 0) hd0 (by decide)
        (show (')' : Char) ≠ '[' from by decide)
      simpa using this
  have hDot : readLiteral s (off + k) ['.'] true = (false, off + k) := by
    rcases hrest with rfl | ⟨r, rfl⟩ | ⟨r, rfl⟩
    · have := readLiteral_skip_eof (k := 0) '.' (by simpa using hd)
      simpa using this
    · have := readLiteral_skip_false (k := 0) hd0 (by decide)
        (show ('|' : Char) ≠ '.' from by decide)
      simpa using this
    · have := readLiteral_skip_false (k := 0) hd0 (by decide)
        (show (')' : Char) ≠ '.' from by decide)
      simpa using this
  have hPar : readLiteral s (off + k) ['('] true = (false, off + k) := by
    rcases hrest with rfl | ⟨r, rfl⟩ | ⟨r, rfl⟩
    · have := readLiteral_skip_eof (k := 0) '(' (by simpa using hd)
      simpa using this
    · have := readLiteral_skip_false (k := 0) hd0 (by decide)
        (show ('|' : Char) ≠ '(' from by decide)
      simpa using this
    · have := readLiteral_skip_false (k := 0) hd0 (by decide)
        (show (')' : Char) ≠ '(' from by decide)
      simpa using this
  intro g hg
  obtain ⟨g2, rfl⟩ : ∃ g2, g = g2 + 1 := ⟨g - 1, by omega⟩
  have hg2 : 1 ≤ g2 := by omega
  have hCC : step s g2 (.charClass (off + k)) = .ok (none, off + k) :=
    charClass_none_eval hBr g2 hg2
  show itemBody s (fun o => step s g2 (.charClass o)) (fun o => step s g2 (.alt o)) off = _
  unfold itemBody
  dsimp only
  rw [hws]
  rw [matchAt_none hI]
  rw [matchAt_none hS]
  rw [matchAt_none hD]
  rw [matchAt_none hC]
  rw [matchAt_none hR]
  rw [hCC]
  dsimp only
  rw [hDot]
  dsimp only
  rw [hPar]
  simp

/-- `readLiteral` without whitespace skip, on a literal hit. -/
theorem readLiteral_noskip_hit {s : List Char} {off : Nat} {v : List Char}
    (h : (s.drop off).take v.length = v) :
    readLiteral s off v false = (true, off + v.length) := by
  unfold readLiteral
  simp only [Bool.false_eq_true, if_false]
  rw [if_pos h]

/-- `readLiteral` without whitespace skip, on a literal miss. -/
theorem readLiteral_noskip_miss {s : List Char} {off : Nat} {v : List Char}
    (h : (s.drop off).take v.length ≠ v) :
    readLiteral s off v false = (false, off) := by
  unfold readLiteral
  simp only [Bool.false_eq_true, if_false]
  rw [if_neg h]

/-- A text accepted by `ccLen` starts with a non-meta plain character or with
a backslash escape whose escape character is a meta character or `x`, `u`,
`U`. -/
theorem ccLen_head_cases {l : List Char} {n : Nat} (h : ccLen l = some n) :
    ∃ c r, l = c :: r ∧ ((c = '\\' → ∃ d r2, r = d :: r2 ∧
      (isClassMeta d = true ∨ d = 'x' ∨ d = 'u' ∨ d = 'U')) ∧
      (c ≠ '\\' → isClassMeta c = false)) := by
  match l with
  | [] => exact absurd h (by rw [ccLen_nil]; simp)
  | c :: r =>
    by_cases hc : c = '\\'
    · subst hc
      match r with
      | [] => exact absurd h (by rw [ccLen_bs1]; simp)
      | d :: r2 =>
        refine ⟨'\\', d :: r2, rfl, fun _ => ⟨d, r2, rfl, ?_⟩, fun hc2 => absurd rfl hc2⟩
        rw [ccLen_bs_eval] at h
        by_cases h1 : isClassMeta d = true
        · exact Or.inl h1
        · rw [if_neg h1] at h
          by_cases h2 : d = 'x'
          · exact Or.inr (Or.inl h2)
          · rw [if_neg h2] at h
            by_cases h3 : d = 'u'
            · exact Or.inr (Or.inr (Or.inl h3))
            · rw [if_neg h3] at h
              by_cases h4 : d = 'U'
              · exact Or.inr (Or.inr (Or.inr h4))
              · rw [if_neg h4] at h
                exact absurd h (by simp)
    · refine ⟨c, r, rfl, fun hc2 => absurd hc2 hc, fun _ => ?_⟩
      rw [ccLen_cons_ne hc] at h
      by_cases hm : isClassMeta c = true
      · rw [if_pos hm] at h
        exact absurd h (by simp)
      · simpa using hm

/-- A `_class_item` match always rests on a `ccLen` match of its head. -/
theorem classItemLen_ccLen {l : List Char} {n : Nat} (h : classItemLen l = some n) :
    ∃ k, ccLen l = some k := by
  unfold classItemLen at h
  split at h
  · cases h
  · rename_i k hk
    exact ⟨k, hk⟩

/-- A stored class-item text never starts with `-`. -/
theorem ItemTok_head_ne_dash {it : List Char} (h : ItemTok it) : it.head? ≠ some '-' := by
  rcases h with h | h
  · unfold classBuiltinLen at h
    split at h
    · intro hc
      injection hc with hc
      simp at hc
    · cases h
  · obtain ⟨k, hk⟩ := classItemLen_ccLen h
    obtain ⟨c, r, rfl, hesc, hnesc⟩ := ccLen_head_cases hk
    intro hc
    injection hc with hc
    subst hc
    exact absurd (hnesc (by decide)) (by decide)

/-- `_class_builtin` never matches at the start of a `_class_item` match,
however the text continues: a class item starts with a plain character other
than backslash or with an escape character outside `DSWdsw`. -/
theorem classBuiltinLen_none_of_item {l : List Char} {n : Nat}
    (h : classItemLen l = some n) (r : List Char) : classBuiltinLen (l ++ r) = none := by
  obtain ⟨k, hk⟩ := classItemLen_ccLen h
  obtain ⟨c, r2, rfl, hesc, hnesc⟩ := ccLen_head_cases hk
  by_cases hc : c = '\\'
  · subst hc
    obtain ⟨d, r3, rfl, hd⟩ := hesc rfl
    simp only [List.cons_append]
    rw [classBuiltinLen_eval]
    rcases hd with hd | hd | hd | hd
    · simp only [isClassMeta, Bool.or_eq_true, decide_eq_true_eq] at hd
      rcases hd with ((rfl | rfl) | rfl) | rfl <;> decide
    · subst hd; decide
    · subst hd; decide
    · subst hd; decide
  · rw [List.cons_append, classBuiltinLen_none_of_head hc]

/-- A slice of known decomposition. -/
theorem extractL_of_drop {s : List Char} {o : Nat} {pre tail : List Char}
    (h : s.drop o = pre ++ tail) : extractL s o (o + pre.length) = pre := by
  unfold extractL
  rw [h]
  have h2 : o + pre.length - o = pre.length := by omega
  rw [h2, List.take_left]

/-- `Reader.readClassItem` re-reads a stored item text exactly when the text
that follows cannot extend it (no `-` continuation into a class character). -/
theorem readClassItem_eval {s : List Char} {o : Nat} {it tail : List Char}
    (hit : ItemTok it) (hd : s.drop o = it ++ tail)
    (htail : tail.head? = some '-' → ccLen (tail.drop 1) = none) :
    readClassItem s o = some (it, o + it.length) := by
  have hex : extractL s o (o + it.length) = it := extractL_of_drop hd
  rcases hit with hb | hc
  · have hb2 : classBuiltinLen (s.drop o) = some it.length := by
      rw [hd]
      have := classBuiltinLen_take_ext hb tail
      rwa [List.take_length] at this
    unfold readClassItem
    rw [matchAt_some_of hb2]
    show some (extractL s o (o + it.length), o + it.length) = some (it, o + it.length)
    rw [hex]
  · have hbn : classBuiltinLen (s.drop o) = none := by
      rw [hd]
      exact classBuiltinLen_none_of_item hc tail
    have hc2 : classItemLen (s.drop o) = some it.length := by
      rw [hd]
      exact classItemLen_ext hc htail
    unfold readClassItem
    rw [matchAt_none hbn, matchAt_some_of hc2]
    show some (extractL s o (o + it.length), o + it.length) = some (it, o + it.length)
    rw [hex]

/-- `Reader.readClassItem` fails on a meta character (`[`, `]`, `-`; a
backslash head is excluded separately). -/
theorem readClassItem_none_meta {s : List Char} {o : Nat} {c : Char} {r : List Char}
    (hd : s.drop o = c :: r) (hc : c ≠ '\\') (hm : isClassMeta c = true) :
    readClassItem s o = none := by
  have hbn : classBuiltinLen (s.drop o) = none := by
    rw [hd]
    exact classBuiltinLen_none_of_head hc r
  have hcn : classItemLen (s.drop o) = none := by
    rw [hd]
    apply classItemLen_none
    rw [ccLen_cons_ne hc, if_pos hm]
  unfold readClassItem
  rw [matchAt_none hbn, matchAt_none hcn]

/-- The class-item loop of `Reader.readClass` re-reads a stored item list
exactly, one item per fuel unit, and stops where `readClassItem` fails. -/
theorem classItems_eval {s : List Char} (items : List (List Char)) :
    ∀ o acc tail, (∀ it ∈ items, ItemTok it) →
    s.drop o = items.flatten ++ tail →
    (tail.head? = some '-' → ccLen (tail.drop 1) = none) →
    readClassItem s (o + items.flatten.length) = none →
    ∀ g, items.length + 1 ≤ g →
    step s g (.classItems o acc) = .ok (acc ++ items, o + items.flatten.length) := by
  induction items with
  | nil =>
    intro o acc tail hits hd htail hstop g hg
    obtain ⟨g2, rfl⟩ : ∃ g2, g = g2 + 1 := ⟨g - 1, by omega⟩
    have hstop2 : readClassItem s o = none := by simpa using hstop
    show classItemsBody s (fun o a => step s g2 (.classItems o a)) o acc = _
    unfold classItemsBody
    rw [hstop2]
    simp
  | cons it rest ih =>
    intro o acc tail hits hd htail hstop g hg
    obtain ⟨g2, rfl⟩ : ∃ g2, g = g2 + 1 := ⟨g - 1, by omega⟩
    have hitem : ItemTok it := hits it (by simp)
    have hd2 : s.drop o = it ++ (rest.flatten ++ tail) := by
      simpa [List.flatten_cons, List.append_assoc] using hd
    have hnext : (rest.flatten ++ tail).head? = some '-' →
        ccLen ((rest.flatten ++ tail).drop 1) = none := by
      cases hrest : rest with
      | nil => simpa using htail
      | cons it2 rest2 =>
        intro hh
        exfalso
        have hit2 : ItemTok it2 := hits it2 (by simp [hrest])
        have hne2 := ItemTok_ne_nil hit2
        have hhead : ((it2 :: rest2).flatten ++ tail).head? = it2.head? := by
          cases hit2l : it2 with
          | nil => exact absurd hit2l hne2
          | cons a b => simp [List.flatten_cons]
        rw [hhead] at hh
        exact ItemTok_head_ne_dash hit2 hh
    have hread : readClassItem s o = some (it, o + it.length) :=
      readClassItem_eval hitem hd2 hnext
    show classItemsBody s (fun o a => step s g2 (.classItems o a)) o acc = _
    unfold classItemsBody
    rw [hread]
    show step s g2 (.classItems (o + it.length) (acc ++ [it])) = _
    have hdrop : s.drop (o + it.length) = rest.flatten ++ tail := drop_shift hd2
    have hstop2 : readClassItem s (o + it.length + rest.flatten.length) = none := by
      have heq : o + it.length + rest.flatten.length = o + ((it :: rest).flatten).length := by
        simp [List.flatten_cons]
        omega
      rw [heq]
      exact hstop
    have hrec := ih (o + it.length) (acc ++ [it]) tail
      (fun x hx => hits x (by simp [hx])) hdrop htail hstop2 g2 (by simp at hg; omega)
    rw [hrec]
    simp [List.flatten_cons, List.append_assoc, Nat.add_assoc]

/-- Dropping one more character. -/
theorem drop_one {s : List Char} {o : Nat} {c : Char} {r : List Char}
    (h : s.drop o = c :: r) : s.drop (o + 1) = r := by
  have h2 : s.drop o = [c] ++ r := by simpa using h
  simpa using drop_shift h2

/-- A one-character take differs from a singleton when the head differs. -/
theorem take1_ne_of_head_ne {l r : List Char} {c : Char} (hl : l ≠ [])
    (h : l.head? ≠ some c) : ((l ++ r).take 1) ≠ [c] := by
  cases l with
  | nil => exact absurd rfl hl
  | cons a b =>
    have he : ((a :: b ++ r).take 1) = [a] := rfl
    rw [he]
    intro hh
    injection hh with h3 h4
    subst h3
    exact h rfl

/-- Re-parse of a canonical char-class text: `readClass` started at the `[`
of a stored class text reads back exactly that text, whatever follows the
closing bracket. -/
theorem ClsTok_eval {s : List Char} : ∀ n txt, txt.length ≤ n → ClsTok txt →
    ∀ o after, s.drop o = txt ++ after →
    ∃ F, ∀ g, F ≤ g → step s g (.charClass o) = .ok (some txt.asString, o + txt.length) := by
  intro n
  induction n with
  | zero =>
    intro txt hlen htok o after hdrop
    obtain ⟨rest, rfl⟩ := ClsTok_shape htok
    simp at hlen
  | succ n ih =>
    intro txt hlen htok o after hdrop
    cases htok with
    | mk f1 f2 items trail hitems hne htrail h1 h2 =>
      set G1 : List Char := (if f1 = true then ['^'] else []) with hG1
      set G2 : List Char := (if f2 = true then ['-'] else []) with hG2
      have h0 : s.drop o = '[' ::
          (G1 ++ (G2 ++ (items.flatten ++ (trail ++ (']' :: after))))) := by
        simpa [List.append_assoc] using hdrop
      have hd1 : s.drop (o + 1) =
          G1 ++ (G2 ++ (items.flatten ++ (trail ++ (']' :: after)))) := drop_one h0
      have hd2 : s.drop (o + 1 + G1.length) =
          G2 ++ (items.flatten ++ (trail ++ (']' :: after))) := drop_shift hd1
      have hd3 : s.drop (o + 1 + G1.length + G2.length) =
          items.flatten ++ (trail ++ (']' :: after)) := drop_shift hd2
      have hd4 : s.drop (o + 1 + G1.length + G2.length + items.flatten.length) =
          trail ++ (']' :: after) := drop_shift hd3
      have hbr : readLiteral s o ['['] true = (true, o + 1) := by
        have h0b : s.drop o = List.replicate 0 ' ' ++ ('[' ::
            (G1 ++ (G2 ++ (items.flatten ++ (trail ++ (']' :: after)))))) := by
          simpa using h0
        have := readLiteral_skip_true h0b (by decide)
        simpa using this
      have hflag1 : readLiteral s (o + 1) ['^'] false = (f1, o + 1 + G1.length) := by
        cases f1 with
        | true =>
          have hx : s.drop (o + 1) = '^' ::
              (G2 ++ (items.flatten ++ (trail ++ (']' :: after)))) := by
            rw [hd1, hG1]
            simp
          have hhit : readLiteral s (o + 1) ['^'] false = (true, (o + 1) + ['^'].length) :=
            readLiteral_noskip_hit (by rw [hx]; rfl)
          rw [hhit, hG1]
          simp
        | false =>
          have hne1 := h1 rfl
          have hx : s.drop (o + 1) =
              (G2 ++ items.flatten ++ trail ++ [']']) ++ after := by
            rw [hd1, hG1]
            simp [List.append_assoc]
          have hmiss : readLiteral s (o + 1) ['^'] false = (false, o + 1) :=
            readLiteral_noskip_miss (by
              rw [hx]
              exact take1_ne_of_head_ne (by simp) hne1)
          rw [hmiss, hG1]
          simp
      have hflag2 : readLiteral s (o + 1 + G1.length) ['-'] false =
          (f2, o + 1 + G1.length + G2.length) := by
        cases f2 with
        | true =>
          have hx : s.drop (o + 1 + G1.length) = '-' ::
              (items.flatten ++ (trail ++ (']' :: after))) := by
            rw [hd2, hG2]
            simp
          have hhit : readLiteral s (o + 1 + G1.length) ['-'] false =
              (true, (o + 1 + G1.length) + ['-'].length) :=
            readLiteral_noskip_hit (by rw [hx]; rfl)
          rw [hhit, hG2]
          simp
        | false =>
          have hne2 := h2 rfl
          have hx : s.drop (o + 1 + G1.length) =
              (items.flatten ++ trail ++ [']']) ++ after := by
            rw [hd2, hG2]
            simp [List.append_assoc]
          have hmiss : readLiteral s (o + 1 + G1.length) ['-'] false =
              (false, o + 1 + G1.length) :=
            readLiteral_noskip_miss (by
              rw [hx]
              exact take1_ne_of_head_ne (by simp) hne2)
          rw [hmiss, hG2]
          simp
      have htail : (trail ++ (']' :: after)).head? = some '-' →
          ccLen ((trail ++ (']' :: after)).drop 1) = none := by
        cases htrail with
        | nil =>
          intro hh
          simp at hh
        | bare =>
          intro hh
          show ccLen (']' :: after) = none
          rw [ccLen_cons_ne (by decide)]
          decide
        | nested t ht =>
          intro hh
          obtain ⟨r2, rfl⟩ := ClsTok_shape ht
          show ccLen ('[' :: (r2 ++ (']' :: after))) = none
          rw [ccLen_cons_ne (by decide)]
          decide
      have hstop : readClassItem s
          (o + 1 + G1.length + G2.length + items.flatten.length) = none := by
        cases htrail with
        | nil =>
          have hd4b := hd4
          simp only [List.nil_append] at hd4b
          exact readClassItem_none_meta hd4b (by decide) (by decide)
        | bare =>
          have hd4b := hd4
          simp only [List.cons_append, List.nil_append] at hd4b
          exact readClassItem_none_meta hd4b (by decide) (by decide)
        | nested t ht =>
          have hd4b := hd4
          simp only [List.cons_append] at hd4b
          exact readClassItem_none_meta hd4b (by decide) (by decide)
      have hitemsEv : ∀ g, items.length + 1 ≤ g → ∀ a,
          step s g (.classItems (o + 1 + G1.length + G2.length) a) =
          .ok (a ++ items, o + 1 + G1.length + G2.length + items.flatten.length) :=
        fun g hg a => classItems_eval items (o + 1 + G1.length + G2.length) a
          (trail ++ (']' :: after)) hitems hd3 htail hstop g hg
      have hlen3 : ¬((((if f1 = true then [['^']] else []) ++
          (if f2 = true then [['-']] else [])) ++ items).length = 0) := by
        rcases hne with hf | hf | hf
        · subst hf
          simp
        · subst hf
          simp
        · intro hh
          simp only [List.length_append] at hh
          exact hf (List.length_eq_zero.mp (by omega))
      cases htrail with
      | nil =>
        refine ⟨items.length + 2, ?_⟩
        intro g hg
        obtain ⟨g2, rfl⟩ : ∃ g2, g = g2 + 1 := ⟨g - 1, by omega⟩
        have hf3 : readLiteral s (o + 1 + G1.length + G2.length + items.flatten.length)
            ['-'] false = (false, o + 1 + G1.length + G2.length + items.flatten.length) := by
          apply readLiteral_noskip_miss
          have hd4b := hd4
          simp only [List.nil_append] at hd4b
          rw [hd4b]
          intro hh
          injection hh with h3 h4
          exact absurd h3 (by decide)
        have hcl : readLiteral s (o + 1 + G1.length + G2.length + items.flatten.length)
            [']'] false = (true, o + 1 + G1.length + G2.length + items.flatten.length + 1) := by
          have hd4b := hd4
          simp only [List.nil_append] at hd4b
          have := readLiteral_noskip_hit (v := [']']) (by rw [hd4b]; rfl)
          simpa using this
        show classBody s (fun o a => step s g2 (.classItems o a))
          (fun o => step s g2 (.charClass o)) o = _
        unfold classBody
        dsimp only
        rw [hbr]
        dsimp only
        simp only [Bool.not_true, Bool.false_eq_true, if_false]
        rw [hflag1]
        dsimp only
        rw [hflag2]
        dsimp only
        rw [hitemsEv g2 (by omega) ((if f1 = true then [['^']] else []) ++
          (if f2 = true then [['-']] else []))]
        dsimp only
        rw [if_neg hlen3]
        rw [hf3]
        dsimp only
        simp only [Bool.false_eq_true, if_false]
        unfold closeClass
        dsimp only
        rw [hcl]
        dsimp only
        simp only [if_true]
        have hfinL : ('[' :: (((if f1 = true then [['^']] else []) ++
            (if f2 = true then [['-']] else [])) ++ items).flatten) ++ [']'] =
            ('[' :: (G1 ++ (G2 ++ (items.flatten ++ [])))) ++ [']'] := by
          rw [hG1, hG2]
          cases f1 <;> cases f2 <;> simp
        have hfinN : o + 1 + G1.length + G2.length + items.flatten.length + 1 =
            o + (('[' :: (G1 ++ (G2 ++ (items.flatten ++ [])))) ++ [']']).length := by
          simp [List.length_append]
          omega
        rw [hfinL, hfinN]
        simp [List.append_assoc]
      | bare =>
        refine ⟨items.length + 2, ?_⟩
        intro g hg
        obtain ⟨g2, rfl⟩ : ∃ g2, g = g2 + 1 := ⟨g - 1, by omega⟩
        have hd4b := hd4
        simp only [List.cons_append, List.nil_append] at hd4b
        have hf3 : readLiteral s (o + 1 + G1.length + G2.length + items.flatten.length)
            ['-'] false = (true, o + 1 + G1.length + G2.length + items.flatten.length + 1) := by
          have := readLiteral_noskip_hit (v := ['-']) (by rw [hd4b]; rfl)
          simpa using this
        have hd5 : s.drop (o + 1 + G1.length + G2.length + items.flatten.length + 1) =
            ']' :: after := drop_one hd4b
        have hnested : step s g2 (.charClass
            (o + 1 + G1.length + G2.length + items.flatten.length + 1)) =
            .ok (none, o + 1 + G1.length + G2.length + items.flatten.length + 1) := by
          apply charClass_none_eval ?_ g2 (by omega)
          have hd5b : s.drop (o + 1 + G1.length + G2.length + items.flatten.length + 1) =
              List.replicate 0 ' ' ++ (']' :: after) := by simpa using hd5
          have := readLiteral_skip_false hd5b (by decide)
            (show (']' : Char) ≠ '[' from by decide)
          simpa using this
        have hcl : readLiteral s (o + 1 + G1.length + G2.length + items.flatten.length + 1)
            [']'] false = (true, o + 1 + G1.length + G2.length + items.flatten.length + 2) := by
          have := readLiteral_noskip_hit (v := [']']) (by rw [hd5]; rfl)
          simpa using this
        show classBody s (fun o a => step s g2 (.classItems o a))
          (fun o => step s g2 (.charClass o)) o = _
        unfold classBody
        dsimp only
        rw [hbr]
        dsimp only
        simp only [Bool.not_true, Bool.false_eq_true, if_false]
        rw [hflag1]
        dsimp only
        rw [hflag2]
        dsimp only
        rw [hitemsEv g2 (by omega) ((if f1 = true then [['^']] else []) ++
          (if f2 = true then [['-']] else []))]
        dsimp only
        rw [if_neg hlen3]
        rw [hf3]
        dsimp only
        simp only [if_true]
        rw [hnested]
        dsimp only
        unfold closeClass
        dsimp only
        rw [hcl]
        dsimp only
        simp only [if_true]
        have hfinL : ('[' :: ((((if f1 = true then [['^']] else []) ++
            (if f2 = true then [['-']] else [])) ++ items) ++ [['-']] ++ []).flatten) ++ [']'] =
            ('[' :: (G1 ++ (G2 ++ (items.flatten ++ ['-'])))) ++ [']'] := by
          rw [hG1, hG2]
          cases f1 <;> cases f2 <;> simp
        have hfinN : o + 1 + G1.length + G2.length + items.flatten.length + 2 =
            o + (('[' :: (G1 ++ (G2 ++ (items.flatten ++ ['-'])))) ++ [']']).length := by
          simp [List.length_append]
          omega
        rw [hfinL, hfinN]
        simp [List.append_assoc]
      | nested t ht =>
        have hd4b := hd4
        simp only [List.cons_append] at hd4b
        have hd5 : s.drop (o + 1 + G1.length + G2.length + items.flatten.length + 1) =
            t ++ (']' :: after) := drop_one hd4b
        have hlt : t.length ≤ n := by
          simp only [List.length_append, List.length_cons] at hlen
          omega
        obtain ⟨Ft, hFt⟩ := ih t hlt ht
          (o + 1 + G1.length + G2.length + items.flatten.length + 1) (']' :: after) hd5
        refine ⟨items.length + 2 + Ft, ?_⟩
        intro g hg
        obtain ⟨g2, rfl⟩ : ∃ g2, g = g2 + 1 := ⟨g - 1, by omega⟩
        have hf3 : readLiteral s (o + 1 + G1.length + G2.length + items.flatten.length)
            ['-'] false = (true, o + 1 + G1.length + G2.length + items.flatten.length + 1) := by
          have := readLiteral_noskip_hit (v := ['-']) (by rw [hd4b]; rfl)
          simpa using this
        have hd6 : s.drop (o + 1 + G1.length + G2.length + items.flatten.length + 1 +
            t.length) = ']' :: after := drop_shift hd5
        have hcl : readLiteral s (o + 1 + G1.length + G2.length + items.flatten.length + 1 +
            t.length) [']'] false = (true, o + 1 + G1.length + G2.length +
            items.flatten.length + 1 + t.length + 1) := by
          have := readLiteral_noskip_hit (v := [']']) (by rw [hd6]; rfl)
          simpa using this
        show classBody s (fun o a => step s g2 (.classItems o a))
          (fun o => step s g2 (.charClass o)) o = _
        unfold classBody
        dsimp only
        rw [hbr]
        dsimp only
        simp only [Bool.not_true, Bool.false_eq_true, if_false]
        rw [hflag1]
        dsimp only
        rw [hflag2]
        dsimp only
        rw [hitemsEv g2 (by omega) ((if f1 = true then [['^']] else []) ++
          (if f2 = true then [['-']] else []))]
        dsimp only
        rw [if_neg hlen3]
        rw [hf3]
        dsimp only
        simp only [if_true]
        rw [hFt g2 (by omega)]
        dsimp only
        unfold closeClass
        dsimp only
        rw [asString_data]
        rw [hcl]
        dsimp only
        simp only [if_true]
        have hfinL : ('[' :: ((((if f1 = true then [['^']] else []) ++
            (if f2 = true then [['-']] else [])) ++ items) ++ [['-']] ++ [t]).flatten) ++ [']'] =
            ('[' :: (G1 ++ (G2 ++ (items.flatten ++ ('-' :: t))))) ++ [']'] := by
          rw [hG1, hG2]
          cases f1 <;> cases f2 <;> simp
        have hfinN : o + 1 + G1.length + G2.length + items.flatten.length + 1 + t.length + 1 =
            o + (('[' :: (G1 ++ (G2 ++ (items.flatten ++ ('-' :: t))))) ++ [']']).length := by
          simp [List.length_append]
          omega
        rw [hfinL, hfinN]
        simp [List.append_assoc]

/-! ### The render-then-re-parse induction (C1) -/

/-- Whether the cursor after reading this item has absorbed a following
single space: true for every item except quantified ones (whose read ends
right at the consumed suffix) and comments (returned before the quantifier
probes); for all others the failing quantifier probes skip whitespace. -/
def eatsWs : Node → Bool
  | .Optional _ => false
  | .ZeroOrMore _ => false
  | .OneOrMore _ => false
  | .Terminal _ cls => !(cls == "comment")
  | _ => true

/-- Whitespace absorbed by a failing quantifier probe. -/
def wsEat : List Char → Nat
  | ' ' :: _ => 1
  | _ => 0

/-- What may follow a rendered atom: nothing, or a quantifier suffix, a
space, an alternation bar or a closing brace. -/
def AFollow (r : List Char) : Prop :=
  r = [] ∨ ∃ c r2, r = c :: r2 ∧ (c = '?' ∨ c = '*' ∨ c = '+' ∨ c = ' ' ∨ c = '|' ∨ c = ')')

/-- What may follow a rendered sequence: nothing, a closing brace, or a
space followed by an alternation bar. -/
def SFollow (r : List Char) : Prop :=
  r = [] ∨ (∃ r2, r = ')' :: r2) ∨ (∃ r2, r = ' ' :: '|' :: r2)

/-- What may follow a rendered alternation: nothing or a closing brace. -/
def AltFollow (r : List Char) : Prop :=
  r = [] ∨ ∃ r2, r = ')' :: r2

theorem RestOk_AFollow {r : List Char} (h : RestOk r) : AFollow r := by
  rcases h with rfl | ⟨r2, rfl⟩ | ⟨r2, rfl⟩ | ⟨c, r2, rfl, hc⟩
  · exact Or.inl rfl
  · exact Or.inr ⟨'|', r2, rfl, by simp⟩
  · exact Or.inr ⟨')', r2, rfl, by simp⟩
  · exact Or.inr ⟨' ', c :: r2, rfl, by simp⟩

theorem SFollow_RestOk {r : List Char} (h : SFollow r) : RestOk r := by
  rcases h with rfl | ⟨r2, rfl⟩ | ⟨r2, rfl⟩
  · exact Or.inl rfl
  · exact Or.inr (Or.inr (Or.inl ⟨r2, rfl⟩))
  · exact Or.inr (Or.inr (Or.inr ⟨'|', r2, rfl, Or.inr rfl⟩))

theorem AltFollow_SFollow {r : List Char} (h : AltFollow r) : SFollow r := by
  rcases h with rfl | ⟨r2, rfl⟩
  · exact Or.inl rfl
  · exact Or.inr (Or.inl ⟨r2, rfl⟩)

mutual
/-- Structural size of a tree. -/
def sizeN : Node → Nat
  | .Alternation xs => 1 + sizeL xs
  | .Sequence xs => 1 + sizeL xs
  | .Optional x => 1 + sizeN x
  | .ZeroOrMore x => 1 + sizeN x
  | .OneOrMore x => 1 + sizeN x
  | .Terminal _ _ => 1
  | .NonTerminal _ => 1
/-- Structural size of a child list. -/
def sizeL : List Node → Nat
  | [] => 0
  | x :: xs => sizeN x + sizeL xs
end

theorem sizeN_pos : ∀ t : Node, 1 ≤ sizeN t
  | .Alternation _ => by simp [sizeN]
  | .Sequence _ => by simp [sizeN]
  | .Optional _ => by simp [sizeN]
  | .ZeroOrMore _ => by simp [sizeN]
  | .OneOrMore _ => by simp [sizeN]
  | .Terminal _ _ => le_refl 1
  | .NonTerminal _ => le_refl 1

theorem sizeL_mem {x : Node} : ∀ {xs : List Node}, x ∈ xs → sizeN x ≤ sizeL xs := by
  intro xs
  induction xs with
  | nil => intro h; cases h
  | cons y ys ih =>
    intro h
    rcases List.mem_cons.mp h with rfl | h2
    · simp [sizeL]
    · have := ih h2
      simp [sizeL]
      omega

/-- Re-parse property of one rendered item: `readItem` at the item's
rendered text (after optional leading spaces) returns exactly the node, the
cursor at the end of the text plus the absorbed following space. -/
def PItem (s : List Char) (t : Node) : Prop :=
  ∀ off k rest, s.drop off = List.replicate k ' ' ++ (toEbnf t true).data ++ rest →
    RestOk rest →
    Evals s (.item off) (.ok (some t, off + k + (toEbnf t true).data.length +
      (if eatsWs t then wsEat rest else 0)))

/-- Re-parse property of one rendered atom: the matcher stage of `readItem`
recovers the node and its text end, and the quantifier probes then run at
that end (stated only for non-quantifier, non-comment nodes). -/
def PAtom (s : List Char) (t : Node) : Prop :=
  eatsWs t = true →
  ∀ off k after, s.drop off = List.replicate k ' ' ++ (toEbnf t true).data ++ after →
    AFollow after →
    Evals s (.item off) (.ok
      (some (readQuantifier s t (off + k + (toEbnf t true).data.length)).1,
       (readQuantifier s t (off + k + (toEbnf t true).data.length)).2))

/-- Re-parse property of a rendered sequence body (`brace = false`). -/
def PSeq (s : List Char) (t : Node) : Prop :=
  ∀ off k rest, s.drop off = List.replicate k ' ' ++ (toEbnf t false).data ++ rest →
    SFollow rest →
    Evals s (.seq off) (.ok (t, off + k + (toEbnf t false).data.length + wsEat rest))

/-- Re-parse property of a rendered alternation body (`brace = false`). -/
def PAlt (s : List Char) (t : Node) : Prop :=
  ∀ off k rest, s.drop off = List.replicate k ' ' ++ (toEbnf t false).data ++ rest →
    AltFollow rest →
    Evals s (.alt off) (.ok (t, off + k + (toEbnf t false).data.length))

end EbnfDoc
